import Mathlib

/-
Verification of the 2-D sliding-window median filter of src/filter.cc.

Modelling conventions:

* C `int` values appearing in the filter are semantically non-negative
  sizes and indices; they are embedded as `ℕ`.  The `half` counters of
  `Window`, which are updated with `op ∈ {+1, -1}`, and the quantities
  derived from them are embedded as `ℤ`; C integer division (truncation
  toward zero) is `Int.tdiv`.
* Floating point samples (`float` / `double`) are embedded as exact
  values: `Val := Option ℚ`, `none` playing the role of NaN.  Every
  comparison the filter performs happens between non-NaN samples, where
  the IEEE order agrees with the rational order, and the only arithmetic
  is `(a + b) / 2` on two non-NaN samples — a deterministic function of
  its two operands on both sides of each equality claim, so the exact
  embedding preserves those claims.
* Heap arrays are embedded as `List` (the word buffer `buf`, the
  `sorted` array, the latter as a growing list whose length plays the
  role of the `size` counter) or as total functions `ℕ → _` (the `rank`
  table and the input image; entries the code leaves uninitialized hold
  arbitrary junk that is proved never to matter).  The output buffer is
  embedded as the trace of writes `List (ℕ × Val)` a run performs;
  `applyWrites` replays the trace over an arbitrary initial buffer.
* `assert` statements are runtime no-ops (NDEBUG); the asserted
  propositions are stated separately (`Dim.asserts`, `BDim.wPre`,
  `Window.ValidUpd`) so that claims about them can be settled.
* The OpenMP parallel loop is a static partition of the block grid with
  per-worker private state and disjoint writes; the model executes the
  iteration space sequentially in the program order of the loop nest.
-/

namespace Skykit

/-- Sample values: `none` is NaN, `some q` a finite sample. -/
abbrev Val := Option ℚ

/-- Median of a multiset of (non-NaN) samples as §4.2 of the spec defines
it: NaN when the multiset is empty, the middle element for odd size, the
arithmetic mean of the two middle elements for even size.  This is the
specification-side comparison target (the "sort-based reference"). -/
def medSpec (m : Multiset ℚ) : Val :=
  let l := m.sort (· ≤ ·)
  let n := l.length
  if n = 0 then none
  else
    let g1 := (n - 1) / 2
    let g2 := n / 2
    if g1 = g2 then some (l.getD g1 0)
    else some ((l.getD g1 0 + l.getD g2 0) / 2)

/-! Bit primitives (filter.cc lines 12-43). -/

/-- Ascending list of the set-bit indices of a natural number (semantic
view used to specify the bit primitives). -/
def bitIdxs (x : ℕ) : List ℕ :=
  if x = 0 then []
  else (if x % 2 = 1 then [0] else []) ++ (bitIdxs (x / 2)).map (· + 1)
termination_by x
decreasing_by exact Nat.div_lt_self (by omega) (by omega)

/-- Popcount (`__builtin_popcountll`); faithful for words below `2 ^ 64`,
which the `Window` invariant guarantees. -/
def popcnt64 (x : ℕ) : ℕ := (bitIdxs x).length

/-- Count trailing zeros (`__builtin_ctzll`).  The C builtin is undefined
at 0; the model returns 64 there, and every use site is proved to pass a
nonzero word. -/
def ctz64 (x : ℕ) : ℕ :=
  if x = 0 then 64
  else if x % 2 = 1 then 0
  else ctz64 (x / 2) + 1
termination_by x
decreasing_by exact Nat.div_lt_self (by omega) (by omega)

/-- One step `x &= x - 1` of the portable `findnth64` loop: clear the
lowest set bit. -/
def clearLowest (x : ℕ) : ℕ := x &&& (x - 1)

/-- Portable path of `findnth64` (filter.cc lines 30-39): clear the lowest
set bit `n` times, then count trailing zeros. -/
def findnth64 (x : ℕ) (n : ℕ) : ℕ := ctz64 (clearLowest^[n] x)

/-- Model of the x86 PDEP instruction (`_pdep_u64`): the low bits of `src`
are deposited, in ascending order, into the set-bit positions of `mask`. -/
def pdep (src mask : ℕ) : ℕ :=
  if mask = 0 then 0
  else if mask % 2 = 1 then src % 2 + 2 * pdep (src / 2) (mask / 2)
  else 2 * pdep src (mask / 2)
termination_by mask
decreasing_by all_goals exact Nat.div_lt_self (by omega) (by omega)

/-- AVX2 path of `findnth64`: deposit the single bit `1 ≪ n` onto `x`,
then count trailing zeros. -/
def findnth64_pdep (x : ℕ) (n : ℕ) : ℕ := ctz64 (pdep (1 <<< n) x)

/-! The sliding-window bitset (class `Window`, filter.cc lines 142-216). -/

/-- Bit-packed sliding window.  `buf` is the 64-bit word buffer (length
`words`, each entry < 2^64), `half0`/`half1` the popcount of the words
strictly below / at or above the pivot word `p`. -/
structure Window where
  words : ℕ
  buf : List ℕ
  half0 : ℤ
  half1 : ℤ
  p : ℕ
deriving DecidableEq

/-- Buffer length in 64-bit words (`get_words`). -/
def Window.getWords (bb : ℕ) : ℕ := (bb + 64 - 1) / 64

/-- Constructor state: the C constructor allocates `buf` uninitialized and
leaves `half`/`p` unset; the code always calls `clear` before use, and the
model fills the junk with zeros. -/
def Window.init (bb : ℕ) : Window :=
  ⟨Window.getWords bb, List.replicate (Window.getWords bb) 0, 0, 0, 0⟩

/-- Method `Window::clear`. -/
def Window.clear (w : Window) : Window :=
  { w with buf := List.replicate w.words 0, half0 := 0, half1 := 0,
           p := w.words / 2 }

/-- Method `Window::update`: toggle bit `s`, adjust the half counter on
the side of the pivot that contains it. -/
def Window.update (w : Window) (op : ℤ) (s : ℕ) : Window :=
  let i := s >>> 6
  let j := s &&& 63
  { w with
    buf := w.buf.set i (w.buf.getD i 0 ^^^ 1 <<< j),
    half0 := if i ≥ w.p then w.half0 else w.half0 + op,
    half1 := if i ≥ w.p then w.half1 + op else w.half1 }

/-- Method `Window::size`. -/
def Window.size (w : Window) : ℤ := w.half0 + w.half1

/-- First loop of `Window::find`: move the pivot left while the lower half
holds more than `goal` bits.  The guard `w.p ≠ 0` is a model artifact: C
would read `buf[-1]` there, and the invariant proves the case unreachable
(`half0 = 0` when `p = 0`). -/
def Window.findDown (w : Window) (goal : ℤ) : Window :=
  if h : goal < w.half0 ∧ w.p ≠ 0 then
    let q := w.p - 1
    let pc : ℤ := popcnt64 (w.buf.getD q 0)
    Window.findDown { w with p := q, half0 := w.half0 - pc, half1 := w.half1 + pc } goal
  else w
termination_by w.p
decreasing_by omega

/-- Second loop of `Window::find`: move the pivot right while the word at
the pivot still leaves the goal at or above it.  The guard `w.p < w.words`
is a model artifact: C would read past the buffer there, and the invariant
proves the case unreachable when `goal < size`. -/
def Window.findUp (w : Window) (goal : ℤ) : Window :=
  if h : (w.half0 + popcnt64 (w.buf.getD w.p 0) ≤ goal) ∧ w.p < w.words then
    let pc : ℤ := popcnt64 (w.buf.getD w.p 0)
    Window.findUp { w with half0 := w.half0 + pc, half1 := w.half1 - pc, p := w.p + 1 } goal
  else w
termination_by w.words - w.p
decreasing_by omega

/-- Method `Window::find`: returns the index of the `(goal+1)`-th set bit
together with the mutated state (the pivot walk updates `p` and the
halves in place). -/
def Window.find (w : Window) (goal : ℤ) : ℕ × Window :=
  let w2 := (w.findDown goal).findUp goal
  let n := goal - w2.half0
  let j := findnth64 (w2.buf.getD w2.p 0) n.toNat
  ((w2.p <<< 6) ||| j, w2)

/-! Semantic views of a window state. -/

/-- Bit `s` of the window bitset. -/
def Window.bitAt (w : Window) (s : ℕ) : Bool :=
  (w.buf.getD (s >>> 6) 0).testBit (s &&& 63)

/-- Ascending enumeration of all set bit positions of the window. -/
def Window.allBits (w : Window) : List ℕ :=
  (List.range w.words).flatMap fun k => (bitIdxs (w.buf.getD k 0)).map (64 * k + ·)

/-- The window bitset as a finite set. -/
def Window.wFinset (w : Window) : Finset ℕ := w.allBits.toFinset

/-- Number of set bits strictly below position `i`. -/
def Window.countBelow (w : Window) (i : ℕ) : ℕ :=
  ((List.range i).filter fun s => w.bitAt s).length

/-- Ascending set-bit enumeration of the first `m` words delivered by `f`
(generalized proof view of `Window.allBits`). -/
def wordBits (f : ℕ → ℕ) (m : ℕ) : List ℕ :=
  (List.range m).flatMap fun k => (bitIdxs (f k)).map (64 * k + ·)

/-- Word access function of a window buffer. -/
def bufFun (w : Window) : ℕ → ℕ := fun k => w.buf.getD k 0

/-- Data-structure invariant of `Window`, from the comments in filter.cc:
`half[0]` is the popcount of `buf[0] … buf[p-1]`, `half[1]` that of
`buf[p] … buf[words-1]`. -/
structure Window.Inv (w : Window) : Prop where
  hlen : w.buf.length = w.words
  hwords : 1 ≤ w.words
  hfit : ∀ k, bufFun w k < 2 ^ 64
  hple : w.p ≤ w.words
  hh0 : w.half0 = ∑ k ∈ Finset.range w.p, (popcnt64 (bufFun w k) : ℤ)
  hh1 : w.half1 = ∑ k ∈ Finset.Ico w.p w.words, (popcnt64 (bufFun w k) : ℤ)

/-- Valid single update: insert a bit that is absent or remove one that is
present, within the buffer capacity — the `assert`s of `Window::update`. -/
def Window.ValidUpd (w : Window) (op : ℤ) (s : ℕ) : Prop :=
  s < 64 * w.words ∧ ((op = 1 ∧ w.bitAt s = false) ∨ (op = -1 ∧ w.bitAt s = true))

/-- Window states reachable from `clear()` by valid updates and `find`
queries. -/
inductive Window.Reach : Window → Prop
  | clear (w0 : Window) (hl : w0.buf.length = w0.words) (hw : 1 ≤ w0.words) :
      Window.Reach w0.clear
  | update (w : Window) (op : ℤ) (s : ℕ) : Window.Reach w → w.ValidUpd op s →
      Window.Reach (w.update op s)
  | query (w : Window) (goal : ℤ) : Window.Reach w → Window.Reach (w.find goal).2

/-! The rank layer (template class `WindowRank`, filter.cc lines 219-292). -/

/-- Lexicographic order on the `(value, slot)` pairs of the `sorted`
array: the comparison `std::sort` applies to `std::pair<T, int>` (the
values compared are never NaN — `init_feed` filters NaN out). -/
def pairLe (a b : ℚ × ℕ) : Prop := a.1 < b.1 ∨ (a.1 = b.1 ∧ a.2 ≤ b.2)

instance : DecidableRel pairLe := fun a b => by
  unfold pairLe; infer_instance

instance : IsTotal (ℚ × ℕ) pairLe :=
  ⟨fun a b => by unfold pairLe; rcases lt_trichotomy a.1 b.1 with h | h | h <;> [skip; skip; skip] <;> first
    | exact Or.inl (Or.inl h)
    | exact Or.inr (Or.inl h)
    | (rcases Nat.le_total a.2 b.2 with h2 | h2
       · exact Or.inl (Or.inr ⟨h, h2⟩)
       · exact Or.inr (Or.inr ⟨h.symm, h2⟩))⟩

instance : IsTrans (ℚ × ℕ) pairLe :=
  ⟨fun a b c hab hbc => by
    unfold pairLe at *
    rcases hab with h | ⟨he, h2⟩ <;> rcases hbc with h' | ⟨he', h2'⟩
    · exact Or.inl (h.trans h')
    · exact Or.inl (he' ▸ h)
    · exact Or.inl (he ▸ h')
    · exact Or.inr ⟨he.trans he', h2.trans h2'⟩⟩

instance : IsAntisymm (ℚ × ℕ) pairLe :=
  ⟨fun a b hab hba => by
    unfold pairLe at *
    rcases hab with h | ⟨he, h2⟩ <;> rcases hba with h' | ⟨he', h2'⟩
    · exact absurd h' (lt_asymm h)
    · exact absurd h (he' ▸ lt_irrefl _)
    · exact absurd h' (he ▸ lt_irrefl _)
    · exact Prod.ext he (Nat.le_antisymm h2 h2')⟩

/-- Rank sentinel for NaN cells (`NAN_MARKER = -1`). -/
def NAN_MARKER : ℤ := -1

/-- State of `WindowRank<T>`.  `sorted` is modelled as a growing list (its
length is the C `size` counter); `rank` as a total function whose entries
are junk until written. -/
structure WindowRank where
  bb : ℕ
  sorted : List (ℚ × ℕ)
  rank : ℕ → ℤ
  window : Window

/-- Constructor state; `sorted` and `rank` are allocated uninitialized in
C, the junk is modelled by `[]` and the constant-0 function. -/
def WindowRank.init (bb : ℕ) : WindowRank :=
  ⟨bb, [], fun _ => 0, Window.init bb⟩

/-- Method `init_start` (resets the fill counter). -/
def WindowRank.init_start (wr : WindowRank) : WindowRank :=
  { wr with sorted := [] }

/-- Method `init_feed`. -/
def WindowRank.init_feed (wr : WindowRank) (value : Val) (slot : ℕ) : WindowRank :=
  match value with
  | none => { wr with rank := Function.update wr.rank slot NAN_MARKER }
  | some v => { wr with sorted := wr.sorted ++ [(v, slot)] }

/-- Method `init_finish`: sort `sorted` by `(value, slot)` and write each
entry's position into `rank` at its slot. -/
def WindowRank.init_finish (wr : WindowRank) : WindowRank :=
  let s := wr.sorted.insertionSort pairLe
  { wr with
    sorted := s,
    rank := (List.range s.length).foldl
      (fun r i => Function.update r (s.getD i (0, 0)).2 (i : ℤ)) wr.rank }

/-- Method `WindowRank::clear`. -/
def WindowRank.clear (wr : WindowRank) : WindowRank :=
  { wr with window := wr.window.clear }

/-- Method `WindowRank::update`: skip NaN cells, otherwise toggle the
cell's rank bit. -/
def WindowRank.update (wr : WindowRank) (op : ℤ) (slot : ℕ) : WindowRank :=
  let s := wr.rank slot
  if s ≠ NAN_MARKER then { wr with window := wr.window.update op s.toNat } else wr

/-- Method `get_med` (filter.cc lines 266-283), returning the median value
together with the mutated state (`find` updates the window pivot). -/
def WindowRank.get_med (wr : WindowRank) : Val × WindowRank :=
  let total := wr.window.size
  if total = 0 then (none, wr)
  else
    let goal1 := (total - 1).tdiv 2
    let goal2 := (total - 0).tdiv 2
    let r1 := wr.window.find goal1
    let value := (wr.sorted.getD r1.1 (0, 0)).1
    if goal2 ≠ goal1 then
      let r2 := r1.2.find goal2
      (some ((value + (wr.sorted.getD r2.1 (0, 0)).1) / 2), { wr with window := r2.2 })
    else
      (some value, { wr with window := r1.2 })

/-! Grid geometry (classes `Dim` and `BDim`, filter.cc lines 50-137). -/

/-- Per-axis block geometry. -/
structure Dim where
  size : ℕ
  h : ℕ
  step : ℕ
  count : ℕ
deriving DecidableEq

/-- Static helper `calc_step`. -/
def Dim.calcStep (b h : ℕ) : ℕ := b - 2 * h

/-- Static helper `calc_count`. -/
def Dim.calcCount (b size h : ℕ) : ℕ :=
  if size ≤ b then 1
  else
    let interior := size - 2 * h
    let step := Dim.calcStep b h
    (interior + step - 1) / step

/-- The `Dim` constructor. -/
def Dim.make (b size h : ℕ) : Dim :=
  ⟨size, h, Dim.calcStep b h, Dim.calcCount b size h⟩

/-- The four `assert`s of the `Dim` constructor. -/
abbrev Dim.asserts (b size h : ℕ) : Prop :=
  2 * h + 1 < b ∧ 1 ≤ (Dim.make b size h).count ∧
    size ≤ 2 * h + (Dim.make b size h).count * (Dim.make b size h).step ∧
    (2 * h + ((Dim.make b size h).count - 1) * (Dim.make b size h).step < size ∨
      (Dim.make b size h).count = 1)

/-- Per-axis placement of one tile (struct `BDim`).  The Python-object
fields `coords` and `radius` of the C struct are stored but never read by
the filter computation; they are omitted. -/
structure BDim where
  dim : Dim
  start : ℕ
  size : ℕ
  b0 : ℕ
  b1 : ℕ

/-- Method `BDim::set`. -/
def BDim.set (bd : BDim) (i : ℕ) : BDim :=
  let isFirst := i = 0
  let isLast := i + 1 = bd.dim.count
  let start := bd.dim.step * i
  let e := if isLast then bd.dim.size else 2 * bd.dim.h + (i + 1) * bd.dim.step
  let size := e - start
  { bd with start := start, size := size,
            b0 := if isFirst then 0 else bd.dim.h,
            b1 := if isLast then size else size - bd.dim.h }

/-- The `BDim` constructor (which calls `set(0)`). -/
def BDim.make (dim : Dim) : BDim := BDim.set ⟨dim, 0, 0, 0, 0⟩ 0

/-- Method `BDim::w0`: lower edge of the clipped window around `v`
(`std::max(0, v - h)` on C ints is truncated subtraction on `ℕ`). -/
def BDim.w0 (bd : BDim) (v : ℕ) : ℕ := v - bd.dim.h

/-- Method `BDim::w1`: upper edge of the clipped window around `v`. -/
def BDim.w1 (bd : BDim) (v : ℕ) : ℕ := min (v + 1 + bd.dim.h) bd.size

/-- Precondition asserted by `BDim::w0` and `BDim::w1`. -/
abbrev BDim.wPre (bd : BDim) (v : ℕ) : Prop := bd.b0 ≤ v ∧ v < bd.b1

/-- Image-coordinate interior of axis tile `i`: the half-open interval
`[start + b0, start + b1)` of the placed `BDim`. -/
def tileInterior (d : Dim) (i : ℕ) : Finset ℕ :=
  Finset.Ico (((BDim.make d).set i).start + ((BDim.make d).set i).b0)
    (((BDim.make d).set i).start + ((BDim.make d).set i).b1)

/-! The per-block worker (template class `MedCalc2D`, filter.cc 297-400). -/

/-- State of one worker.  The output buffer is not a field: writes are
returned as a trace.  The vestigial Python-object parameters of the C
constructor are never read and are omitted. -/
structure MedCalc2D where
  wr : WindowRank
  bx : BDim
  bY : BDim
  input : ℕ → Val

/-- The `MedCalc2D` constructor. -/
def MedCalc2D.make (b : ℕ) (dimx dimy : Dim) (input : ℕ → Val) : MedCalc2D :=
  ⟨WindowRank.init (b * b), BDim.make dimx, BDim.make dimy, input⟩

/-- Method `pack`. -/
def MedCalc2D.pack (mc : MedCalc2D) (x y : ℕ) : ℕ := y * mc.bx.size + x

/-- Method `coord`. -/
def MedCalc2D.coord (mc : MedCalc2D) (x y : ℕ) : ℕ :=
  (y + mc.bY.start) * mc.bx.dim.size + (x + mc.bx.start)

/-- Method `calc_rank`: feed the tile in row-major order, then finish. -/
def MedCalc2D.calc_rank (mc : MedCalc2D) : MedCalc2D :=
  let wr1 := (List.range mc.bY.size).foldl
    (fun wr y => (List.range mc.bx.size).foldl
      (fun wr x => wr.init_feed (mc.input (mc.coord x y)) (mc.pack x y)) wr)
    mc.wr.init_start
  { mc with wr := wr1.init_finish }

/-- Method `update_block`: apply `update` to every cell of the rectangle
`[x0, x1) × [y0, y1)`, y outer, x inner. -/
def MedCalc2D.update_block (mc : MedCalc2D) (op : ℤ) (x0 x1 y0 y1 : ℕ) : MedCalc2D :=
  let wr1 := (List.range' y0 (y1 - y0)).foldl
    (fun wr y => (List.range' x0 (x1 - x0)).foldl
      (fun wr x => wr.update op (mc.pack x y)) wr) mc.wr
  { mc with wr := wr1 }

/-- Method `set_med`: query the median and write it at `(x, y)`; the write
is returned as an (index, value) pair of the trace. -/
def MedCalc2D.set_med (mc : MedCalc2D) (x y : ℕ) : MedCalc2D × (ℕ × Val) :=
  let r := mc.wr.get_med
  ({ mc with wr := r.2 }, (mc.coord x y, r.1))

/-- The serpentine `while (true)` loop of `MedCalc2D::medians` (the
non-NAIVE path), with explicit fuel.  The loop body is translated
literally; `medians` passes one more unit of fuel than the number of
interior cells, which the correctness proof shows is never exhausted. -/
def MedCalc2D.snake (mc : MedCalc2D) (fuel x y : ℕ) (down : Bool)
    (acc : List (ℕ × Val)) : MedCalc2D × List (ℕ × Val) :=
  match fuel with
  | 0 => (mc, acc)
  | fuel + 1 =>
    let rd :=
      if down then (if y + 1 = mc.bY.b1 then (true, false) else (false, down))
      else (if y = mc.bY.b0 then (true, true) else (false, down))
    let right := rd.1
    let down := rd.2
    if right ∧ x + 1 = mc.bx.b1 then (mc, acc)
    else if right then
      let mc1 := mc.update_block (-1) (mc.bx.w0 x) (mc.bx.w0 (x + 1)) (mc.bY.w0 y) (mc.bY.w1 y)
      let x := x + 1
      let mc2 := mc1.update_block 1 (mc1.bx.w1 (x - 1)) (mc1.bx.w1 x) (mc1.bY.w0 y) (mc1.bY.w1 y)
      let r := mc2.set_med x y
      MedCalc2D.snake r.1 fuel x y down (acc ++ [r.2])
    else if down then
      let mc1 := mc.update_block (-1) (mc.bx.w0 x) (mc.bx.w1 x) (mc.bY.w0 y) (mc.bY.w0 (y + 1))
      let y := y + 1
      let mc2 := mc1.update_block 1 (mc1.bx.w0 x) (mc1.bx.w1 x) (mc1.bY.w1 (y - 1)) (mc1.bY.w1 y)
      let r := mc2.set_med x y
      MedCalc2D.snake r.1 fuel x y down (acc ++ [r.2])
    else
      let mc1 := mc.update_block (-1) (mc.bx.w0 x) (mc.bx.w1 x) (mc.bY.w1 (y - 1)) (mc.bY.w1 y)
      let y := y - 1
      let mc2 := mc1.update_block 1 (mc1.bx.w0 x) (mc1.bx.w1 x) (mc1.bY.w0 y) (mc1.bY.w0 (y + 1))
      let r := mc2.set_med x y
      MedCalc2D.snake r.1 fuel x y down (acc ++ [r.2])

/-- Method `medians`, snake path: clear, build the initial window, emit
the first median, then run the serpentine loop. -/
def MedCalc2D.medians (mc : MedCalc2D) : MedCalc2D × List (ℕ × Val) :=
  let mc0 := { mc with wr := mc.wr.clear }
  let x := mc0.bx.b0
  let y := mc0.bY.b0
  let mc1 := mc0.update_block 1 (mc0.bx.w0 x) (mc0.bx.w1 x) (mc0.bY.w0 y) (mc0.bY.w1 y)
  let r := mc1.set_med x y
  MedCalc2D.snake r.1 ((mc1.bx.b1 - mc1.bx.b0) * (mc1.bY.b1 - mc1.bY.b0) + 1) x y true [r.2]

/-- Method `medians`, `#ifdef NAIVE` reference path: rebuild the window
from scratch at every interior cell. -/
def MedCalc2D.medians_naive (mc : MedCalc2D) : MedCalc2D × List (ℕ × Val) :=
  (List.range' mc.bY.b0 (mc.bY.b1 - mc.bY.b0)).foldl
    (fun a y => (List.range' mc.bx.b0 (mc.bx.b1 - mc.bx.b0)).foldl
      (fun a x =>
        let mc0 := { a.1 with wr := a.1.wr.clear }
        let mc1 := mc0.update_block 1 (mc0.bx.w0 x) (mc0.bx.w1 x) (mc0.bY.w0 y) (mc0.bY.w1 y)
        let r := mc1.set_med x y
        (r.1, a.2 ++ [r.2])) a) (mc, [])

/-- Method `run`: place the tile, build the rank table, emit medians. -/
def MedCalc2D.run (mc : MedCalc2D) (bxi byi : ℕ) : MedCalc2D × List (ℕ × Val) :=
  let mc0 := { mc with bx := mc.bx.set bxi, bY := mc.bY.set byi }
  mc0.calc_rank.medians

/-- Variant of `run` that uses the NAIVE path. -/
def MedCalc2D.run_naive (mc : MedCalc2D) (bxi byi : ℕ) : MedCalc2D × List (ℕ × Val) :=
  let mc0 := { mc with bx := mc.bx.set bxi, bY := mc.bY.set byi }
  mc0.calc_rank.medians_naive

/-! The driver (filter.cc lines 17-23 and 404-434). -/

/-- Default 2-D block size. -/
def choose_blocksize_2d (h : ℕ) : ℕ := 4 * (h + 2)

/-- Driver `median_filter_impl_2d`.  The OpenMP iteration space is
executed sequentially in program order (by outer, bx inner) by a single
worker; the error is the `std::invalid_argument` throw. -/
def median_filter_impl_2d (x y hx hy b : ℕ) (input : ℕ → Val) :
    Except String (List (ℕ × Val)) :=
  if 2 * hx + 1 > b ∨ 2 * hy + 1 > b then
    .error "window too large for this block size"
  else
    let dimx := Dim.make b x hx
    let dimy := Dim.make b y hy
    let mc := MedCalc2D.make b dimx dimy input
    .ok ((List.range dimy.count).foldl
      (fun a byi => (List.range dimx.count).foldl
        (fun a bxi => ((a.1.run bxi byi).1, a.2 ++ (a.1.run bxi byi).2)) a)
      (mc, [])).2

/-- Variant of the driver that runs the NAIVE path (the `#ifdef` chooses
one of the two at compile time). -/
def median_filter_impl_2d_naive (x y hx hy b : ℕ) (input : ℕ → Val) :
    Except String (List (ℕ × Val)) :=
  if 2 * hx + 1 > b ∨ 2 * hy + 1 > b then
    .error "window too large for this block size"
  else
    let dimx := Dim.make b x hx
    let dimy := Dim.make b y hy
    let mc := MedCalc2D.make b dimx dimy input
    .ok ((List.range dimy.count).foldl
      (fun a byi => (List.range dimx.count).foldl
        (fun a bxi => ((a.1.run_naive bxi byi).1, a.2 ++ (a.1.run_naive bxi byi).2)) a)
      (mc, [])).2

/-- Entry point `median_filter_2d`: resolve the block size, delegate. -/
def median_filter_2d (x y hx hy blockhint : ℕ) (input : ℕ → Val) :
    Except String (List (ℕ × Val)) :=
  let h := max hx hy
  let blocksize := if blockhint ≠ 0 then blockhint else choose_blocksize_2d h
  median_filter_impl_2d x y hx hy blocksize input

/-- Replay a write trace over an initial output buffer. -/
def applyWrites (ws : List (ℕ × Val)) (out0 : ℕ → Val) : ℕ → Val :=
  ws.foldl (fun o wv => Function.update o wv.1 wv.2) out0

/-! Specification-side reference (§3, §4.2 of the spec). -/

/-- Clipped window around image cell `(gx, gy)`. -/
def windowIdx (X Y hx hy gx gy : ℕ) : Finset (ℕ × ℕ) :=
  Finset.Ico (gx - hx) (min X (gx + hx + 1)) ×ˢ Finset.Ico (gy - hy) (min Y (gy + hy + 1))

/-- Sort-based reference median at an image cell: the §4.2 median of the
multiset of non-NaN samples inside the clipped window. -/
def refMedian (X Y hx hy : ℕ) (input : ℕ → Val) (gx gy : ℕ) : Val :=
  medSpec (((windowIdx X Y hx hy gx gy).val.map fun c => input (c.2 * X + c.1)).filterMap id)

/-! Reachable `WindowRank` states, as the claims quantify over them. -/

/-- Feed-list validity: positive capacity, pairwise distinct slot numbers
within capacity.  (The slots `calc_rank` feeds are the packed indices of
distinct tile cells.) -/
def ValidFeeds (bb : ℕ) (feeds : List (Val × ℕ)) : Prop :=
  1 ≤ bb ∧ (feeds.map Prod.snd).Nodup ∧ ∀ pr ∈ feeds, pr.2 < bb

/-- Feed a whole list into `init_feed`. -/
def WindowRank.feedAll (wr : WindowRank) (feeds : List (Val × ℕ)) : WindowRank :=
  feeds.foldl (fun a pr => a.init_feed pr.1 pr.2) wr

/-- Capacity compatibility of a starting state: words and buffer length as
allocated for capacity `bb` (what the constructor provides and every
operation preserves). -/
def WindowRank.Cap (wr : WindowRank) (bb : ℕ) : Prop :=
  wr.window.words = Window.getWords bb ∧ wr.window.buf.length = wr.window.words

/-- `WindowRank` states reachable by a valid init (from any
capacity-compatible prior state — the driver reuses the worker across
blocks), a `clear`, and then valid updates and median queries; `C` tracks
the set of slots currently inserted. -/
inductive WindowRank.Reach (bb : ℕ) (feeds : List (Val × ℕ)) :
    Finset ℕ → WindowRank → Prop
  | base (wr0 : WindowRank) : wr0.Cap bb → ValidFeeds bb feeds →
      WindowRank.Reach bb feeds ∅ ((wr0.init_start.feedAll feeds).init_finish).clear
  | insert (wr : WindowRank) (C : Finset ℕ) (v : Val) (slot : ℕ) :
      WindowRank.Reach bb feeds C wr → (v, slot) ∈ feeds → slot ∉ C →
      WindowRank.Reach bb feeds (insert slot C) (wr.update 1 slot)
  | erase (wr : WindowRank) (C : Finset ℕ) (slot : ℕ) :
      WindowRank.Reach bb feeds C wr → slot ∈ C →
      WindowRank.Reach bb feeds (C.erase slot) (wr.update (-1) slot)
  | query (wr : WindowRank) (C : Finset ℕ) :
      WindowRank.Reach bb feeds C wr → WindowRank.Reach bb feeds C (wr.get_med).2

/-- Multiset of non-NaN sample values currently in the window: slots in
`C` looked up in the feed list, NaNs dropped. -/
def activeVals (feeds : List (Val × ℕ)) (C : Finset ℕ) : Multiset ℚ :=
  ((feeds.filter fun pr => pr.2 ∈ C).filterMap Prod.fst : List ℚ)

/-- The feed list `calc_rank` produces: tile cells in row-major order. -/
def blockFeeds (mc : MedCalc2D) : List (Val × ℕ) :=
  (List.range mc.bY.size).flatMap fun y =>
    (List.range mc.bx.size).map fun x => (mc.input (mc.coord x y), mc.pack x y)

/-- Non-NaN (value, slot) pairs of a feed list, in feed order. -/
def nnPairs (feeds : List (Val × ℕ)) : List (ℚ × ℕ) :=
  feeds.filterMap fun pr => pr.1.map fun v => (v, pr.2)

/-- Canonical contents of the `sorted` array after a valid init. -/
def sortedCanon (feeds : List (Val × ℕ)) : List (ℚ × ℕ) :=
  (nnPairs feeds).insertionSort pairLe

/-- Ranks of the non-NaN cells among the slots of `C`: the indices into
the canonical sorted array whose slot lies in `C`. -/
def rankSet (feeds : List (Val × ℕ)) (C : Finset ℕ) : Finset ℕ :=
  (Finset.range (sortedCanon feeds).length).filter
    fun i => ((sortedCanon feeds).getD i (0, 0)).2 ∈ C

/-- `pack` as a function of the tile width alone. -/
def packF (sx : ℕ) (c : ℕ × ℕ) : ℕ := c.2 * sx + c.1

/-- Cells of the rectangle `[x0, x1) × [y0, y1)`. -/
def rectCells (x0 x1 y0 y1 : ℕ) : Finset (ℕ × ℕ) :=
  Finset.Ico x0 x1 ×ˢ Finset.Ico y0 y1

/-- Tile cells covered by the window of interior cell `(x, y)`, in block
coordinates. -/
def winCells (mc : MedCalc2D) (x y : ℕ) : Finset (ℕ × ℕ) :=
  rectCells (mc.bx.w0 x) (mc.bx.w1 x) (mc.bY.w0 y) (mc.bY.w1 y)

/-- Packed slot numbers of those cells. -/
def winSlots (mc : MedCalc2D) (x y : ℕ) : Finset ℕ :=
  (winCells mc x y).image (packF mc.bx.size)

/-- Interior cells the snake loop still has to visit when entered at
`(x, y)` moving in direction `down`. -/
def remCells (mc : MedCalc2D) (x y : ℕ) (down : Bool) : Finset (ℕ × ℕ) :=
  ({x} ×ˢ (if down then Finset.Ico (y + 1) mc.bY.b1 else Finset.Ico mc.bY.b0 y)) ∪
    Finset.Ico (x + 1) mc.bx.b1 ×ˢ Finset.Ico mc.bY.b0 mc.bY.b1

/-- Row-major enumeration of the cells of `[0, sx) × [0, sy)`. -/
def rowMajor (sx sy : ℕ) : List (ℕ × ℕ) :=
  (List.range sy).flatMap fun y => (List.range sx).map fun x => (x, y)

/-- The median value the worker computes at interior cell `(x, y)`. -/
def valAt (mc : MedCalc2D) (x y : ℕ) : Val :=
  medSpec (activeVals (blockFeeds mc) (winSlots mc x y))

/-- Characterization of the write trace a worker emits for its block: one
write per interior cell, at the packed image coordinate, with the median
of that cell's window. -/
def BlockWrites (mc : MedCalc2D) (ws : List (ℕ × Val)) : Prop :=
  (ws.map Prod.fst).Nodup ∧
  ∀ iv, iv ∈ ws ↔ ∃ p : ℕ × ℕ, mc.bx.b0 ≤ p.1 ∧ p.1 < mc.bx.b1 ∧
    mc.bY.b0 ≤ p.2 ∧ p.2 < mc.bY.b1 ∧ iv = (mc.coord p.1 p.2, valAt mc p.1 p.2)

/-- One output write of the worker for block `(bxi, byi)`, in image
coordinates: the written index is the row-major position of an image cell
`g` in the interior of that block, and the value is the reference
median at `g`. -/
def DriverWrite (b X Y hx hy : ℕ) (input : ℕ → Val) (bxi byi : ℕ)
    (iv : ℕ × Val) : Prop :=
  ∃ g : ℕ × ℕ, g.1 ∈ tileInterior (Dim.make b X hx) bxi ∧
    g.2 ∈ tileInterior (Dim.make b Y hy) byi ∧
    iv = (g.2 * X + g.1, refMedian X Y hx hy input g.1 g.2)

/-- Geometry facts for tile `i` of an axis of length `size` with radius
`h` and block size `b` (proof view of a placed `BDim`). -/
structure TileFacts (b size h i : ℕ) (bd : BDim) : Prop where
  hstart : bd.start = (b - 2 * h) * i
  hA : bd.start + bd.b0 = if i = 0 then 0 else (b - 2 * h) * i + h
  hB : bd.start + bd.b1 =
    if i + 1 = (Dim.make b size h).count then size else h + (b - 2 * h) * (i + 1)
  hlen_le : bd.size ≤ b
  hb01 : bd.b0 < bd.b1
  hb1le : bd.b1 ≤ bd.size
  hinimg : bd.start + bd.size ≤ size
  hw0 : ∀ v, bd.b0 ≤ v → v < bd.b1 → bd.start + bd.w0 v = bd.start + v - h
  hw1 : ∀ v, bd.b0 ≤ v → v < bd.b1 →
    bd.start + bd.w1 v = min (bd.start + v + 1 + h) size

/-- Abstraction invariant tying a `WindowRank` state to its feed list and
the set `C` of currently inserted slots. -/
structure WRInv (bb : ℕ) (feeds : List (Val × ℕ)) (C : Finset ℕ)
    (wr : WindowRank) : Prop where
  hvfeeds : ValidFeeds bb feeds
  hsorted : wr.sorted = sortedCanon feeds
  hrank : ∀ i, i < (sortedCanon feeds).length →
    wr.rank ((sortedCanon feeds).getD i (0, 0)).2 = (i : ℤ)
  hnan : ∀ slot, (none, slot) ∈ feeds → wr.rank slot = NAN_MARKER
  hwords : wr.window.words = Window.getWords bb
  hwInv : wr.window.Inv
  hwin : wr.window.wFinset = rankSet feeds C
  hC : ∀ s ∈ C, s ∈ feeds.map Prod.snd

/-! Lemmas about the bit primitives. -/

theorem bitIdxs_zero : bitIdxs 0 = [] := by
  unfold bitIdxs; simp

theorem bitIdxs_two_mul (m : ℕ) : bitIdxs (2 * m) = (bitIdxs m).map (· + 1) := by
  rcases Nat.eq_zero_or_pos m with rfl | hm
  · unfold bitIdxs; simp
  · rw [bitIdxs]
    have h2 : ¬ (2 * m % 2 = 1) := by omega
    have h3 : 2 * m / 2 = m := by omega
    simp [h2, h3, Nat.mul_ne_zero, hm.ne']

theorem bitIdxs_two_mul_add_one (m : ℕ) :
    bitIdxs (2 * m + 1) = 0 :: (bitIdxs m).map (· + 1) := by
  rw [bitIdxs]
  have h3 : (2 * m + 1) / 2 = m := by omega
  simp [h3, Nat.mul_add_mod]

/-- Parity-based recursion principle matching the structure of `bitIdxs`. -/
theorem binary_rec_aux (P : ℕ → Prop) (h0 : P 0)
    (heven : ∀ m, m ≠ 0 → P m → P (2 * m))
    (hodd : ∀ m, P m → P (2 * m + 1)) : ∀ x, P x := by
  intro x
  induction x using Nat.strong_induction_on with
  | _ x ih =>
    rcases Nat.eq_zero_or_pos x with rfl | hx
    · exact h0
    rcases Nat.even_or_odd x with ⟨m, hm⟩ | ⟨m, hm⟩
    · have hmx : m < x := by omega
      have hm0 : m ≠ 0 := by omega
      exact hm ▸ (two_mul m ▸ heven m hm0 (ih m hmx))
    · have hmx : m < x := by omega
      exact hm ▸ hodd m (ih m hmx)

theorem mem_bitIdxs {x i : ℕ} : i ∈ bitIdxs x ↔ x.testBit i = true := by
  induction x using binary_rec_aux generalizing i with
  | h0 => simp [bitIdxs_zero, Nat.zero_testBit]
  | heven m hm ih =>
    rw [bitIdxs_two_mul]
    cases i with
    | zero =>
      simp only [Nat.testBit_zero, List.mem_map, decide_eq_true_eq]
      constructor
      · rintro ⟨j, _, hj⟩; omega
      · intro h; exact absurd h (by omega)
    | succ n =>
      rw [Nat.testBit_add_one]
      have h3 : 2 * m / 2 = m := by omega
      rw [h3]
      simp only [List.mem_map]
      constructor
      · rintro ⟨j, hj, hje⟩
        have hjn : j = n := by omega
        exact hjn ▸ ih.mp hj
      · intro h; exact ⟨n, ih.mpr h, rfl⟩
  | hodd m ih =>
    rw [bitIdxs_two_mul_add_one]
    cases i with
    | zero =>
      simp [Nat.testBit_zero, Nat.mul_add_mod]
    | succ n =>
      rw [Nat.testBit_add_one]
      have h3 : (2 * m + 1) / 2 = m := by omega
      rw [h3]
      simp only [List.mem_cons, List.mem_map]
      constructor
      · rintro (h | ⟨j, hj, hje⟩)
        · exact absurd h (by omega)
        · have hjn : j = n := by omega
          exact hjn ▸ ih.mp hj
      · intro h; exact Or.inr ⟨n, ih.mpr h, rfl⟩

theorem bitIdxs_sorted (x : ℕ) : List.Sorted (· < ·) (bitIdxs x) := by
  induction x using binary_rec_aux with
  | h0 => simp [bitIdxs_zero]
  | heven m hm ih =>
    rw [bitIdxs_two_mul]
    exact List.Pairwise.map _ (fun a b h => by omega) ih
  | hodd m ih =>
    rw [bitIdxs_two_mul_add_one]
    refine List.Pairwise.cons ?_ (List.Pairwise.map _ (fun a b h => by omega) ih)
    intro a ha
    rcases List.mem_map.mp ha with ⟨b, _, rfl⟩
    omega

theorem bitIdxs_nodup (x : ℕ) : (bitIdxs x).Nodup :=
  (bitIdxs_sorted x).nodup

theorem bitIdxs_lt {x n : ℕ} (hx : x < 2 ^ n) : ∀ i ∈ bitIdxs x, i < n := by
  intro i hi
  by_contra hn
  have h1 : x.testBit i = true := mem_bitIdxs.mp hi
  have h2 : x < 2 ^ i := lt_of_lt_of_le hx (Nat.pow_le_pow_right (by omega) (by omega))
  rw [Nat.testBit_lt_two_pow h2] at h1
  exact Bool.false_ne_true h1

theorem popcnt64_eq_card {x : ℕ} (hx : x < 2 ^ 64) :
    popcnt64 x = ((Finset.range 64).filter fun i => x.testBit i).card := by
  unfold popcnt64
  rw [← List.toFinset_card_of_nodup (bitIdxs_nodup x)]
  congr 1
  ext i
  simp only [List.mem_toFinset, Finset.mem_filter, Finset.mem_range, mem_bitIdxs]
  exact ⟨fun h => ⟨bitIdxs_lt hx i (mem_bitIdxs.mpr h), h⟩, fun h => h.2⟩

theorem popcnt64_xor_insert {x j : ℕ} (hx : x < 2 ^ 64) (hj : j < 64)
    (h : x.testBit j = false) : popcnt64 (x ^^^ 2 ^ j) = popcnt64 x + 1 := by
  have hp : (2 : ℕ) ^ j < 2 ^ 64 := Nat.pow_lt_pow_right (by omega) hj
  have hxx : x ^^^ 2 ^ j < 2 ^ 64 := Nat.xor_lt_two_pow hx hp
  rw [popcnt64_eq_card hxx, popcnt64_eq_card hx]
  have hset : ((Finset.range 64).filter fun i => (x ^^^ 2 ^ j).testBit i) =
      insert j ((Finset.range 64).filter fun i => x.testBit i) := by
    ext i
    simp only [Finset.mem_filter, Finset.mem_range, Finset.mem_insert, Nat.testBit_xor,
      Nat.testBit_two_pow]
    rcases eq_or_ne i j with rfl | hij
    · simp [h, hj]
    · simp [Ne.symm hij, hij]
  rw [hset, Finset.card_insert_of_not_mem (by simp [h])]

theorem popcnt64_xor_erase {x j : ℕ} (hx : x < 2 ^ 64) (hj : j < 64)
    (h : x.testBit j = true) : popcnt64 x = popcnt64 (x ^^^ 2 ^ j) + 1 := by
  have hp : (2 : ℕ) ^ j < 2 ^ 64 := Nat.pow_lt_pow_right (by omega) hj
  have hxx : x ^^^ 2 ^ j < 2 ^ 64 := Nat.xor_lt_two_pow hx hp
  have h2 : (x ^^^ 2 ^ j).testBit j = false := by
    simp [Nat.testBit_xor, h, Nat.testBit_two_pow]
  have h3 := popcnt64_xor_insert hxx hj h2
  rw [Nat.xor_assoc, Nat.xor_self, Nat.xor_zero] at h3
  omega

theorem ctz64_two_mul {m : ℕ} (hm : m ≠ 0) : ctz64 (2 * m) = ctz64 m + 1 := by
  rw [ctz64]
  have h2 : ¬ (2 * m % 2 = 1) := by omega
  have h3 : 2 * m / 2 = m := by omega
  simp [h2, h3, Nat.mul_ne_zero (by omega : (2 : ℕ) ≠ 0) hm]

theorem ctz64_two_mul_add_one (m : ℕ) : ctz64 (2 * m + 1) = 0 := by
  rw [ctz64]
  simp [Nat.mul_add_mod]

theorem bitIdxs_head {x : ℕ} (hx : x ≠ 0) : ∃ t, bitIdxs x = ctz64 x :: t := by
  induction x using binary_rec_aux with
  | h0 => exact absurd rfl hx
  | heven m hm ih =>
    rcases ih hm with ⟨t, ht⟩
    rw [bitIdxs_two_mul, ht, ctz64_two_mul hm]
    exact ⟨t.map (· + 1), rfl⟩
  | hodd m ih =>
    rw [bitIdxs_two_mul_add_one, ctz64_two_mul_add_one]
    exact ⟨(bitIdxs m).map (· + 1), rfl⟩

theorem bitIdxs_ne_nil {x : ℕ} (hx : x ≠ 0) : bitIdxs x ≠ [] := by
  rcases bitIdxs_head hx with ⟨t, ht⟩
  simp [ht]

theorem bitIdxs_eq_nil {x : ℕ} (hx : bitIdxs x = []) : x = 0 := by
  by_contra h
  exact bitIdxs_ne_nil h hx

theorem clearLowest_two_mul_add_one (m : ℕ) : clearLowest (2 * m + 1) = 2 * m := by
  unfold clearLowest
  have h1 : 2 * m + 1 - 1 = 2 * m := by omega
  rw [h1]
  apply Nat.eq_of_testBit_eq
  intro i
  cases i with
  | zero =>
    simp [Nat.testBit_land, Nat.testBit_zero, Nat.mul_add_mod, Nat.mul_mod_right]
  | succ n =>
    have h2 : (2 * m + 1) / 2 = m := by omega
    have h3 : 2 * m / 2 = m := by omega
    rw [Nat.testBit_land]
    simp only [Nat.testBit_add_one, h2, h3, Bool.and_self]

theorem clearLowest_two_mul (m : ℕ) : clearLowest (2 * m) = 2 * clearLowest m := by
  rcases Nat.eq_zero_or_pos m with rfl | hm
  · simp [clearLowest]
  unfold clearLowest
  apply Nat.eq_of_testBit_eq
  intro i
  cases i with
  | zero =>
    simp [Nat.testBit_land, Nat.testBit_zero, Nat.mul_mod_right]
  | succ n =>
    have h2 : 2 * m / 2 = m := by omega
    have h3 : (2 * m - 1) / 2 = m - 1 := by omega
    have h4 : 2 * (m &&& (m - 1)) / 2 = m &&& (m - 1) := by omega
    rw [Nat.testBit_land]
    simp only [Nat.testBit_add_one, h2, h3, h4]
    rw [Nat.testBit_land]

theorem bitIdxs_clearLowest (x : ℕ) : bitIdxs (clearLowest x) = (bitIdxs x).tail := by
  induction x using binary_rec_aux with
  | h0 => simp [clearLowest, bitIdxs_zero]
  | heven m hm ih =>
    rw [clearLowest_two_mul, bitIdxs_two_mul, bitIdxs_two_mul, ih, List.map_tail]
  | hodd m ih =>
    rw [clearLowest_two_mul_add_one, bitIdxs_two_mul, bitIdxs_two_mul_add_one, List.tail_cons]

theorem bitIdxs_clearLowest_iterate (x n : ℕ) :
    bitIdxs (clearLowest^[n] x) = (bitIdxs x).drop n := by
  induction n with
  | zero => simp
  | succ n ih =>
    rw [Function.iterate_succ_apply', bitIdxs_clearLowest, ih, List.tail_drop]

theorem ctz64_eq_getD {x : ℕ} (hx : x ≠ 0) : ctz64 x = (bitIdxs x).getD 0 0 := by
  rcases bitIdxs_head hx with ⟨t, ht⟩
  simp [ht]

/-- Exactness of the portable path of `findnth64`: it returns the
`(n+1)`-th set bit of `x` in ascending order. -/
theorem findnth64_spec {x n : ℕ} (hn : n < popcnt64 x) :
    findnth64 x n = (bitIdxs x).getD n 0 := by
  unfold findnth64
  have hlen : n < (bitIdxs x).length := hn
  have hdrop : bitIdxs (clearLowest^[n] x) = (bitIdxs x).drop n :=
    bitIdxs_clearLowest_iterate x n
  have hne : clearLowest^[n] x ≠ 0 := by
    intro h
    rw [h, bitIdxs_zero] at hdrop
    have := congrArg List.length hdrop
    simp at this
    omega
  rw [ctz64_eq_getD hne, hdrop]
  have h1 := List.head?_drop (bitIdxs x) n
  rcases h2 : ((bitIdxs x).drop n).head? with _ | a
  · rw [List.head?_eq_none_iff] at h2
    have := congrArg List.length h2
    simp at this
    omega
  · have hget : (bitIdxs x)[n]? = some a := by rw [← h1, h2]
    rcases h3 : (bitIdxs x).drop n with _ | ⟨b, t⟩
    · simp [h3] at h2
    · rw [h3] at h2
      simp at h2
      subst h2
      simp [h3, List.getD_eq_getElem?_getD, hget]

theorem pdep_zero (mask : ℕ) : pdep 0 mask = 0 := by
  induction mask using binary_rec_aux with
  | h0 => unfold pdep; simp
  | heven m hm ih =>
    rw [pdep]
    have h2 : ¬ (2 * m % 2 = 1) := by omega
    have h3 : 2 * m / 2 = m := by omega
    simp [h2, h3, Nat.mul_ne_zero, hm, ih]
  | hodd m ih =>
    rw [pdep]
    have h3 : (2 * m + 1) / 2 = m := by omega
    simp [h3, Nat.mul_add_mod, ih]

theorem popcnt64_two_mul (m : ℕ) : popcnt64 (2 * m) = popcnt64 m := by
  unfold popcnt64; rw [bitIdxs_two_mul]; simp

theorem popcnt64_two_mul_add_one (m : ℕ) : popcnt64 (2 * m + 1) = popcnt64 m + 1 := by
  unfold popcnt64; rw [bitIdxs_two_mul_add_one]; simp

theorem getD_map_add_one {l : List ℕ} {n : ℕ} (hn : n < l.length) :
    (l.map (· + 1)).getD n 0 = l.getD n 0 + 1 := by
  rw [List.getD_eq_getElem?_getD, List.getD_eq_getElem?_getD, List.getElem?_map,
    List.getElem?_eq_getElem hn]
  simp

theorem pdep_pow {mask : ℕ} : ∀ {n : ℕ}, n < popcnt64 mask →
    pdep (2 ^ n) mask = 2 ^ (bitIdxs mask).getD n 0 := by
  induction mask using binary_rec_aux with
  | h0 => intro n hn; simp [popcnt64, bitIdxs_zero] at hn
  | heven m hm ih =>
    intro n hn
    have hnm : n < popcnt64 m := by rw [popcnt64_two_mul] at hn; exact hn
    have h3 : 2 * m / 2 = m := by omega
    rw [pdep, if_neg (by omega : ¬ 2 * m = 0), if_neg (by omega : ¬ 2 * m % 2 = 1),
      h3, ih hnm, bitIdxs_two_mul, getD_map_add_one hnm, pow_succ]
    ring
  | hodd m ih =>
    intro n hn
    have h3 : (2 * m + 1) / 2 = m := by omega
    rw [pdep, if_neg (by omega : ¬ (2 * m + 1 = 0)),
      if_pos (by omega : (2 * m + 1) % 2 = 1), bitIdxs_two_mul_add_one]
    cases n with
    | zero =>
      simp [h3, pdep_zero]
    | succ n =>
      have hnm : n < popcnt64 m := by
        rw [popcnt64_two_mul_add_one] at hn; omega
      have hsrc2 : 2 ^ (n + 1) % 2 = 0 := by
        rw [pow_succ, Nat.mul_mod_left]
      have hsrc3 : 2 ^ (n + 1) / 2 = 2 ^ n := by
        rw [pow_succ, Nat.mul_div_cancel]; omega
      rw [hsrc2, hsrc3, h3, ih hnm, List.getD_cons_succ, getD_map_add_one hnm, pow_succ]
      ring

theorem ctz64_two_pow (k : ℕ) : ctz64 (2 ^ k) = k := by
  induction k with
  | zero => rw [ctz64]; simp
  | succ k ih =>
    rw [ctz64]
    have h1 : (2 : ℕ) ^ (k + 1) ≠ 0 := by positivity
    have h2 : ¬ (2 ^ (k + 1) % 2 = 1) := by
      rw [pow_succ, Nat.mul_mod_left]; omega
    have h3 : 2 ^ (k + 1) / 2 = 2 ^ k := by
      rw [pow_succ, Nat.mul_div_cancel]; omega
    simp [h1, h2, h3, ih]

/-- Exactness of the AVX2 (PDEP) path of `findnth64`. -/
theorem findnth64_pdep_spec {x n : ℕ} (hn : n < popcnt64 x) :
    findnth64_pdep x n = (bitIdxs x).getD n 0 := by
  unfold findnth64_pdep
  have h1 : (1 : ℕ) <<< n = 2 ^ n := by
    rw [Nat.shiftLeft_eq, one_mul]
  rw [h1, pdep_pow hn, ctz64_two_pow]

/-! Lemmas about the window bitset views. -/

theorem getD_map_addL {c : ℕ} {l : List ℕ} {n : ℕ} (hn : n < l.length) :
    (l.map (c + ·)).getD n 0 = c + l.getD n 0 := by
  rw [List.getD_eq_getElem?_getD, List.getD_eq_getElem?_getD, List.getElem?_map,
    List.getElem?_eq_getElem hn]
  simp

theorem wordBits_succ (f : ℕ → ℕ) (m : ℕ) :
    wordBits f (m + 1) = wordBits f m ++ (bitIdxs (f m)).map (64 * m + ·) := by
  unfold wordBits
  rw [List.range_succ, List.flatMap_append]
  simp

theorem mem_wordBits {f : ℕ → ℕ} (hf : ∀ k, f k < 2 ^ 64) {m s : ℕ} :
    s ∈ wordBits f m ↔ s / 64 < m ∧ (f (s / 64)).testBit (s % 64) = true := by
  unfold wordBits
  rw [List.mem_flatMap]
  constructor
  · rintro ⟨k, hk, hs⟩
    rcases List.mem_map.mp hs with ⟨i, hi, rfl⟩
    have hi64 : i < 64 := bitIdxs_lt (hf k) i hi
    have hdiv : (64 * k + i) / 64 = k := by omega
    have hmod : (64 * k + i) % 64 = i := by omega
    rw [hdiv, hmod]
    exact ⟨List.mem_range.mp hk, mem_bitIdxs.mp hi⟩
  · rintro ⟨hk, hbit⟩
    exact ⟨s / 64, List.mem_range.mpr hk,
      List.mem_map.mpr ⟨s % 64, mem_bitIdxs.mpr hbit, by omega⟩⟩

theorem wordBits_bound {f : ℕ → ℕ} (hf : ∀ k, f k < 2 ^ 64) {m : ℕ} :
    ∀ s ∈ wordBits f m, s < 64 * m := by
  intro s hs
  have := (mem_wordBits hf).mp hs
  omega

theorem wordBits_sorted {f : ℕ → ℕ} (hf : ∀ k, f k < 2 ^ 64) (m : ℕ) :
    List.Sorted (· < ·) (wordBits f m) := by
  induction m with
  | zero => simp [wordBits]
  | succ m ih =>
    rw [wordBits_succ, List.Sorted, List.pairwise_append]
    refine ⟨ih, ?_, ?_⟩
    · exact List.Pairwise.map _ (fun a b h => by omega) (bitIdxs_sorted (f m))
    · intro a ha b hb
      have ha2 : a < 64 * m := wordBits_bound hf a ha
      rcases List.mem_map.mp hb with ⟨i, _, rfl⟩
      omega

theorem wordBits_length (f : ℕ → ℕ) (m : ℕ) :
    (wordBits f m).length = ∑ k ∈ Finset.range m, popcnt64 (f k) := by
  induction m with
  | zero => simp [wordBits]
  | succ m ih =>
    rw [wordBits_succ, List.length_append, ih, List.length_map, Finset.sum_range_succ]
    rfl

theorem wordBits_getD_split {f : ℕ → ℕ} {p n : ℕ} (hn : n < popcnt64 (f p)) :
    ∀ {m : ℕ}, p < m →
    (wordBits f m).getD ((wordBits f p).length + n) 0 = 64 * p + (bitIdxs (f p)).getD n 0 := by
  intro m
  induction m with
  | zero => omega
  | succ m ih =>
    intro hp
    rw [wordBits_succ]
    rcases Nat.lt_or_ge p m with hpm | hpm
    · have hidx : (wordBits f p).length + n < (wordBits f m).length := by
        rw [wordBits_length, wordBits_length]
        have hsub : ∑ k ∈ Finset.range (p + 1), popcnt64 (f k) ≤
            ∑ k ∈ Finset.range m, popcnt64 (f k) :=
          Finset.sum_le_sum_of_subset (Finset.range_subset.mpr (by omega))
        rw [Finset.sum_range_succ] at hsub
        omega
      rw [List.getD_append _ _ _ _ hidx, ih hpm]
    · have hpe : p = m := by omega
      subst hpe
      rw [List.getD_append_right _ _ _ _ (by omega)]
      have hsub : (wordBits f p).length + n - (wordBits f p).length = n := by omega
      rw [hsub, getD_map_addL hn]

theorem allBits_eq_wordBits (w : Window) : w.allBits = wordBits (bufFun w) w.words := rfl

theorem shiftRight6_eq (s : ℕ) : s >>> 6 = s / 64 := by
  rw [Nat.shiftRight_eq_div_pow]

theorem and63_eq (s : ℕ) : s &&& 63 = s % 64 := by
  have h3 := Nat.and_pow_two_sub_one_eq_mod s 6
  norm_num at h3
  exact h3

theorem bitAt_eq (w : Window) (s : ℕ) :
    w.bitAt s = (bufFun w (s / 64)).testBit (s % 64) := by
  unfold Window.bitAt bufFun
  rw [shiftRight6_eq, and63_eq]

theorem mem_allBits {w : Window} (hInv : w.Inv) {s : ℕ} :
    s ∈ w.allBits ↔ s < 64 * w.words ∧ w.bitAt s = true := by
  rw [allBits_eq_wordBits, mem_wordBits hInv.hfit, bitAt_eq]
  constructor
  · rintro ⟨h1, h2⟩; exact ⟨by omega, h2⟩
  · rintro ⟨h1, h2⟩; exact ⟨by omega, h2⟩

theorem allBits_sorted {w : Window} (hInv : w.Inv) : List.Sorted (· < ·) w.allBits := by
  rw [allBits_eq_wordBits]
  exact wordBits_sorted hInv.hfit w.words

theorem allBits_nodup {w : Window} (hInv : w.Inv) : w.allBits.Nodup :=
  (allBits_sorted hInv).nodup

theorem bitAt_eq_false_of_ge {w : Window} (hInv : w.Inv) {s : ℕ}
    (hs : 64 * w.words ≤ s) : w.bitAt s = false := by
  rw [bitAt_eq]
  have hge : w.buf.length ≤ s / 64 := by rw [hInv.hlen]; omega
  unfold bufFun
  rw [List.getD_eq_default _ _ hge]
  exact Nat.zero_testBit _

theorem allBits_eq_filter {w : Window} (hInv : w.Inv) :
    w.allBits = (List.range (64 * w.words)).filter fun s => w.bitAt s := by
  apply List.eq_of_perm_of_sorted _ (allBits_sorted hInv)
    (List.Sorted.filter _ (List.sorted_lt_range _))
  apply List.perm_of_nodup_nodup_toFinset_eq (allBits_nodup hInv)
    ((List.Sorted.filter _ (List.sorted_lt_range _)).nodup)
  ext s
  simp only [List.mem_toFinset, List.mem_filter, List.mem_range, mem_allBits hInv]

theorem Window.Inv.size_eq {w : Window} (hInv : w.Inv) :
    w.size = (w.allBits.length : ℤ) := by
  unfold Window.size
  rw [hInv.hh0, hInv.hh1, allBits_eq_wordBits, wordBits_length]
  have hsplit : ∑ k ∈ Finset.range w.p, (popcnt64 (bufFun w k) : ℤ) +
      ∑ k ∈ Finset.Ico w.p w.words, (popcnt64 (bufFun w k) : ℤ) =
      ∑ k ∈ Finset.range w.words, (popcnt64 (bufFun w k) : ℤ) := by
    rw [Finset.range_eq_Ico]
    exact Finset.sum_Ico_consecutive _ (by omega) hInv.hple
  rw [hsplit, Nat.cast_sum]

/-! Lemmas about `Window.clear` and `Window.update`. -/

theorem popcnt64_zero : popcnt64 0 = 0 := by
  unfold popcnt64; rw [bitIdxs_zero]; rfl

theorem bufFun_clear (w : Window) (k : ℕ) : bufFun w.clear k = 0 := by
  unfold bufFun Window.clear
  simp [List.getD_eq_getElem?_getD, List.getElem?_replicate]
  split <;> rfl

theorem clear_inv {w : Window} (hl : w.buf.length = w.words) (hw : 1 ≤ w.words) :
    w.clear.Inv := by
  refine ⟨?_, hw, ?_, ?_, ?_, ?_⟩
  · simp [Window.clear]
  · intro k; rw [bufFun_clear]; norm_num
  · show w.words / 2 ≤ w.words
    omega
  · show (0 : ℤ) = _
    simp [bufFun_clear, popcnt64_zero]
  · show (0 : ℤ) = _
    simp [bufFun_clear, popcnt64_zero]

theorem clear_allBits (w : Window) : w.clear.allBits = [] := by
  rw [allBits_eq_wordBits]
  unfold wordBits
  rw [List.flatMap_eq_nil_iff]
  intro k _
  rw [bufFun_clear, bitIdxs_zero, List.map_nil]

theorem clear_wFinset (w : Window) : w.clear.wFinset = ∅ := by
  unfold Window.wFinset
  rw [clear_allBits]
  rfl

theorem clear_size (w : Window) : w.clear.size = 0 := by
  unfold Window.size Window.clear
  norm_num

/-! Facts about `Window.update`. -/

theorem update_words (w : Window) (op : ℤ) (s : ℕ) : (w.update op s).words = w.words := rfl

theorem update_p (w : Window) (op : ℤ) (s : ℕ) : (w.update op s).p = w.p := rfl

theorem bufFun_update {w : Window} (hl : w.buf.length = w.words) {s : ℕ}
    (hs : s < 64 * w.words) (op : ℤ) (k : ℕ) :
    bufFun (w.update op s) k =
      if k = s / 64 then bufFun w k ^^^ 2 ^ (s % 64) else bufFun w k := by
  unfold bufFun Window.update
  simp only
  rw [shiftRight6_eq, and63_eq, Nat.shiftLeft_eq, one_mul]
  have hi : s / 64 < w.buf.length := by rw [hl]; omega
  rcases eq_or_ne k (s / 64) with rfl | hk
  · rw [if_pos rfl, List.getD_eq_getElem?_getD, List.getElem?_set_self (by omega), Option.getD_some]
  · rw [if_neg hk, List.getD_eq_getElem?_getD, List.getElem?_set_ne (Ne.symm hk),
      List.getD_eq_getElem?_getD]

theorem update_bitAt_self {w : Window} (hl : w.buf.length = w.words) {s : ℕ}
    (hs : s < 64 * w.words) (op : ℤ) :
    (w.update op s).bitAt s = ! w.bitAt s := by
  rw [bitAt_eq, bitAt_eq, bufFun_update hl hs op, if_pos rfl, Nat.testBit_xor,
    Nat.testBit_two_pow]
  simp

theorem update_bitAt_ne {w : Window} (hl : w.buf.length = w.words) {s s' : ℕ}
    (hs : s < 64 * w.words) (hne : s' ≠ s) (op : ℤ) :
    (w.update op s).bitAt s' = w.bitAt s' := by
  rw [bitAt_eq, bitAt_eq, bufFun_update hl hs op]
  rcases eq_or_ne (s' / 64) (s / 64) with he | hne2
  · rw [if_pos he, Nat.testBit_xor, Nat.testBit_two_pow]
    have hmod : ¬ (s % 64 = s' % 64) := by omega
    simp [hmod]
  · rw [if_neg hne2]

theorem sum_shift {F G : ℕ → ℤ} {i : ℕ} {op : ℤ}
    (hFG : ∀ k, F k = if k = i then G k + op else G k) (t : Finset ℕ) :
    ∑ k ∈ t, F k = (∑ k ∈ t, G k) + (if i ∈ t then op else 0) := by
  have h1 : ∀ k ∈ t, F k = G k + (if k = i then op else 0) := by
    intro k _
    rw [hFG k]
    split <;> simp
  rw [Finset.sum_congr rfl h1, Finset.sum_add_distrib, Finset.sum_ite_eq' t i fun _ => op]

theorem update_inv {w : Window} (hInv : w.Inv) {op : ℤ} {s : ℕ}
    (hvu : w.ValidUpd op s) : (w.update op s).Inv := by
  obtain ⟨hs, hop⟩ := hvu
  have hmod : s % 64 < 64 := by omega
  have hkey : ∀ k, (popcnt64 (bufFun (w.update op s) k) : ℤ) =
      if k = s / 64 then (popcnt64 (bufFun w k) : ℤ) + op else (popcnt64 (bufFun w k) : ℤ) := by
    intro k
    rw [bufFun_update hInv.hlen hs op]
    rcases eq_or_ne k (s / 64) with rfl | hk
    · rw [if_pos rfl, if_pos rfl]
      have hbit : w.bitAt s = (bufFun w (s / 64)).testBit (s % 64) := bitAt_eq w s
      rcases hop with ⟨rfl, hfalse⟩ | ⟨rfl, htrue⟩
      · rw [popcnt64_xor_insert (hInv.hfit _) hmod (by rw [← hbit]; exact hfalse)]
        push_cast; ring
      · rw [popcnt64_xor_erase (hInv.hfit _) hmod (by rw [← hbit]; exact htrue)]
        push_cast; ring
    · rw [if_neg hk, if_neg hk]
  refine ⟨?_, hInv.hwords, ?_, ?_, ?_, ?_⟩
  · show (w.buf.set _ _).length = w.words
    rw [List.length_set]; exact hInv.hlen
  · intro k
    rw [bufFun_update hInv.hlen hs op]
    split
    · exact Nat.xor_lt_two_pow (hInv.hfit _) (Nat.pow_lt_pow_right (by omega) hmod)
    · exact hInv.hfit k
  · show w.p ≤ w.words
    exact hInv.hple
  · show (if s >>> 6 ≥ w.p then w.half0 else w.half0 + op) = _
    rw [sum_shift hkey]
    simp only [update_p, update_words]
    rw [← hInv.hh0, shiftRight6_eq]
    rcases Nat.lt_or_ge (s / 64) w.p with hlt | hge
    · rw [if_neg (by omega), if_pos (Finset.mem_range.mpr hlt)]
    · rw [if_pos (by omega), if_neg (by simp only [Finset.mem_range]; omega)]
      ring
  · show (if s >>> 6 ≥ w.p then w.half1 + op else w.half1) = _
    rw [sum_shift hkey]
    simp only [update_p, update_words]
    rw [← hInv.hh1, shiftRight6_eq]
    have hdiv : s / 64 < w.words := by omega
    rcases Nat.lt_or_ge (s / 64) w.p with hlt | hge
    · rw [if_neg (by omega), if_neg (by simp only [Finset.mem_Ico]; omega)]
      ring
    · rw [if_pos (by omega), if_pos (Finset.mem_Ico.mpr (by omega))]

theorem update_size (w : Window) (op : ℤ) (s : ℕ) :
    (w.update op s).size = w.size + op := by
  unfold Window.size Window.update
  simp only
  split <;> ring

theorem mem_wFinset {w : Window} (hInv : w.Inv) {s : ℕ} :
    s ∈ w.wFinset ↔ s < 64 * w.words ∧ w.bitAt s = true := by
  unfold Window.wFinset
  rw [List.mem_toFinset, mem_allBits hInv]

theorem update_wFinset_insert {w : Window} (hInv : w.Inv) {s : ℕ}
    (hvu : w.ValidUpd 1 s) : (w.update 1 s).wFinset = insert s w.wFinset := by
  obtain ⟨hs, hop⟩ := hvu
  have hbit : w.bitAt s = false := by
    rcases hop with ⟨_, hb⟩ | ⟨habs, _⟩
    · exact hb
    · exact absurd habs (by norm_num)
  have hInv2 : (w.update 1 s).Inv := update_inv hInv ⟨hs, Or.inl ⟨rfl, hbit⟩⟩
  ext t
  rw [mem_wFinset hInv2, Finset.mem_insert, mem_wFinset hInv, update_words]
  rcases eq_or_ne t s with rfl | hne
  · rw [update_bitAt_self hInv.hlen hs 1, hbit]
    simp [hs]
  · rw [update_bitAt_ne hInv.hlen hs hne 1]
    simp [hne]

theorem update_wFinset_erase {w : Window} (hInv : w.Inv) {s : ℕ}
    (hvu : w.ValidUpd (-1) s) : (w.update (-1) s).wFinset = w.wFinset.erase s := by
  obtain ⟨hs, hop⟩ := hvu
  have hbit : w.bitAt s = true := by
    rcases hop with ⟨habs, _⟩ | ⟨_, hb⟩
    · exact absurd habs (by norm_num)
    · exact hb
  have hInv2 : (w.update (-1) s).Inv := update_inv hInv ⟨hs, Or.inr ⟨rfl, hbit⟩⟩
  ext t
  rw [mem_wFinset hInv2, Finset.mem_erase, mem_wFinset hInv, update_words]
  rcases eq_or_ne t s with rfl | hne
  · rw [update_bitAt_self hInv.hlen hs (-1), hbit]
    simp
  · rw [update_bitAt_ne hInv.hlen hs hne (-1)]
    simp [hne]

/-! Correctness of `Window::find`. -/

theorem size_congr {w w' : Window} (hInv : w.Inv) (hInv2 : w'.Inv)
    (hbuf : w'.buf = w.buf) (hwords : w'.words = w.words) : w'.size = w.size := by
  rw [hInv.size_eq, hInv2.size_eq, allBits_eq_wordBits, allBits_eq_wordBits]
  have hf : bufFun w' = bufFun w := by
    funext k
    unfold bufFun
    rw [hbuf]
  rw [hf, hwords]

theorem findDown_spec (w : Window) (goal : ℤ) :
    w.Inv → ((w.findDown goal).Inv ∧ (w.findDown goal).buf = w.buf ∧
      (w.findDown goal).words = w.words ∧
      (0 ≤ goal → (w.findDown goal).half0 ≤ goal)) := by
  induction w, goal using Window.findDown.induct with
  | case1 w goal hcond q pc ih =>
    intro hInv
    obtain ⟨hlt, hp0⟩ := hcond
    rw [Window.findDown, dif_pos ⟨hlt, hp0⟩]
    refine (fun hI => ⟨(ih hI).1, (ih hI).2.1, (ih hI).2.2.1, (ih hI).2.2.2⟩) ?_
    refine ⟨hInv.hlen, hInv.hwords, hInv.hfit, ?_, ?_, ?_⟩
    · show w.p - 1 ≤ w.words
      have := hInv.hple; omega
    · show w.half0 - (popcnt64 (w.buf.getD (w.p - 1) 0) : ℤ) =
        ∑ k ∈ Finset.range (w.p - 1), (popcnt64 (w.buf.getD k 0) : ℤ)
      rw [hInv.hh0]
      have hps : w.p = (w.p - 1) + 1 := by omega
      rw [hps, Finset.sum_range_succ]
      have hsub : w.p - 1 + 1 - 1 = w.p - 1 := by omega
      rw [hsub]
      show ∑ k ∈ Finset.range (w.p - 1), (popcnt64 (w.buf.getD k 0) : ℤ) + _ - _ = _
      simp only [bufFun]
      ring
    · show w.half1 + (popcnt64 (w.buf.getD (w.p - 1) 0) : ℤ) =
        ∑ k ∈ Finset.Ico (w.p - 1) w.words, (popcnt64 (w.buf.getD k 0) : ℤ)
      rw [hInv.hh1]
      have hplt : w.p - 1 < w.words := by
        have := hInv.hple; omega
      rw [Finset.sum_eq_sum_Ico_succ_bot hplt]
      have hsucc : w.p - 1 + 1 = w.p := by omega
      rw [hsucc]
      show _ = (popcnt64 (w.buf.getD (w.p - 1) 0) : ℤ) +
        ∑ k ∈ Finset.Ico w.p w.words, (popcnt64 (w.buf.getD k 0) : ℤ)
      simp only [bufFun]
      ring
  | case2 w goal hcond =>
    intro hInv
    rw [Window.findDown, dif_neg hcond]
    refine ⟨hInv, rfl, rfl, ?_⟩
    intro hg
    rcases Classical.em (w.p = 0) with hp | hp
    · rw [hInv.hh0, hp]
      simpa using hg
    · by_contra hgt
      exact hcond ⟨by omega, hp⟩

theorem findUp_spec (w : Window) (goal : ℤ) :
    w.Inv → w.half0 ≤ goal → goal < w.size →
    ((w.findUp goal).Inv ∧ (w.findUp goal).buf = w.buf ∧
      (w.findUp goal).words = w.words ∧ (w.findUp goal).half0 ≤ goal ∧
      goal < (w.findUp goal).half0 +
        (popcnt64 (bufFun (w.findUp goal) (w.findUp goal).p) : ℤ) ∧
      (w.findUp goal).p < w.words) := by
  induction w, goal using Window.findUp.induct with
  | case1 w goal hcond pc ih =>
    intro hInv hle hlt
    obtain ⟨hgoal, hpw⟩ := hcond
    rw [Window.findUp, dif_pos ⟨hgoal, hpw⟩]
    have hInv1 : Window.Inv { w with
        half0 := w.half0 + (popcnt64 (w.buf.getD w.p 0) : ℤ),
        half1 := w.half1 - (popcnt64 (w.buf.getD w.p 0) : ℤ),
        p := w.p + 1 } := by
      refine ⟨hInv.hlen, hInv.hwords, hInv.hfit, ?_, ?_, ?_⟩
      · show w.p + 1 ≤ w.words
        omega
      · show w.half0 + (popcnt64 (w.buf.getD w.p 0) : ℤ) =
          ∑ k ∈ Finset.range (w.p + 1), (popcnt64 (w.buf.getD k 0) : ℤ)
        rw [hInv.hh0, Finset.sum_range_succ]
        rfl
      · show w.half1 - (popcnt64 (w.buf.getD w.p 0) : ℤ) =
          ∑ k ∈ Finset.Ico (w.p + 1) w.words, (popcnt64 (w.buf.getD k 0) : ℤ)
        rw [hInv.hh1, Finset.sum_eq_sum_Ico_succ_bot hpw]
        show (popcnt64 (w.buf.getD w.p 0) : ℤ) + _ - _ = _
        simp only [bufFun]
        ring
    have hsize1 : Window.size { w with
        half0 := w.half0 + (popcnt64 (w.buf.getD w.p 0) : ℤ),
        half1 := w.half1 - (popcnt64 (w.buf.getD w.p 0) : ℤ),
        p := w.p + 1 } = w.size := by
      unfold Window.size
      show w.half0 + _ + (w.half1 - _) = _
      ring
    obtain ⟨hI, hbuf, hwords, hh0, hh1, hh2⟩ := ih hInv1 hgoal (by rw [hsize1]; exact hlt)
    exact ⟨hI, hbuf, hwords, hh0, hh1, hh2⟩
  | case2 w goal hcond =>
    intro hInv hle hlt
    rw [Window.findUp, dif_neg hcond]
    have hplt : w.p < w.words := by
      by_contra hge
      have hpe : w.p = w.words := by
        have := hInv.hple; omega
      have hh1 : w.half1 = 0 := by
        rw [hInv.hh1, hpe]
        simp
      have hsz : w.size = w.half0 := by
        unfold Window.size; rw [hh1]; ring
      omega
    refine ⟨hInv, rfl, rfl, hle, ?_, hplt⟩
    by_contra hc
    push_neg at hc
    exact hcond ⟨hc, hplt⟩

theorem find_spec (w : Window) (goal : ℤ) (hInv : w.Inv) (h0 : 0 ≤ goal)
    (hlt : goal < w.size) :
    (w.find goal).1 = w.allBits.getD goal.toNat 0 ∧ (w.find goal).2.Inv ∧
    (w.find goal).2.buf = w.buf ∧ (w.find goal).2.words = w.words ∧
    (w.find goal).2.size = w.size := by
  obtain ⟨hInv1, hbuf1, hwords1, hh1⟩ := findDown_spec w goal hInv
  have hsize1 : (w.findDown goal).size = w.size := size_congr hInv hInv1 hbuf1 hwords1
  obtain ⟨hInv2, hbuf2, hwords2, hle2, hlt2, hp2⟩ :=
    findUp_spec (w.findDown goal) goal hInv1 (hh1 h0) (by omega)
  set w2 := (w.findDown goal).findUp goal with hw2
  have hbuf : w2.buf = w.buf := by rw [hbuf2, hbuf1]
  have hwords : w2.words = w.words := by rw [hwords2, hwords1]
  have hsize : w2.size = w.size := size_congr hInv hInv2 hbuf hwords
  have hf : bufFun w2 = bufFun w := by
    funext k
    unfold bufFun
    rw [hbuf]
  -- the nonnegative sum gives 0 ≤ half0
  have hh0nn : 0 ≤ w2.half0 := by
    rw [hInv2.hh0]
    positivity
  set n : ℤ := goal - w2.half0 with hn
  have hnn : 0 ≤ n := by omega
  have hnlt : n.toNat < popcnt64 (bufFun w2 w2.p) := by omega
  have hplt : w2.p < w.words := by rw [← hwords1]; exact hp2
  -- half0 is the length of the wordBits prefix
  have hpre : w2.half0 = ((wordBits (bufFun w2) w2.p).length : ℤ) := by
    rw [hInv2.hh0, wordBits_length, Nat.cast_sum]
  have hgoalToNat : goal.toNat = (wordBits (bufFun w2) w2.p).length + n.toNat := by omega
  have hsplit := wordBits_getD_split hnlt hplt
  -- evaluate find
  show ((w2.p <<< 6) ||| findnth64 (w2.buf.getD w2.p 0) n.toNat, w2).1 = _ ∧ _
  constructor
  · show (w2.p <<< 6) ||| findnth64 (w2.buf.getD w2.p 0) n.toNat = _
    have hbw : w2.buf.getD w2.p 0 = bufFun w2 w2.p := rfl
    rw [hbw, findnth64_spec hnlt]
    have hj : (bitIdxs (bufFun w2 w2.p)).getD n.toNat 0 < 64 := by
      apply bitIdxs_lt (hInv2.hfit w2.p)
      rw [List.getD_eq_getElem (_ : List ℕ) 0 hnlt]
      exact List.getElem_mem hnlt
    have hor : w2.p <<< 6 ||| (bitIdxs (bufFun w2 w2.p)).getD n.toNat 0 =
        64 * w2.p + (bitIdxs (bufFun w2 w2.p)).getD n.toNat 0 := by
      have h64 : (2 : ℕ) ^ 6 = 64 := by norm_num
      have hj2 : (bitIdxs (bufFun w2 w2.p)).getD n.toNat 0 < 2 ^ 6 := by
        rw [h64]; exact hj
      have hgoal := (Nat.mul_add_lt_is_or hj2 w2.p).symm
      rw [h64] at hgoal
      rw [Nat.shiftLeft_eq, h64, Nat.mul_comm w2.p 64]
      exact hgoal
    rw [hor, allBits_eq_wordBits, ← hf, hgoalToNat, hsplit]
  · exact ⟨hInv2, hbuf, hwords, hsize⟩

/-! Count-below characterization of the find result. -/

theorem filter_range_take {P : ℕ → Bool} {N g : ℕ}
    (hg : g < ((List.range N).filter P).length) :
    (List.range (((List.range N).filter P).getD g 0)).filter P =
      ((List.range N).filter P).take g := by
  set L := (List.range N).filter P with hL
  set x := L.getD g 0 with hx
  have hsort : List.Sorted (· < ·) L := List.Sorted.filter _ (List.sorted_lt_range _)
  have hLget : x = L[g] := List.getD_eq_getElem L 0 hg
  have hxL : x ∈ L := hLget ▸ List.getElem_mem hg
  have hxN : x < N := List.mem_range.mp (List.mem_filter.mp hxL).1
  apply List.eq_of_perm_of_sorted _
    (List.Sorted.filter _ (List.sorted_lt_range _))
    (List.Pairwise.sublist (List.take_sublist g L) hsort)
  apply List.perm_of_nodup_nodup_toFinset_eq
    ((List.Sorted.filter _ (List.sorted_lt_range _)).nodup)
    ((List.Pairwise.sublist (List.take_sublist g L) hsort).nodup)
  ext s
  simp only [List.mem_toFinset, List.mem_filter, List.mem_range]
  constructor
  · rintro ⟨hsx, hPs⟩
    have hsL : s ∈ L := List.mem_filter.mpr ⟨List.mem_range.mpr (by omega), hPs⟩
    rcases List.getElem_of_mem hsL with ⟨i, hi, hieq⟩
    have hig : i < g := by
      by_contra hge
      rcases Nat.lt_or_ge g i with hgi | hgi
      · have := hsort.rel_get_of_lt (a := ⟨g, hg⟩) (b := ⟨i, hi⟩) hgi
        simp only [List.get_eq_getElem] at this
        rw [hieq, ← hLget] at this
        omega
      · have hgeq : i = g := by omega
        subst hgeq
        have hseq : x = s := hLget.trans hieq
        omega
    have hitake : i < (L.take g).length := by
      rw [List.length_take]
      omega
    have : (L.take g)[i] = s := by
      rw [List.getElem_take]
      exact hieq
    exact this ▸ List.getElem_mem hitake
  · intro hs
    have hsL : s ∈ L := List.mem_of_mem_take hs
    rcases List.getElem_of_mem (List.mem_of_mem_take hs) with ⟨i, hi, hieq⟩
    refine ⟨?_, (List.mem_filter.mp hsL).2⟩
    -- index of s within take g is < g, so s < x
    rcases List.getElem_of_mem hs with ⟨i2, hi2, hieq2⟩
    have hi2len : i2 < g := by
      have := hi2
      rw [List.length_take] at this
      omega
    have hi2L : i2 < L.length := by omega
    have hval : L[i2] = s := by
      rw [← hieq2, List.getElem_take]
    have := hsort.rel_get_of_lt (a := ⟨i2, hi2L⟩) (b := ⟨g, hg⟩) (by exact hi2len)
    simp only [List.get_eq_getElem] at this
    rw [hval, ← hLget] at this
    exact this

theorem countBelow_getD {w : Window} (hInv : w.Inv) {g : ℕ} (hg : g < w.allBits.length) :
    w.countBelow (w.allBits.getD g 0) = g ∧ w.bitAt (w.allBits.getD g 0) = true := by
  have hfilter := allBits_eq_filter hInv
  have hg2 : g < ((List.range (64 * w.words)).filter fun s => w.bitAt s).length := by
    rw [← hfilter]; exact hg
  constructor
  · unfold Window.countBelow
    rw [hfilter, filter_range_take hg2, List.length_take, ← hfilter]
    omega
  · have hmem : w.allBits.getD g 0 ∈ w.allBits := by
      rw [List.getD_eq_getElem _ 0 hg]
      exact List.getElem_mem hg
    exact ((mem_allBits hInv).mp hmem).2

/-! Invariant preservation by `find` for arbitrary goals. -/

theorem step_inv_up {w : Window} (hInv : w.Inv) (hpw : w.p < w.words) :
    Window.Inv { w with
      half0 := w.half0 + (popcnt64 (w.buf.getD w.p 0) : ℤ),
      half1 := w.half1 - (popcnt64 (w.buf.getD w.p 0) : ℤ),
      p := w.p + 1 } := by
  refine ⟨hInv.hlen, hInv.hwords, hInv.hfit, ?_, ?_, ?_⟩
  · show w.p + 1 ≤ w.words
    omega
  · show w.half0 + (popcnt64 (w.buf.getD w.p 0) : ℤ) =
      ∑ k ∈ Finset.range (w.p + 1), (popcnt64 (w.buf.getD k 0) : ℤ)
    rw [hInv.hh0, Finset.sum_range_succ]
    rfl
  · show w.half1 - (popcnt64 (w.buf.getD w.p 0) : ℤ) =
      ∑ k ∈ Finset.Ico (w.p + 1) w.words, (popcnt64 (w.buf.getD k 0) : ℤ)
    rw [hInv.hh1, Finset.sum_eq_sum_Ico_succ_bot hpw]
    show (popcnt64 (w.buf.getD w.p 0) : ℤ) + _ - _ = _
    simp only [bufFun]
    ring

theorem findUp_inv (w : Window) (goal : ℤ) : w.Inv →
    ((w.findUp goal).Inv ∧ (w.findUp goal).buf = w.buf ∧
      (w.findUp goal).words = w.words) := by
  induction w, goal using Window.findUp.induct with
  | case1 w goal hcond pc ih =>
    intro hInv
    obtain ⟨hgoal, hpw⟩ := hcond
    rw [Window.findUp, dif_pos ⟨hgoal, hpw⟩]
    obtain ⟨a, b, c⟩ := ih (step_inv_up hInv hpw)
    exact ⟨a, b, c⟩
  | case2 w goal hcond =>
    intro hInv
    rw [Window.findUp, dif_neg hcond]
    exact ⟨hInv, rfl, rfl⟩

theorem find_preserve (w : Window) (goal : ℤ) (hInv : w.Inv) :
    (w.find goal).2.Inv ∧ (w.find goal).2.buf = w.buf ∧
      (w.find goal).2.words = w.words := by
  obtain ⟨h1, b1, w1, _⟩ := findDown_spec w goal hInv
  obtain ⟨h2, b2, w2⟩ := findUp_inv (w.findDown goal) goal h1
  refine ⟨h2, ?_, ?_⟩
  · show ((w.findDown goal).findUp goal).buf = w.buf
    rw [b2, b1]
  · show ((w.findDown goal).findUp goal).words = w.words
    rw [w2, w1]

theorem reach_inv {w : Window} (hr : w.Reach) : w.Inv := by
  induction hr with
  | clear w0 hl hw => exact clear_inv hl hw
  | update w op s hr hvu ih => exact update_inv ih hvu
  | query w goal hr ih => exact (find_preserve w goal ih).1

/-! Characterization of the `WindowRank` init phase. -/

theorem init_feed_bb (wr : WindowRank) (v : Val) (slot : ℕ) :
    (wr.init_feed v slot).bb = wr.bb := by
  unfold WindowRank.init_feed
  cases v <;> rfl

theorem init_feed_window (wr : WindowRank) (v : Val) (slot : ℕ) :
    (wr.init_feed v slot).window = wr.window := by
  unfold WindowRank.init_feed
  cases v <;> rfl

theorem feedAll_window (wr : WindowRank) (feeds : List (Val × ℕ)) :
    (wr.feedAll feeds).window = wr.window := by
  induction feeds generalizing wr with
  | nil => rfl
  | cons pr t ih =>
    show ((wr.init_feed pr.1 pr.2).feedAll t).window = _
    rw [ih, init_feed_window]

theorem feedAll_sorted (wr : WindowRank) (feeds : List (Val × ℕ)) :
    (wr.feedAll feeds).sorted = wr.sorted ++ nnPairs feeds := by
  induction feeds generalizing wr with
  | nil => simp [WindowRank.feedAll, nnPairs]
  | cons pr t ih =>
    show ((wr.init_feed pr.1 pr.2).feedAll t).sorted = _
    rw [ih]
    cases hv : pr.1 with
    | none =>
      unfold WindowRank.init_feed nnPairs
      simp [hv]
    | some q =>
      unfold WindowRank.init_feed nnPairs
      simp [hv]

theorem feedAll_rank (wr : WindowRank) (feeds : List (Val × ℕ)) (slot : ℕ) :
    (wr.feedAll feeds).rank slot =
      if (none, slot) ∈ feeds then NAN_MARKER else wr.rank slot := by
  induction feeds generalizing wr with
  | nil => simp [WindowRank.feedAll]
  | cons pr t ih =>
    show ((wr.init_feed pr.1 pr.2).feedAll t).rank slot = _
    rw [ih]
    rcases Classical.em ((none, slot) ∈ t) with ht | ht
    · rw [if_pos ht, if_pos (List.mem_cons.mpr (Or.inr ht))]
    · rw [if_neg ht]
      rcases Classical.em (pr = (none, slot)) with hpr | hpr

      · rw [if_pos (List.mem_cons.mpr (Or.inl hpr.symm))]
        rw [hpr]
        unfold WindowRank.init_feed
        simp only
        rw [Function.update_same]
      · have hnotc : (none, slot) ∉ pr :: t := by
          intro hc
          rcases List.mem_cons.mp hc with hc1 | hc2
          · exact hpr hc1.symm
          · exact ht hc2
        rw [if_neg hnotc]
        cases hv : pr.1 with
        | none =>
          unfold WindowRank.init_feed
          simp only
          have hne : pr.2 ≠ slot := by
            intro hc
            apply hpr
            have : pr = (pr.1, pr.2) := rfl
            rw [this, hv, hc]
          rw [Function.update_noteq (Ne.symm hne)]
        | some q =>
          unfold WindowRank.init_feed
          simp only

theorem mem_nnPairs {feeds : List (Val × ℕ)} {q : ℚ} {slot : ℕ} :
    (q, slot) ∈ nnPairs feeds ↔ (some q, slot) ∈ feeds := by
  unfold nnPairs
  rw [List.mem_filterMap]
  constructor
  · rintro ⟨⟨v, s⟩, hmem, heq⟩
    cases v with
    | none => simp at heq
    | some q2 =>
      simp only [Option.map_some] at heq
      have h1 : q2 = q := by
        have := congrArg Prod.fst (Option.some_injective _ heq)
        exact this
      have h2 : s = slot := by
        have := congrArg Prod.snd (Option.some_injective _ heq)
        exact this
      rw [← h1, ← h2]
      exact hmem
  · intro h
    exact ⟨(some q, slot), h, rfl⟩

theorem nnPairs_slots_sublist (feeds : List (Val × ℕ)) :
    ((nnPairs feeds).map Prod.snd).Sublist (feeds.map Prod.snd) := by
  induction feeds with
  | nil => simp [nnPairs]
  | cons pr t ih =>
    cases hv : pr.1 with
    | none =>
      have : nnPairs (pr :: t) = nnPairs t := by
        unfold nnPairs
        rw [List.filterMap_cons]
        simp [hv]
      rw [this, List.map_cons]
      exact ih.cons pr.2
    | some q =>
      have : nnPairs (pr :: t) = (q, pr.2) :: nnPairs t := by
        unfold nnPairs
        rw [List.filterMap_cons]
        simp [hv]
      rw [this, List.map_cons, List.map_cons]
      exact ih.cons₂ pr.2

theorem sortedCanon_perm (feeds : List (Val × ℕ)) :
    (sortedCanon feeds).Perm (nnPairs feeds) :=
  List.perm_insertionSort pairLe (nnPairs feeds)

theorem sortedCanon_sorted (feeds : List (Val × ℕ)) :
    List.Sorted pairLe (sortedCanon feeds) :=
  List.sorted_insertionSort pairLe (nnPairs feeds)

theorem mem_sortedCanon {feeds : List (Val × ℕ)} {q : ℚ} {slot : ℕ} :
    (q, slot) ∈ sortedCanon feeds ↔ (some q, slot) ∈ feeds := by
  rw [(sortedCanon_perm feeds).mem_iff, mem_nnPairs]

theorem sortedCanon_slots_nodup {bb : ℕ} {feeds : List (Val × ℕ)}
    (hvf : ValidFeeds bb feeds) : ((sortedCanon feeds).map Prod.snd).Nodup := by
  have hperm : ((sortedCanon feeds).map Prod.snd).Perm ((nnPairs feeds).map Prod.snd) :=
    (sortedCanon_perm feeds).map Prod.snd
  rw [hperm.nodup_iff]
  exact (nnPairs_slots_sublist feeds).nodup hvf.2.1

theorem slots_unique {feeds : List (Val × ℕ)} (hnd : (feeds.map Prod.snd).Nodup)
    {a b : Val} {s : ℕ} (ha : (a, s) ∈ feeds) (hb : (b, s) ∈ feeds) : a = b := by
  rcases List.getElem_of_mem ha with ⟨i, hi, hieq⟩
  rcases List.getElem_of_mem hb with ⟨j, hj, hjeq⟩
  have hi2 : i < (feeds.map Prod.snd).length := by
    rw [List.length_map]; omega
  have hj2 : j < (feeds.map Prod.snd).length := by
    rw [List.length_map]; omega
  have heq : (feeds.map Prod.snd)[i] = (feeds.map Prod.snd)[j] := by
    rw [List.getElem_map, List.getElem_map, hieq, hjeq]
  have hij : i = j := (hnd.getElem_inj_iff).mp heq
  subst hij
  rw [hieq] at hjeq
  exact (Prod.ext_iff.mp hjeq).1

theorem feeds_length_le {bb : ℕ} {feeds : List (Val × ℕ)}
    (hvf : ValidFeeds bb feeds) : feeds.length ≤ bb := by
  obtain ⟨hbb, hnd, hlt⟩ := hvf
  have hcard : (feeds.map Prod.snd).toFinset.card = feeds.length := by
    rw [List.toFinset_card_of_nodup hnd, List.length_map]
  have hsub : (feeds.map Prod.snd).toFinset ⊆ Finset.range bb := by
    intro s hs
    rw [List.mem_toFinset, List.mem_map] at hs
    rcases hs with ⟨pr, hpr, rfl⟩
    exact Finset.mem_range.mpr (hlt pr hpr)
  have := Finset.card_le_card hsub
  rw [hcard, Finset.card_range] at this
  exact this

theorem sortedCanon_length_le {bb : ℕ} {feeds : List (Val × ℕ)}
    (hvf : ValidFeeds bb feeds) : (sortedCanon feeds).length ≤ bb := by
  have h1 : (sortedCanon feeds).length = (nnPairs feeds).length :=
    (sortedCanon_perm feeds).length_eq
  have h2 : ((nnPairs feeds).map Prod.snd).length ≤ (feeds.map Prod.snd).length :=
    (nnPairs_slots_sublist feeds).length_le
  rw [List.length_map, List.length_map] at h2
  have := feeds_length_le hvf
  omega

theorem bb_le_words (bb : ℕ) : bb ≤ 64 * Window.getWords bb := by
  unfold Window.getWords
  omega

/-! The rank-writing fold of `init_finish`. -/

theorem rank_fold_spec (s : List (ℚ × ℕ)) (hnd : (s.map Prod.snd).Nodup) (r0 : ℕ → ℤ) :
    ∀ n, n ≤ s.length →
    ((∀ i, i < n →
      ((List.range n).foldl (fun r i => Function.update r (s.getD i (0, 0)).2 (i : ℤ)) r0)
        (s.getD i (0, 0)).2 = (i : ℤ)) ∧
    (∀ slot, slot ∉ s.map Prod.snd →
      ((List.range n).foldl (fun r i => Function.update r (s.getD i (0, 0)).2 (i : ℤ)) r0)
        slot = r0 slot)) := by
  intro n
  induction n with
  | zero =>
    intro _
    constructor
    · intro i hi; omega
    · intro slot _; rfl
  | succ n ih =>
    intro hn
    obtain ⟨ih1, ih2⟩ := ih (by omega)
    rw [List.range_succ, List.foldl_append]
    simp only [List.foldl_cons, List.foldl_nil]
    constructor
    · intro i hi
      rcases Nat.lt_or_ge i n with hin | hin
      · have hne : (s.getD i (0, 0)).2 ≠ (s.getD n (0, 0)).2 := by
          intro hc
          have hi2 : i < (s.map Prod.snd).length := by
            rw [List.length_map]; omega
          have hn2 : n < (s.map Prod.snd).length := by
            rw [List.length_map]; omega
          have hilen : i < s.length := by omega
          have hnlen : n < s.length := by omega
          have e1 : s.getD i (0, 0) = s[i] := List.getD_eq_getElem s (0, 0) hilen
          have e2 : s.getD n (0, 0) = s[n] := List.getD_eq_getElem s (0, 0) hnlen
          have heq : (s.map Prod.snd)[i] = (s.map Prod.snd)[n] := by
            rw [List.getElem_map, List.getElem_map, ← e1, ← e2, hc]
          have : i = n := (hnd.getElem_inj_iff).mp heq
          omega
        rw [Function.update_noteq hne]
        exact ih1 i hin
      · have hieq : i = n := by omega
        subst hieq
        rw [Function.update_same]
    · intro slot hslot
      have hne : slot ≠ (s.getD n (0, 0)).2 := by
        intro hc
        apply hslot
        have hnlen : n < s.length := by omega
        have e2 : s.getD n (0, 0) = s[n] := List.getD_eq_getElem s (0, 0) hnlen
        rw [hc, e2]
        exact List.mem_map.mpr ⟨s[n], List.getElem_mem hnlen, rfl⟩
      rw [Function.update_noteq hne]
      exact ih2 slot hslot

theorem init_finish_sorted (wr : WindowRank) :
    (wr.init_finish).sorted = wr.sorted.insertionSort pairLe := rfl

theorem init_finish_window (wr : WindowRank) :
    (wr.init_finish).window = wr.window := rfl

theorem init_finish_rank_hit (wr : WindowRank)
    (hnd : ((wr.sorted.insertionSort pairLe).map Prod.snd).Nodup) :
    ∀ i, i < (wr.sorted.insertionSort pairLe).length →
      (wr.init_finish).rank ((wr.sorted.insertionSort pairLe).getD i (0, 0)).2 = (i : ℤ) := by
  intro i hi
  exact ((rank_fold_spec _ hnd wr.rank _ le_rfl).1) i hi

theorem init_finish_rank_miss (wr : WindowRank)
    (hnd : ((wr.sorted.insertionSort pairLe).map Prod.snd).Nodup) :
    ∀ slot, slot ∉ (wr.sorted.insertionSort pairLe).map Prod.snd →
      (wr.init_finish).rank slot = wr.rank slot := by
  intro slot hslot
  exact ((rank_fold_spec _ hnd wr.rank _ le_rfl).2) slot hslot

/-! The `WRInv` abstraction: establishment and preservation. -/

theorem rankSet_empty (feeds : List (Val × ℕ)) : rankSet feeds ∅ = ∅ := by
  unfold rankSet
  simp

theorem slot_not_in_sortedCanon {bb : ℕ} {feeds : List (Val × ℕ)}
    (hvf : ValidFeeds bb feeds) {slot : ℕ} (hmem : (none, slot) ∈ feeds) :
    slot ∉ (sortedCanon feeds).map Prod.snd := by
  intro hc
  rcases List.mem_map.mp hc with ⟨⟨q, s⟩, hqs, hs⟩
  simp only at hs
  rw [hs] at hqs
  have h2 : (some q, slot) ∈ feeds := mem_sortedCanon.mp hqs
  have h3 := slots_unique hvf.2.1 hmem h2
  simp at h3

theorem wrInv_base {bb : ℕ} {feeds : List (Val × ℕ)} (wr0 : WindowRank)
    (hcap : wr0.Cap bb) (hvf : ValidFeeds bb feeds) :
    WRInv bb feeds ∅ ((wr0.init_start.feedAll feeds).init_finish.clear) := by
  have hs2 : (wr0.init_start.feedAll feeds).sorted = nnPairs feeds := by
    rw [feedAll_sorted]
    show [] ++ _ = _
    simp
  have hnd2 : (((wr0.init_start.feedAll feeds).sorted.insertionSort pairLe).map
      Prod.snd).Nodup := by
    rw [hs2]
    exact sortedCanon_slots_nodup hvf
  have hwin0 : (wr0.init_start.feedAll feeds).window = wr0.window := by
    rw [feedAll_window]
    rfl
  have hwordsge : 1 ≤ Window.getWords bb := by
    unfold Window.getWords
    have := hvf.1
    omega
  refine ⟨hvf, ?_, ?_, ?_, ?_, ?_, ?_, ?_⟩
  · show ((wr0.init_start.feedAll feeds).init_finish).sorted = _
    rw [init_finish_sorted, hs2]
    rfl
  · intro i hi
    show ((wr0.init_start.feedAll feeds).init_finish).rank _ = _
    have hhit := init_finish_rank_hit _ hnd2
    rw [hs2] at hhit
    exact hhit i hi
  · intro slot hslot
    show ((wr0.init_start.feedAll feeds).init_finish).rank slot = _
    have hmiss := init_finish_rank_miss _ hnd2
    rw [hs2] at hmiss
    have hnotin : slot ∉ ((nnPairs feeds).insertionSort pairLe).map Prod.snd :=
      slot_not_in_sortedCanon hvf hslot
    rw [hmiss slot hnotin, feedAll_rank]
    rw [if_pos hslot]
  · show ((wr0.init_start.feedAll feeds).init_finish).window.clear.words = _
    show ((wr0.init_start.feedAll feeds).init_finish).window.words = _
    rw [init_finish_window, hwin0]
    exact hcap.1
  · show ((wr0.init_start.feedAll feeds).init_finish).window.clear.Inv
    rw [init_finish_window, hwin0]
    exact clear_inv hcap.2 (by rw [hcap.1]; exact hwordsge)
  · show ((wr0.init_start.feedAll feeds).init_finish).window.clear.wFinset = _
    rw [init_finish_window, hwin0, clear_wFinset, rankSet_empty]
  · intro s hs
    cases hs

theorem allBits_congr {w w' : Window} (hbuf : w'.buf = w.buf)
    (hwords : w'.words = w.words) : w'.allBits = w.allBits := by
  rw [allBits_eq_wordBits, allBits_eq_wordBits]
  have hf : bufFun w' = bufFun w := by
    funext k
    unfold bufFun
    rw [hbuf]
  rw [hf, hwords]

theorem wFinset_congr {w w' : Window} (hbuf : w'.buf = w.buf)
    (hwords : w'.words = w.words) : w'.wFinset = w.wFinset := by
  unfold Window.wFinset
  rw [allBits_congr hbuf hwords]

theorem rank_index_unique {bb : ℕ} {feeds : List (Val × ℕ)} (hvf : ValidFeeds bb feeds)
    {i j : ℕ} (hi : i < (sortedCanon feeds).length) (hj : j < (sortedCanon feeds).length)
    (heq : ((sortedCanon feeds).getD i (0, 0)).2 = ((sortedCanon feeds).getD j (0, 0)).2) :
    i = j := by
  have hnd := sortedCanon_slots_nodup hvf
  have hi2 : i < ((sortedCanon feeds).map Prod.snd).length := by
    rw [List.length_map]; omega
  have hj2 : j < ((sortedCanon feeds).map Prod.snd).length := by
    rw [List.length_map]; omega
  have heq2 : ((sortedCanon feeds).map Prod.snd)[i] = ((sortedCanon feeds).map Prod.snd)[j] := by
    rw [List.getElem_map, List.getElem_map,
      ← List.getD_eq_getElem (sortedCanon feeds) (0, 0) hi,
      ← List.getD_eq_getElem (sortedCanon feeds) (0, 0) hj]
    exact heq
  exact (hnd.getElem_inj_iff).mp heq2

theorem exists_rank {feeds : List (Val × ℕ)} {q : ℚ} {slot : ℕ}
    (hmem : (some q, slot) ∈ feeds) :
    ∃ i, i < (sortedCanon feeds).length ∧ (sortedCanon feeds).getD i (0, 0) = (q, slot) := by
  have h1 : (q, slot) ∈ sortedCanon feeds := mem_sortedCanon.mpr hmem
  rcases List.getElem_of_mem h1 with ⟨i, hi, hieq⟩
  exact ⟨i, hi, by rw [List.getD_eq_getElem _ _ hi, hieq]⟩

theorem wrInv_insert {bb : ℕ} {feeds : List (Val × ℕ)} {C : Finset ℕ} {wr : WindowRank}
    {v : Val} {slot : ℕ} (h : WRInv bb feeds C wr) (hmem : (v, slot) ∈ feeds)
    (hnot : slot ∉ C) : WRInv bb feeds (insert slot C) (wr.update 1 slot) := by
  have hslotmem : slot ∈ feeds.map Prod.snd := List.mem_map.mpr ⟨(v, slot), hmem, rfl⟩
  have hCmem : ∀ s ∈ insert slot C, s ∈ feeds.map Prod.snd := by
    intro s hs
    rcases Finset.mem_insert.mp hs with rfl | hsC
    · exact hslotmem
    · exact h.hC s hsC
  cases v with
  | none =>
    have hrk : wr.rank slot = NAN_MARKER := h.hnan slot hmem
    have hupd : wr.update 1 slot = wr := by
      unfold WindowRank.update
      simp [hrk]
    rw [hupd]
    refine ⟨h.hvfeeds, h.hsorted, h.hrank, h.hnan, h.hwords, h.hwInv, ?_, hCmem⟩
    rw [h.hwin]
    unfold rankSet
    apply Finset.filter_congr
    intro k hk
    have hkl : k < (sortedCanon feeds).length := Finset.mem_range.mp hk
    constructor
    · intro hkC
      exact Finset.mem_insert.mpr (Or.inr hkC)
    · intro hins
      rcases Finset.mem_insert.mp hins with hks | hkC
      · exfalso
        apply slot_not_in_sortedCanon h.hvfeeds hmem
        rw [← hks]
        have hkl2 : ((sortedCanon feeds).getD k (0, 0)) = (sortedCanon feeds)[k] :=
          List.getD_eq_getElem _ _ hkl
        rw [hkl2]
        exact List.mem_map.mpr ⟨(sortedCanon feeds)[k], List.getElem_mem hkl, rfl⟩
      · exact hkC
  | some q =>
    obtain ⟨i, hi, hieq⟩ := exists_rank hmem
    have hrk : wr.rank slot = (i : ℤ) := by
      have h2 := h.hrank i hi
      rw [hieq] at h2
      exact h2
    have hne : (i : ℤ) ≠ NAN_MARKER := by
      unfold NAN_MARKER
      omega
    have hupd : wr.update 1 slot = { wr with window := wr.window.update 1 i } := by
      unfold WindowRank.update
      rw [hrk, if_pos hne]
      have : ((i : ℤ)).toNat = i := Int.toNat_natCast i
      rw [this]
    have hlen64 : (sortedCanon feeds).length ≤ 64 * wr.window.words := by
      rw [h.hwords]
      have h1 := sortedCanon_length_le h.hvfeeds
      have h2 := bb_le_words bb
      omega
    have hinot : i ∉ wr.window.wFinset := by
      rw [h.hwin]
      unfold rankSet
      intro hc
      rcases Finset.mem_filter.mp hc with ⟨_, hslotC⟩
      rw [hieq] at hslotC
      exact hnot hslotC
    have hbitfalse : wr.window.bitAt i = false := by
      by_contra hc
      apply hinot
      rw [mem_wFinset h.hwInv]
      exact ⟨by omega, by revert hc; cases wr.window.bitAt i <;> simp⟩
    have hvu : wr.window.ValidUpd 1 i := ⟨by omega, Or.inl ⟨rfl, hbitfalse⟩⟩
    rw [hupd]
    refine ⟨h.hvfeeds, h.hsorted, h.hrank, h.hnan, ?_, ?_, ?_, hCmem⟩
    · show (wr.window.update 1 i).words = _
      rw [update_words]
      exact h.hwords
    · exact update_inv h.hwInv hvu
    · show (wr.window.update 1 i).wFinset = _
      rw [update_wFinset_insert h.hwInv hvu, h.hwin]
      ext k
      simp only [Finset.mem_insert]
      unfold rankSet
      simp only [Finset.mem_filter, Finset.mem_range, Finset.mem_insert]
      constructor
      · rintro (rfl | ⟨hkl, hkC⟩)
        · refine ⟨hi, Or.inl ?_⟩
          rw [hieq]
        · exact ⟨hkl, Or.inr hkC⟩
      · rintro ⟨hkl, hks | hkC⟩
        · left
          apply rank_index_unique h.hvfeeds hkl hi
          rw [hieq, hks]
        · exact Or.inr ⟨hkl, hkC⟩

theorem wrInv_erase {bb : ℕ} {feeds : List (Val × ℕ)} {C : Finset ℕ} {wr : WindowRank}
    {slot : ℕ} (h : WRInv bb feeds C wr) (hin : slot ∈ C) :
    WRInv bb feeds (C.erase slot) (wr.update (-1) slot) := by
  have hCmem : ∀ s ∈ C.erase slot, s ∈ feeds.map Prod.snd := fun s hs =>
    h.hC s (Finset.mem_of_mem_erase hs)
  have hslotmem : slot ∈ feeds.map Prod.snd := h.hC slot hin
  rcases List.mem_map.mp hslotmem with ⟨⟨v, s⟩, hvs, hs⟩
  simp only at hs
  rw [hs] at hvs
  cases v with
  | none =>
    have hrk : wr.rank slot = NAN_MARKER := h.hnan slot hvs
    have hupd : wr.update (-1) slot = wr := by
      unfold WindowRank.update
      simp [hrk]
    rw [hupd]
    refine ⟨h.hvfeeds, h.hsorted, h.hrank, h.hnan, h.hwords, h.hwInv, ?_, hCmem⟩
    rw [h.hwin]
    unfold rankSet
    apply Finset.filter_congr
    intro k hk
    have hkl : k < (sortedCanon feeds).length := Finset.mem_range.mp hk
    constructor
    · intro hkC
      refine Finset.mem_erase.mpr ⟨?_, hkC⟩
      intro hks
      apply slot_not_in_sortedCanon h.hvfeeds hvs
      rw [← hks]
      have hkl2 : ((sortedCanon feeds).getD k (0, 0)) = (sortedCanon feeds)[k] :=
        List.getD_eq_getElem _ _ hkl
      rw [hkl2]
      exact List.mem_map.mpr ⟨(sortedCanon feeds)[k], List.getElem_mem hkl, rfl⟩
    · intro hkE
      exact Finset.mem_of_mem_erase hkE
  | some q =>
    obtain ⟨i, hi, hieq⟩ := exists_rank hvs
    have hrk : wr.rank slot = (i : ℤ) := by
      have h2 := h.hrank i hi
      rw [hieq] at h2
      exact h2
    have hne : (i : ℤ) ≠ NAN_MARKER := by
      unfold NAN_MARKER
      omega
    have hupd : wr.update (-1) slot = { wr with window := wr.window.update (-1) i } := by
      unfold WindowRank.update
      rw [hrk, if_pos hne]
      have : ((i : ℤ)).toNat = i := Int.toNat_natCast i
      rw [this]
    have hlen64 : (sortedCanon feeds).length ≤ 64 * wr.window.words := by
      rw [h.hwords]
      have h1 := sortedCanon_length_le h.hvfeeds
      have h2 := bb_le_words bb
      omega
    have hiin : i ∈ wr.window.wFinset := by
      rw [h.hwin]
      unfold rankSet
      rw [Finset.mem_filter, Finset.mem_range]
      refine ⟨hi, ?_⟩
      rw [hieq]
      exact hin
    have hbittrue : wr.window.bitAt i = true := ((mem_wFinset h.hwInv).mp hiin).2
    have hvu : wr.window.ValidUpd (-1) i := ⟨by omega, Or.inr ⟨rfl, hbittrue⟩⟩
    rw [hupd]
    refine ⟨h.hvfeeds, h.hsorted, h.hrank, h.hnan, ?_, ?_, ?_, hCmem⟩
    · show (wr.window.update (-1) i).words = _
      rw [update_words]
      exact h.hwords
    · exact update_inv h.hwInv hvu
    · show (wr.window.update (-1) i).wFinset = _
      rw [update_wFinset_erase h.hwInv hvu, h.hwin]
      ext k
      rw [Finset.mem_erase]
      unfold rankSet
      simp only [Finset.mem_filter, Finset.mem_range, Finset.mem_erase]
      constructor
      · rintro ⟨hkne, hkl, hkC⟩
        refine ⟨hkl, ?_, hkC⟩
        intro hks
        apply hkne
        apply rank_index_unique h.hvfeeds hkl hi
        rw [hieq, hks]
      · rintro ⟨hkl, hkne, hkC⟩
        refine ⟨?_, hkl, hkC⟩
        intro hki
        apply hkne
        rw [hki, hieq]

/-! Selection: the window's active ranks pick out the sorted values. -/

theorem getD_map_in {α β : Type} (f : α → β) (l : List α) {k : ℕ} (hk : k < l.length)
    (d : α) (d2 : β) : (l.map f).getD k d2 = f (l.getD k d) := by
  have hk2 : k < (l.map f).length := by
    rw [List.length_map]; exact hk
  rw [List.getD_eq_getElem _ _ hk2, List.getD_eq_getElem _ _ hk, List.getElem_map]

theorem filter_eq_map_indices {α : Type} (d : α) (P : α → Bool) :
    ∀ l : List α, l.filter P =
      ((List.range l.length).filter fun i => P (l.getD i d)).map fun i => l.getD i d := by
  intro l
  induction l with
  | nil => simp
  | cons a t ih =>
    rw [List.filter_cons, List.length_cons, List.range_succ_eq_map, List.filter_cons]
    have hmap : (List.filter (fun i => P ((a :: t).getD i d)) (List.map Nat.succ (List.range t.length))).map
        (fun i => (a :: t).getD i d) =
        (List.filter (fun i => P (t.getD i d)) (List.range t.length)).map
          (fun i => t.getD i d) := by
      rw [List.filter_map]
      rw [List.map_map]
      have hcomp1 : ((fun i => P ((a :: t).getD i d)) ∘ Nat.succ) = fun i => P (t.getD i d) := by
        funext i
        simp [List.getD_cons_succ]
      have hcomp2 : ((fun i => (a :: t).getD i d) ∘ Nat.succ) = fun i => t.getD i d := by
        funext i
        simp [List.getD_cons_succ]
      rw [hcomp1, hcomp2]
    rcases hPa : P a with hfa | hta
    · have hP0 : P ((a :: t).getD 0 d) = false := by
        rw [List.getD_cons_zero]; exact hPa
      rw [hP0]
      simp only [Bool.false_eq_true, if_false]
      rw [ih, hmap]
    · have hP0 : P ((a :: t).getD 0 d) = true := by
        rw [List.getD_cons_zero]; exact hPa
      rw [hP0]
      simp only [if_true]
      rw [List.map_cons, List.getD_cons_zero, ih, hmap]

theorem activeVals_eq (feeds : List (Val × ℕ)) (C : Finset ℕ) :
    (feeds.filter fun pr => pr.2 ∈ C).filterMap Prod.fst =
      ((nnPairs feeds).filter fun q => q.2 ∈ C).map Prod.fst := by
  induction feeds with
  | nil => simp [nnPairs]
  | cons pr t ih =>
    obtain ⟨v, s⟩ := pr
    cases v with
    | none =>
      have hnn : nnPairs ((none, s) :: t) = nnPairs t := by
        unfold nnPairs
        rw [List.filterMap_cons]
        simp
      rw [hnn, List.filter_cons]
      rcases hs : (decide (s ∈ C)) with h1 | h2
      · simp only [hs, Bool.false_eq_true, if_false]
        exact ih
      · simp only [hs, if_true]
        rw [List.filterMap_cons]
        simp only [Option.map_none]
        exact ih
    | some q =>
      have hnn : nnPairs ((some q, s) :: t) = (q, s) :: nnPairs t := by
        unfold nnPairs
        rw [List.filterMap_cons]
        simp
      rw [hnn, List.filter_cons, List.filter_cons]
      rcases hs : (decide (s ∈ C)) with h1 | h2
      · simp only [hs, Bool.false_eq_true, if_false]
        exact ih
      · simp only [hs, if_true]
        rw [List.filterMap_cons]
        simp only
        rw [ih]
        rfl

theorem pairLe_fst {a b : ℚ × ℕ} (h : pairLe a b) : a.1 ≤ b.1 := by
  rcases h with h1 | ⟨h2, _⟩
  · exact le_of_lt h1
  · exact le_of_eq h2

theorem vals_sorted (feeds : List (Val × ℕ)) (C : Finset ℕ) :
    List.Sorted (· ≤ ·) (((sortedCanon feeds).filter fun pr => pr.2 ∈ C).map Prod.fst) :=
  List.Pairwise.map _ (fun _ _ h => pairLe_fst h)
    (List.Pairwise.sublist (List.filter_sublist _) (sortedCanon_sorted feeds))

theorem vals_eq_sort (feeds : List (Val × ℕ)) (C : Finset ℕ) :
    ((sortedCanon feeds).filter fun pr => pr.2 ∈ C).map Prod.fst =
      (activeVals feeds C).sort (· ≤ ·) := by
  apply List.eq_of_perm_of_sorted _ (vals_sorted feeds C)
    (Multiset.sort_sorted (· ≤ ·) (activeVals feeds C))
  have h1 : (((sortedCanon feeds).filter fun pr => pr.2 ∈ C).map Prod.fst).Perm
      ((feeds.filter fun pr => pr.2 ∈ C).filterMap Prod.fst) := by
    rw [activeVals_eq]
    exact ((sortedCanon_perm feeds).filter _).map _
  apply h1.trans
  rw [← Multiset.coe_eq_coe, Multiset.sort_eq]
  rfl

theorem allBits_eq_rank_filter {bb : ℕ} {feeds : List (Val × ℕ)} {C : Finset ℕ}
    {wr : WindowRank} (h : WRInv bb feeds C wr) :
    wr.window.allBits = (List.range (sortedCanon feeds).length).filter
      fun i => decide (((sortedCanon feeds).getD i (0, 0)).2 ∈ C) := by
  apply List.eq_of_perm_of_sorted _ (allBits_sorted h.hwInv)
    (List.Sorted.filter _ (List.sorted_lt_range _))
  apply List.perm_of_nodup_nodup_toFinset_eq (allBits_nodup h.hwInv)
    ((List.Sorted.filter _ (List.sorted_lt_range _)).nodup)
  have htf : wr.window.allBits.toFinset = rankSet feeds C := h.hwin
  rw [htf]
  ext k
  unfold rankSet
  simp only [Finset.mem_filter, Finset.mem_range, List.mem_toFinset, List.mem_filter,
    List.mem_range, decide_eq_true_eq]

theorem map_getD_allBits {bb : ℕ} {feeds : List (Val × ℕ)} {C : Finset ℕ}
    {wr : WindowRank} (h : WRInv bb feeds C wr) :
    wr.window.allBits.map (fun i => ((sortedCanon feeds).getD i (0, 0)).1) =
      (activeVals feeds C).sort (· ≤ ·) := by
  rw [allBits_eq_rank_filter h, ← vals_eq_sort]
  rw [filter_eq_map_indices (0, 0) (fun pr => pr.2 ∈ C) (sortedCanon feeds), List.map_map]
  rfl

theorem wrInv_query {bb : ℕ} {feeds : List (Val × ℕ)} {C : Finset ℕ} {wr : WindowRank}
    (h : WRInv bb feeds C wr) : WRInv bb feeds C (wr.get_med).2 := by
  have hfin : ∀ w2 : Window, w2.Inv → w2.buf = wr.window.buf →
      w2.words = wr.window.words → WRInv bb feeds C { wr with window := w2 } := by
    intro w2 hI hb hw
    refine ⟨h.hvfeeds, h.hsorted, h.hrank, h.hnan, ?_, hI, ?_, h.hC⟩
    · show w2.words = _
      rw [hw]
      exact h.hwords
    · show w2.wFinset = _
      rw [wFinset_congr hb hw]
      exact h.hwin
  rcases Classical.em (wr.window.size = 0) with h0 | h0
  · simp only [WindowRank.get_med, if_pos h0]
    exact h
  · obtain ⟨hI1, hb1, hw1⟩ := find_preserve wr.window ((wr.window.size - 1).tdiv 2) h.hwInv
    obtain ⟨hI2, hb2, hw2⟩ :=
      find_preserve (wr.window.find ((wr.window.size - 1).tdiv 2)).2
        ((wr.window.size - 0).tdiv 2) hI1
    simp only [WindowRank.get_med, if_neg h0]
    split
    · exact hfin _ hI2 (by rw [hb2, hb1]) (by rw [hw2, hw1])
    · exact hfin _ hI1 hb1 hw1

theorem get_med_spec {bb : ℕ} {feeds : List (Val × ℕ)} {C : Finset ℕ} {wr : WindowRank}
    (h : WRInv bb feeds C wr) : (wr.get_med).1 = medSpec (activeVals feeds C) := by
  have hmap := map_getD_allBits h
  have hlen : wr.window.allBits.length = ((activeVals feeds C).sort (· ≤ ·)).length := by
    rw [← hmap, List.length_map]
  have hsize : wr.window.size = (((activeVals feeds C).sort (· ≤ ·)).length : ℤ) := by
    rw [h.hwInv.size_eq, hlen]
  have hmed : medSpec (activeVals feeds C) =
      if ((activeVals feeds C).sort (· ≤ ·)).length = 0 then none
      else if (((activeVals feeds C).sort (· ≤ ·)).length - 1) / 2 =
          ((activeVals feeds C).sort (· ≤ ·)).length / 2 then
        some (((activeVals feeds C).sort (· ≤ ·)).getD
          ((((activeVals feeds C).sort (· ≤ ·)).length - 1) / 2) 0)
      else
        some ((((activeVals feeds C).sort (· ≤ ·)).getD
            ((((activeVals feeds C).sort (· ≤ ·)).length - 1) / 2) 0 +
          ((activeVals feeds C).sort (· ≤ ·)).getD
            (((activeVals feeds C).sort (· ≤ ·)).length / 2) 0) / 2) := rfl
  rcases Classical.em (((activeVals feeds C).sort (· ≤ ·)).length = 0) with h0 | h0
  · have hsz : wr.window.size = 0 := by
      rw [hsize, h0]
      rfl
    rw [hmed, if_pos h0]
    simp only [WindowRank.get_med, if_pos hsz]
  · have hsz : ¬ wr.window.size = 0 := by
      rw [hsize]
      intro hc
      exact h0 (by exact_mod_cast hc)
    have hn1 : 1 ≤ ((activeVals feeds C).sort (· ≤ ·)).length := by omega
    have hg1 : (wr.window.size - 1).tdiv 2 =
        (((((activeVals feeds C).sort (· ≤ ·)).length - 1) / 2 : ℕ) : ℤ) := by
      rw [hsize]
      have e1 : ((((activeVals feeds C).sort (· ≤ ·)).length : ℤ) - 1) =
          (((((activeVals feeds C).sort (· ≤ ·)).length - 1) : ℕ) : ℤ) := by
        omega
      rw [e1, show (2 : ℤ) = ((2 : ℕ) : ℤ) from rfl, ← Int.ofNat_tdiv]
    have hg2 : (wr.window.size - 0).tdiv 2 =
        ((((activeVals feeds C).sort (· ≤ ·)).length / 2 : ℕ) : ℤ) := by
      rw [hsize]
      have e1 : ((((activeVals feeds C).sort (· ≤ ·)).length : ℤ) - 0) =
          ((((activeVals feeds C).sort (· ≤ ·)).length : ℕ) : ℤ) := by
        omega
      rw [e1, show (2 : ℤ) = ((2 : ℕ) : ℤ) from rfl, ← Int.ofNat_tdiv]
    obtain ⟨hr1, hI1, hb1, hw1, hs1⟩ :=
      find_spec wr.window ((wr.window.size - 1).tdiv 2) h.hwInv
        (by rw [hg1]; positivity)
        (by rw [hg1, hsize]; exact_mod_cast
          (by omega : (((activeVals feeds C).sort (· ≤ ·)).length - 1) / 2 <
            ((activeVals feeds C).sort (· ≤ ·)).length))
    have hval1 : (wr.sorted.getD (wr.window.find ((wr.window.size - 1).tdiv 2)).1 (0, 0)).1 =
        ((activeVals feeds C).sort (· ≤ ·)).getD
          ((((activeVals feeds C).sort (· ≤ ·)).length - 1) / 2) 0 := by
      rw [h.hsorted, hr1, hg1, Int.toNat_natCast]
      have hidx : (((activeVals feeds C).sort (· ≤ ·)).length - 1) / 2 <
          wr.window.allBits.length := by omega
      have hmi := getD_map_in (fun i => ((sortedCanon feeds).getD i (0, 0)).1)
        wr.window.allBits hidx 0 0
      rw [hmap] at hmi
      exact hmi.symm
    rcases Classical.em ((wr.window.size - 0).tdiv 2 = (wr.window.size - 1).tdiv 2) with
      hpar | hpar
    · -- odd size: the two goals coincide
      have hpar2 : (((activeVals feeds C).sort (· ≤ ·)).length - 1) / 2 =
          ((activeVals feeds C).sort (· ≤ ·)).length / 2 := by
        rw [hg1, hg2] at hpar
        exact_mod_cast hpar.symm
      have hnotne : ¬ ((wr.window.size - 0).tdiv 2 ≠ (wr.window.size - 1).tdiv 2) := by
        intro hc
        exact hc hpar
      rw [hmed, if_neg h0, if_pos hpar2]
      simp only [WindowRank.get_med, if_neg hsz, if_neg hnotne]
      rw [hval1]
    · -- even size: two finds, mean of the two middles
      have hpar2 : ¬ ((((activeVals feeds C).sort (· ≤ ·)).length - 1) / 2 =
          ((activeVals feeds C).sort (· ≤ ·)).length / 2) := by
        intro hc
        apply hpar
        rw [hg1, hg2]
        exact_mod_cast hc.symm
      have hAB2 : (wr.window.find ((wr.window.size - 1).tdiv 2)).2.allBits =
          wr.window.allBits := allBits_congr hb1 hw1
      obtain ⟨hr2, hI2, hb2, hw2, hs2⟩ :=
        find_spec (wr.window.find ((wr.window.size - 1).tdiv 2)).2
          ((wr.window.size - 0).tdiv 2) hI1
          (by rw [hg2]; positivity)
          (by rw [hs1, hg2, hsize]; exact_mod_cast
            (by omega : ((activeVals feeds C).sort (· ≤ ·)).length / 2 <
              ((activeVals feeds C).sort (· ≤ ·)).length))
      have hval2 : (wr.sorted.getD
          ((wr.window.find ((wr.window.size - 1).tdiv 2)).2.find
            ((wr.window.size - 0).tdiv 2)).1 (0, 0)).1 =
          ((activeVals feeds C).sort (· ≤ ·)).getD
            (((activeVals feeds C).sort (· ≤ ·)).length / 2) 0 := by
        rw [h.hsorted, hr2, hAB2, hg2, Int.toNat_natCast]
        have hidx : ((activeVals feeds C).sort (· ≤ ·)).length / 2 <
            wr.window.allBits.length := by omega
        have hmi := getD_map_in (fun i => ((sortedCanon feeds).getD i (0, 0)).1)
          wr.window.allBits hidx 0 0
        rw [hmap] at hmi
        exact hmi.symm
      rw [hmed, if_neg h0, if_neg hpar2]
      simp only [WindowRank.get_med, if_neg hsz, if_pos hpar]
      rw [hval1, hval2]

theorem reach_wrInv {bb : ℕ} {feeds : List (Val × ℕ)} {C : Finset ℕ} {wr : WindowRank}
    (hr : WindowRank.Reach bb feeds C wr) : WRInv bb feeds C wr := by
  induction hr with
  | base wr0 hcap hvf => exact wrInv_base wr0 hcap hvf
  | insert wr C v slot hr hmem hnot ih => exact wrInv_insert ih hmem hnot
  | erase wr C slot hr hin ih => exact wrInv_erase ih hin
  | query wr C hr ih => exact wrInv_query ih

/-! Geometry of the block tiling. -/

theorem dim_step (b size h : ℕ) : (Dim.make b size h).step = b - 2 * h := rfl

theorem dim_size (b size h : ℕ) : (Dim.make b size h).size = size := rfl

theorem dim_h (b size h : ℕ) : (Dim.make b size h).h = h := rfl

theorem dim_count (b size h : ℕ) :
    (Dim.make b size h).count = Dim.calcCount b size h := rfl

theorem calcCount_eq (b size h : ℕ) (hgt : ¬ size ≤ b) :
    Dim.calcCount b size h = (size - 2 * h + (b - 2 * h) - 1) / (b - 2 * h) := by
  unfold Dim.calcCount Dim.calcStep
  rw [if_neg hgt]

theorem calcCount_spec (b size h : ℕ) (hb : 2 * h + 1 < b) (hgt : ¬ size ≤ b) :
    (Dim.calcCount b size h - 1) * (b - 2 * h) < size - 2 * h ∧
      size - 2 * h ≤ Dim.calcCount b size h * (b - 2 * h) ∧
      2 ≤ Dim.calcCount b size h := by
  rw [calcCount_eq b size h hgt]
  have hstep : 1 ≤ b - 2 * h := by omega
  have hint : b - 2 * h < size - 2 * h := by omega
  have hdm := Nat.div_add_mod (size - 2 * h + (b - 2 * h) - 1) (b - 2 * h)
  have hmod := Nat.mod_lt (size - 2 * h + (b - 2 * h) - 1) (show 0 < b - 2 * h by omega)
  set q := (size - 2 * h + (b - 2 * h) - 1) / (b - 2 * h) with hq
  set s := b - 2 * h with hs
  have hq2 : 2 ≤ q := by
    by_contra hc
    push_neg at hc
    interval_cases q <;> omega
  refine ⟨?_, ?_, hq2⟩
  · rw [Nat.sub_one_mul, Nat.mul_comm q s]
    omega
  · rw [Nat.mul_comm q s]
    omega

theorem dim_asserts_hold (b size h : ℕ) (hb : 2 * h + 1 < b) (hsize : 1 ≤ size) :
    Dim.asserts b size h := by
  refine ⟨hb, ?_, ?_, ?_⟩
  · rw [dim_count]
    rcases Classical.em (size ≤ b) with hle | hgt
    · rw [Dim.calcCount, if_pos hle]
    · have := calcCount_spec b size h hb hgt
      omega
  · rw [dim_count, dim_step]
    rcases Classical.em (size ≤ b) with hle | hgt
    · rw [Dim.calcCount, if_pos hle]
      omega
    · have := calcCount_spec b size h hb hgt
      omega
  · rw [dim_count, dim_step]
    rcases Classical.em (size ≤ b) with hle | hgt
    · right
      rw [Dim.calcCount, if_pos hle]
    · left
      have := calcCount_spec b size h hb hgt
      omega

theorem count_one_size_le (b size h : ℕ) (hb : 2 * h + 1 < b) (hsize : 1 ≤ size)
    (hc : (Dim.make b size h).count = 1) : size ≤ b := by
  by_contra hgt
  have := calcCount_spec b size h hb hgt
  rw [dim_count] at hc
  omega

theorem bdim_set_dim (bd : BDim) (i : ℕ) : (bd.set i).dim = bd.dim := rfl

theorem bdim_set_start (bd : BDim) (i : ℕ) : (bd.set i).start = bd.dim.step * i := rfl

theorem bdim_set_size (bd : BDim) (i : ℕ) : (bd.set i).size =
    (if i + 1 = bd.dim.count then bd.dim.size else 2 * bd.dim.h + (i + 1) * bd.dim.step) -
      bd.dim.step * i := rfl

theorem bdim_set_b0 (bd : BDim) (i : ℕ) :
    (bd.set i).b0 = if i = 0 then 0 else bd.dim.h := rfl

theorem bdim_set_b1 (bd : BDim) (i : ℕ) : (bd.set i).b1 =
    if i + 1 = bd.dim.count then (bd.set i).size else (bd.set i).size - bd.dim.h := rfl

theorem bdim_w0 (bd : BDim) (v : ℕ) : bd.w0 v = v - bd.dim.h := rfl

theorem bdim_w1 (bd : BDim) (v : ℕ) : bd.w1 v = min (v + 1 + bd.dim.h) bd.size := rfl

theorem tileFacts_set {b size h : ℕ} (bd : BDim) (hd : bd.dim = Dim.make b size h)
    (hb : 2 * h + 1 < b) (hsz : 1 ≤ size) {i : ℕ}
    (hi : i < (Dim.make b size h).count) : TileFacts b size h i (bd.set i) := by
  obtain ⟨-, hc1, hc2, hc3⟩ := dim_asserts_hold b size h hb hsz
  rw [dim_count, dim_step] at hc2 hc3
  rw [dim_count] at hc1
  rw [dim_count] at hi
  have hs1 : 1 ≤ b - 2 * h := by omega
  have hx1 : (i + 1) * (b - 2 * h) = (b - 2 * h) * i + (b - 2 * h) := by ring
  have hx2 : (Dim.calcCount b size h - 1) * (b - 2 * h) + (b - 2 * h) =
      Dim.calcCount b size h * (b - 2 * h) := by
    have h3 : Dim.calcCount b size h - 1 + 1 = Dim.calcCount b size h := by omega
    calc (Dim.calcCount b size h - 1) * (b - 2 * h) + (b - 2 * h)
        = (Dim.calcCount b size h - 1 + 1) * (b - 2 * h) := by ring
      _ = _ := by rw [h3]
  have hile : (b - 2 * h) * i ≤ (Dim.calcCount b size h - 1) * (b - 2 * h) := by
    rw [Nat.mul_comm (b - 2 * h) i]
    exact Nat.mul_le_mul_right _ (by omega)
  -- the block lies inside the image
  have hstart_bound : (b - 2 * h) * i + h + h < size ∨ i = 0 := by
    rcases Classical.em (i = 0) with h0 | h0
    · right; exact h0
    · left
      rcases hc3 with h3 | h3
      · omega
      · omega
  have hen_le : i + 1 ≠ Dim.calcCount b size h →
      2 * h + (i + 1) * (b - 2 * h) < size := by
    intro hne
    have hle2 : (i + 1) * (b - 2 * h) ≤ (Dim.calcCount b size h - 1) * (b - 2 * h) :=
      Nat.mul_le_mul_right _ (by omega)
    rcases hc3 with h3 | h3
    · omega
    · omega
  have hstart := bdim_set_start bd i
  have hsizeeq := bdim_set_size bd i
  have hb0eq := bdim_set_b0 bd i
  have hb1eq := bdim_set_b1 bd i
  rw [hd, dim_step] at hstart
  rw [hd, dim_step, dim_count, dim_size, dim_h] at hsizeeq
  rw [hd, dim_h] at hb0eq
  rw [hd, dim_count, dim_h] at hb1eq
  rcases Classical.em (i + 1 = Dim.calcCount b size h) with hlast | hlast
  · -- last tile
    rw [if_pos hlast] at hsizeeq hb1eq
    have hstart_le : (b - 2 * h) * i < size := by
      rcases hstart_bound with hx | hx
      · omega
      · rw [hx]; simpa using hsz
    have hcc : Dim.calcCount b size h * (b - 2 * h) = (b - 2 * h) * i + (b - 2 * h) := by
      rw [← hlast]; ring
    refine ⟨hstart, ?_, ?_, ?_, ?_, ?_, ?_, ?_, ?_⟩
    · rw [hb0eq, hstart]
      rcases Classical.em (i = 0) with h0 | h0
      · subst h0
        simp
      · simp only [if_neg h0]
    · rw [dim_count, if_pos hlast, hb1eq, hsizeeq, hstart]
      omega
    · rw [hsizeeq]
      omega
    · rw [hb0eq, hb1eq, hsizeeq]
      rcases Classical.em (i = 0) with h0 | h0
      · rw [if_pos h0]
        subst h0
        omega
      · rw [if_neg h0]
        rcases hstart_bound with hx | hx
        · omega
        · exact absurd hx h0
    · rw [hb1eq]
    · rw [hsizeeq, hstart]
      omega
    · intro v hv0 hv1
      rw [bdim_w0, bdim_set_dim, hd, dim_h, hstart]
      rw [hb0eq] at hv0
      rcases Classical.em (i = 0) with h0 | h0
      · subst h0
        simp only [Nat.mul_zero]
        omega
      · rw [if_neg h0] at hv0
        omega
    · intro v hv0 hv1
      rw [bdim_w1, bdim_set_dim, hd, dim_h, hstart, hsizeeq]
      rw [hb1eq, hsizeeq] at hv1
      have hstart_le2 : (b - 2 * h) * i ≤ size := by omega
      omega
  · -- interior tile
    rw [if_neg hlast] at hsizeeq hb1eq
    have hen := hen_le hlast
    have hx1' : (b - 2 * h) * (i + 1) = (b - 2 * h) * i + (b - 2 * h) := by ring
    have hlen : (bd.set i).size = 2 * h + (b - 2 * h) := by
      rw [hsizeeq]
      omega
    refine ⟨hstart, ?_, ?_, ?_, ?_, ?_, ?_, ?_, ?_⟩
    · rw [hb0eq, hstart]
      rcases Classical.em (i = 0) with h0 | h0
      · subst h0
        simp
      · simp only [if_neg h0]
    · rw [dim_count, if_neg hlast, hb1eq, hlen, hstart]
      omega
    · rw [hlen]
      omega
    · rw [hb0eq, hb1eq, hlen]
      split <;> omega
    · rw [hb1eq]
      omega
    · rw [hlen, hstart]
      omega
    · intro v hv0 hv1
      rw [bdim_w0, bdim_set_dim, hd, dim_h, hstart]
      rw [hb0eq] at hv0
      rcases Classical.em (i = 0) with h0 | h0
      · subst h0
        simp only [Nat.mul_zero]
        omega
      · rw [if_neg h0] at hv0
        omega
    · intro v hv0 hv1
      rw [bdim_w1, bdim_set_dim, hd, dim_h, hstart, hlen]
      rw [hb1eq, hlen] at hv1
      omega

theorem bdim_make_dim (d : Dim) : (BDim.make d).dim = d := rfl

theorem tileInterior_formula (b size h : ℕ) (hb : 2 * h + 1 < b) (hsz : 1 ≤ size)
    {i : ℕ} (hi : i < (Dim.make b size h).count) :
    tileInterior (Dim.make b size h) i =
      Finset.Ico (if i = 0 then 0 else (b - 2 * h) * i + h)
        (if i + 1 = (Dim.make b size h).count then size else h + (b - 2 * h) * (i + 1)) := by
  have tf := tileFacts_set (BDim.make (Dim.make b size h)) (bdim_make_dim _) hb hsz hi
  rw [tileInterior, tf.hA, tf.hB]

theorem tileAB_lt (b size h : ℕ) (hb : 2 * h + 1 < b) (hsz : 1 ≤ size)
    {i : ℕ} (hi : i < (Dim.make b size h).count) :
    (if i = 0 then 0 else (b - 2 * h) * i + h) <
      (if i + 1 = (Dim.make b size h).count then size else h + (b - 2 * h) * (i + 1)) := by
  have tf := tileFacts_set (BDim.make (Dim.make b size h)) (bdim_make_dim _) hb hsz hi
  have h01 := tf.hb01
  rw [← tf.hA, ← tf.hB]
  omega

theorem tileB_le (b size h : ℕ) (hb : 2 * h + 1 < b) (hsz : 1 ≤ size)
    {i : ℕ} (hi : i < (Dim.make b size h).count) :
    (if i + 1 = (Dim.make b size h).count then size else h + (b - 2 * h) * (i + 1)) ≤ size := by
  have tf := tileFacts_set (BDim.make (Dim.make b size h)) (bdim_make_dim _) hb hsz hi
  have h1 := tf.hb1le
  have h2 := tf.hinimg
  rw [← tf.hB]
  omega

theorem tileB_eq_A_succ (b size h : ℕ) {i : ℕ}
    (hi : i + 1 < (Dim.make b size h).count) :
    (if i + 1 = (Dim.make b size h).count then size else h + (b - 2 * h) * (i + 1)) =
      (if i + 1 = 0 then 0 else (b - 2 * h) * (i + 1) + h) := by
  rw [if_neg (by omega : ¬ i + 1 = (Dim.make b size h).count),
    if_neg (by omega : ¬ i + 1 = 0)]
  omega

theorem tileA_mono (b size h : ℕ) {i j : ℕ} (hij : i ≤ j) :
    (if i = 0 then 0 else (b - 2 * h) * i + h) ≤
      (if j = 0 then 0 else (b - 2 * h) * j + h) := by
  rcases Classical.em (i = 0) with h0 | h0
  · rw [if_pos h0]
    omega
  · rw [if_neg h0, if_neg (by omega : ¬ j = 0)]
    have := Nat.mul_le_mul_left (b - 2 * h) hij
    omega

theorem tile_cover (b size h : ℕ) (hb : 2 * h + 1 < b) (hsz : 1 ≤ size)
    {g : ℕ} (hg : g < size) :
    ∃ i < (Dim.make b size h).count, g ∈ tileInterior (Dim.make b size h) i := by
  have hc1 : 1 ≤ (Dim.make b size h).count := (dim_asserts_hold b size h hb hsz).2.1
  set c := (Dim.make b size h).count with hc
  set S := (Finset.range c).filter
      (fun i => g < if i + 1 = c then size else h + (b - 2 * h) * (i + 1)) with hS
  have hlast_mem : c - 1 ∈ S := by
    rw [hS, Finset.mem_filter, Finset.mem_range]
    refine ⟨by omega, ?_⟩
    rw [if_pos (by omega : c - 1 + 1 = c)]
    exact hg
  have hne : S.Nonempty := ⟨c - 1, hlast_mem⟩
  set i0 := S.min' hne with hi0def
  have him : i0 ∈ S := S.min'_mem hne
  rw [hS, Finset.mem_filter, Finset.mem_range] at him
  obtain ⟨hi0, hlt⟩ := him
  refine ⟨i0, hi0, ?_⟩
  rw [tileInterior_formula b size h hb hsz hi0, Finset.mem_Ico]
  refine ⟨?_, hlt⟩
  rcases Classical.em (i0 = 0) with h0 | h0
  · rw [if_pos h0]
    omega
  · have hnm : i0 - 1 ∉ S := by
      intro hmem
      have := S.min'_le _ hmem
      omega
    rw [hS, Finset.mem_filter, Finset.mem_range] at hnm
    have hge : ¬ g < (if (i0 - 1) + 1 = c then size
        else h + (b - 2 * h) * ((i0 - 1) + 1)) := by
      intro hcon
      exact hnm ⟨by omega, hcon⟩
    have hchain := tileB_eq_A_succ b size h
      (show (i0 - 1) + 1 < (Dim.make b size h).count by rw [← hc]; omega)
    rw [hchain] at hge
    have hm1 : (i0 - 1) + 1 = i0 := by omega
    rw [hm1] at hge
    omega

theorem tile_B_le_A (b size h : ℕ) (hb : 2 * h + 1 < b) (hsz : 1 ≤ size)
    {i j : ℕ} (hij : i < j) (hj : j < (Dim.make b size h).count) :
    (if i + 1 = (Dim.make b size h).count then size else h + (b - 2 * h) * (i + 1)) ≤
      (if j = 0 then 0 else (b - 2 * h) * j + h) := by
  have hchain := tileB_eq_A_succ b size h (show i + 1 < (Dim.make b size h).count by omega)
  rw [hchain]
  exact tileA_mono b size h (by omega : i + 1 ≤ j)

theorem tile_disjoint_lt (b size h : ℕ) (hb : 2 * h + 1 < b) (hsz : 1 ≤ size)
    {i j : ℕ} (hij : i < j) (hj : j < (Dim.make b size h).count) :
    Disjoint (tileInterior (Dim.make b size h) i) (tileInterior (Dim.make b size h) j) := by
  rw [tileInterior_formula b size h hb hsz (by omega : i < (Dim.make b size h).count),
    tileInterior_formula b size h hb hsz hj]
  rw [Finset.disjoint_left]
  intro g hgi hgj
  rw [Finset.mem_Ico] at hgi hgj
  have := tile_B_le_A b size h hb hsz hij hj
  omega

theorem tile_disjoint (b size h : ℕ) (hb : 2 * h + 1 < b) (hsz : 1 ≤ size)
    {i j : ℕ} (hi : i < (Dim.make b size h).count) (hj : j < (Dim.make b size h).count)
    (hne : i ≠ j) :
    Disjoint (tileInterior (Dim.make b size h) i) (tileInterior (Dim.make b size h) j) := by
  rcases Nat.lt_or_ge i j with hlt | hge
  · exact tile_disjoint_lt b size h hb hsz hlt hj
  · exact (tile_disjoint_lt b size h hb hsz (by omega : j < i) hi).symm

theorem tile_biUnion (b size h : ℕ) (hb : 2 * h + 1 < b) (hsz : 1 ≤ size) :
    (Finset.range (Dim.make b size h).count).biUnion (tileInterior (Dim.make b size h)) =
      Finset.range size := by
  ext g
  rw [Finset.mem_biUnion, Finset.mem_range]
  constructor
  · rintro ⟨i, hi, hgi⟩
    rw [Finset.mem_range] at hi
    rw [tileInterior_formula b size h hb hsz hi, Finset.mem_Ico] at hgi
    have := tileB_le b size h hb hsz hi
    omega
  · intro hg
    obtain ⟨i, hi, hgi⟩ := tile_cover b size h hb hsz hg
    exact ⟨i, Finset.mem_range.mpr hi, hgi⟩

/-! The per-block worker: frame lemmas and `calc_rank`. -/

theorem update_block_bx (mc : MedCalc2D) (op : ℤ) (x0 x1 y0 y1 : ℕ) :
    (mc.update_block op x0 x1 y0 y1).bx = mc.bx := rfl

theorem update_block_bY (mc : MedCalc2D) (op : ℤ) (x0 x1 y0 y1 : ℕ) :
    (mc.update_block op x0 x1 y0 y1).bY = mc.bY := rfl

theorem update_block_input (mc : MedCalc2D) (op : ℤ) (x0 x1 y0 y1 : ℕ) :
    (mc.update_block op x0 x1 y0 y1).input = mc.input := rfl

theorem set_med_bx (mc : MedCalc2D) (x y : ℕ) : (mc.set_med x y).1.bx = mc.bx := rfl

theorem set_med_bY (mc : MedCalc2D) (x y : ℕ) : (mc.set_med x y).1.bY = mc.bY := rfl

theorem set_med_input (mc : MedCalc2D) (x y : ℕ) :
    (mc.set_med x y).1.input = mc.input := rfl

theorem set_med_wr (mc : MedCalc2D) (x y : ℕ) :
    (mc.set_med x y).1.wr = (mc.wr.get_med).2 := rfl

theorem set_med_write (mc : MedCalc2D) (x y : ℕ) :
    (mc.set_med x y).2 = (mc.coord x y, (mc.wr.get_med).1) := rfl

theorem calc_rank_bx (mc : MedCalc2D) : mc.calc_rank.bx = mc.bx := rfl

theorem calc_rank_bY (mc : MedCalc2D) : mc.calc_rank.bY = mc.bY := rfl

theorem calc_rank_input (mc : MedCalc2D) : mc.calc_rank.input = mc.input := rfl

theorem foldl_flatMap {α β γ : Type} (l : List α) (f : α → List β)
    (g : γ → β → γ) (a : γ) :
    (l.flatMap f).foldl g a = l.foldl (fun a x => (f x).foldl g a) a := by
  induction l generalizing a with
  | nil => rfl
  | cons x xs ih =>
    rw [List.flatMap_cons, List.foldl_append, List.foldl_cons, ih]

theorem blockFeeds_eq (mc : MedCalc2D) :
    blockFeeds mc = (rowMajor mc.bx.size mc.bY.size).map
      fun c => (mc.input (mc.coord c.1 c.2), mc.pack c.1 c.2) := by
  unfold blockFeeds rowMajor
  rw [List.map_flatMap]
  congr 1
  funext y
  rw [List.map_map]
  rfl

theorem foldl_fun_congr {α γ : Type} {f g : γ → α → γ} (h : ∀ a x, f a x = g a x)
    (l : List α) (i : γ) : l.foldl f i = l.foldl g i := by
  induction l generalizing i with
  | nil => rfl
  | cons x xs ih =>
    rw [List.foldl_cons, List.foldl_cons, h, ih]

theorem calc_rank_wr (mc : MedCalc2D) :
    mc.calc_rank.wr = ((mc.wr.init_start).feedAll (blockFeeds mc)).init_finish := by
  rw [blockFeeds_eq]
  unfold WindowRank.feedAll rowMajor
  rw [List.map_flatMap, foldl_flatMap]
  simp only [MedCalc2D.calc_rank]
  congr 1
  apply foldl_fun_congr
  intro wr y
  rw [List.map_map, List.foldl_map]
  rfl

theorem mem_rowMajor {sx sy : ℕ} {c : ℕ × ℕ} :
    c ∈ rowMajor sx sy ↔ c.1 < sx ∧ c.2 < sy := by
  unfold rowMajor
  rw [List.mem_flatMap]
  constructor
  · rintro ⟨y, hy, hc⟩
    rw [List.mem_map] at hc
    obtain ⟨x, hx, rfl⟩ := hc
    exact ⟨List.mem_range.mp hx, List.mem_range.mp hy⟩
  · rintro ⟨h1, h2⟩
    refine ⟨c.2, List.mem_range.mpr h2, ?_⟩
    rw [List.mem_map]
    exact ⟨c.1, List.mem_range.mpr h1, by rw [Prod.ext_iff]; exact ⟨rfl, rfl⟩⟩

theorem rowMajor_nodup (sx sy : ℕ) : (rowMajor sx sy).Nodup := by
  unfold rowMajor
  apply List.nodup_flatMap.mpr
  constructor
  · intro y _
    exact (List.nodup_range _).map fun a b h => by
      rw [Prod.ext_iff] at h
      exact h.1
  · rw [List.pairwise_iff_forall_sublist]
    intro y1 y2 hsub
    have hne : y1 ≠ y2 := by
      have := (List.nodup_range sy).sublist hsub
      rcases this with _ | h
      simpa using h
    intro c hc1 hc2
    rw [List.mem_map] at hc1 hc2
    obtain ⟨x1, _, rfl⟩ := hc1
    obtain ⟨x2, _, he⟩ := hc2
    rw [Prod.ext_iff] at he
    exact hne (he.2.symm)

theorem packF_inj (sx : ℕ) {c d : ℕ × ℕ} (hc : c.1 < sx) (hd : d.1 < sx)
    (h : packF sx c = packF sx d) : c = d := by
  unfold packF at h
  have h2 : c.2 = d.2 := by
    by_contra hne
    rcases Nat.lt_or_ge c.2 d.2 with hlt | hge
    · have h1 : (c.2 + 1) * sx ≤ d.2 * sx :=
        Nat.mul_le_mul_right sx (by omega : c.2 + 1 ≤ d.2)
      rw [Nat.succ_mul] at h1
      omega
    · have h1 : (d.2 + 1) * sx ≤ c.2 * sx :=
        Nat.mul_le_mul_right sx (by omega : d.2 + 1 ≤ c.2)
      rw [Nat.succ_mul] at h1
      omega
  rw [Prod.ext_iff]
  refine ⟨?_, h2⟩
  rw [h2] at h
  omega

theorem wrInv_clear {bb : ℕ} {feeds : List (Val × ℕ)} {C : Finset ℕ} {wr : WindowRank}
    (h : WRInv bb feeds C wr) : WRInv bb feeds ∅ wr.clear := by
  refine ⟨h.hvfeeds, h.hsorted, h.hrank, h.hnan, h.hwords, ?_, ?_, by simp⟩
  · exact clear_inv h.hwInv.hlen h.hwInv.hwords
  · show wr.window.clear.wFinset = _
    rw [clear_wFinset, rankSet_empty]

theorem mem_blockFeeds {mc : MedCalc2D} {pr : Val × ℕ} :
    pr ∈ blockFeeds mc ↔ ∃ c : ℕ × ℕ, c.1 < mc.bx.size ∧ c.2 < mc.bY.size ∧
      pr = (mc.input (mc.coord c.1 c.2), packF mc.bx.size c) := by
  rw [blockFeeds_eq, List.mem_map]
  constructor
  · rintro ⟨c, hc, rfl⟩
    rw [mem_rowMajor] at hc
    exact ⟨c, hc.1, hc.2, rfl⟩
  · rintro ⟨c, h1, h2, rfl⟩
    exact ⟨c, mem_rowMajor.mpr ⟨h1, h2⟩, rfl⟩

theorem blockFeeds_valid {mc : MedCalc2D} {b : ℕ} (h1 : 1 ≤ b)
    (hsx : mc.bx.size ≤ b) (hsy : mc.bY.size ≤ b) :
    ValidFeeds (b * b) (blockFeeds mc) := by
  refine ⟨?_, ?_, ?_⟩
  · have := Nat.mul_le_mul h1 h1
    omega
  · rw [blockFeeds_eq, List.map_map]
    refine List.Nodup.map_on ?_ (rowMajor_nodup _ _)
    intro c hc d hd hcd
    rw [mem_rowMajor] at hc hd
    exact packF_inj mc.bx.size hc.1 hd.1 hcd
  · intro pr hpr
    rw [mem_blockFeeds] at hpr
    obtain ⟨c, h1c, h2c, rfl⟩ := hpr
    show packF mc.bx.size c < b * b
    unfold packF
    have e1 : (c.2 + 1) * mc.bx.size ≤ mc.bY.size * mc.bx.size :=
      Nat.mul_le_mul_right _ (by omega)
    rw [Nat.succ_mul] at e1
    have e2 : mc.bY.size * mc.bx.size ≤ b * b := Nat.mul_le_mul hsy hsx
    omega

theorem Ico_sub_eq (x0 x1 : ℕ) : Finset.Ico x0 (x0 + (x1 - x0)) = Finset.Ico x0 x1 := by
  ext a
  rw [Finset.mem_Ico, Finset.mem_Ico]
  omega

theorem wrInv_insert_row {bb : ℕ} {feeds : List (Val × ℕ)} {sx y : ℕ} :
    ∀ (n x0 : ℕ) (C : Finset ℕ) (wr : WindowRank), WRInv bb feeds C wr →
    (∀ x, x0 ≤ x → x < x0 + n → ∃ v, (v, packF sx (x, y)) ∈ feeds) →
    (∀ x, x0 ≤ x → x < x0 + n → packF sx (x, y) ∉ C) →
    WRInv bb feeds (C ∪ (Finset.Ico x0 (x0 + n)).image fun x => packF sx (x, y))
      ((List.range' x0 n).foldl (fun a x => a.update 1 (packF sx (x, y))) wr) := by
  intro n
  induction n with
  | zero =>
    intro x0 C wr h _ _
    simpa using h
  | succ n ih =>
    intro x0 C wr h hmem hdis
    obtain ⟨v, hv⟩ := hmem x0 (le_refl _) (by omega)
    have hnot : packF sx (x0, y) ∉ C := hdis x0 (le_refl _) (by omega)
    have h1 := wrInv_insert h hv hnot
    rw [List.range'_succ, List.foldl_cons]
    have h2 := ih (x0 + 1) (insert (packF sx (x0, y)) C) (wr.update 1 (packF sx (x0, y))) h1
      (fun x hx1 hx2 => hmem x (by omega) (by omega))
      (fun x hx1 hx2 => by
        rw [Finset.mem_insert]
        push_neg
        refine ⟨?_, hdis x (by omega) (by omega)⟩
        unfold packF
        simp only
        omega)
    have hset : insert (packF sx (x0, y)) C ∪
        ((Finset.Ico (x0 + 1) (x0 + 1 + n)).image fun x => packF sx (x, y)) =
        C ∪ ((Finset.Ico x0 (x0 + (n + 1))).image fun x => packF sx (x, y)) := by
      ext s
      simp only [Finset.mem_union, Finset.mem_insert, Finset.mem_image, Finset.mem_Ico]
      constructor
      · rintro ((rfl | hs) | ⟨x, hx, rfl⟩)
        · right; exact ⟨x0, by omega, rfl⟩
        · left; exact hs
        · right; exact ⟨x, by omega, rfl⟩
      · rintro (hs | ⟨x, hx, rfl⟩)
        · left; right; exact hs
        · rcases Classical.em (x = x0) with rfl | hne
          · left; left; rfl
          · right; exact ⟨x, by omega, rfl⟩
    rw [hset] at h2
    exact h2

theorem wrInv_erase_row {bb : ℕ} {feeds : List (Val × ℕ)} {sx y : ℕ} :
    ∀ (n x0 : ℕ) (C : Finset ℕ) (wr : WindowRank), WRInv bb feeds C wr →
    (∀ x, x0 ≤ x → x < x0 + n → packF sx (x, y) ∈ C) →
    WRInv bb feeds (C \ ((Finset.Ico x0 (x0 + n)).image fun x => packF sx (x, y)))
      ((List.range' x0 n).foldl (fun a x => a.update (-1) (packF sx (x, y))) wr) := by
  intro n
  induction n with
  | zero =>
    intro x0 C wr h _
    simpa using h
  | succ n ih =>
    intro x0 C wr h hmem
    have hin : packF sx (x0, y) ∈ C := hmem x0 (le_refl _) (by omega)
    have h1 := wrInv_erase h hin
    rw [List.range'_succ, List.foldl_cons]
    have h2 := ih (x0 + 1) (C.erase (packF sx (x0, y))) (wr.update (-1) (packF sx (x0, y))) h1
      (fun x hx1 hx2 => by
        rw [Finset.mem_erase]
        refine ⟨?_, hmem x (by omega) (by omega)⟩
        unfold packF
        simp only
        omega)
    have hset : C.erase (packF sx (x0, y)) \
        ((Finset.Ico (x0 + 1) (x0 + 1 + n)).image fun x => packF sx (x, y)) =
        C \ ((Finset.Ico x0 (x0 + (n + 1))).image fun x => packF sx (x, y)) := by
      ext s
      simp only [Finset.mem_sdiff, Finset.mem_erase, Finset.mem_image, Finset.mem_Ico]
      constructor
      · rintro ⟨⟨hne, hs⟩, hnot⟩
        refine ⟨hs, ?_⟩
        rintro ⟨x, hx, rfl⟩
        rcases Classical.em (x = x0) with rfl | hxne
        · exact hne rfl
        · exact hnot ⟨x, by omega, rfl⟩
      · rintro ⟨hs, hnot⟩
        refine ⟨⟨?_, hs⟩, ?_⟩
        · intro he
          exact hnot ⟨x0, by omega, he.symm⟩
        · rintro ⟨x, hx, rfl⟩
          exact hnot ⟨x, by omega, rfl⟩
    rw [hset] at h2
    exact h2

theorem rectCells_zero (x0 x1 y0 : ℕ) : rectCells x0 x1 y0 (y0 + 0) = ∅ := by
  unfold rectCells
  rw [Nat.add_zero, Finset.Ico_self, Finset.product_empty]

theorem rectSlots_split (sx x0 x1 y0 m : ℕ) :
    (rectCells x0 x1 y0 (y0 + (m + 1))).image (packF sx) =
      ((Finset.Ico x0 x1).image fun x => packF sx (x, y0)) ∪
        (rectCells x0 x1 (y0 + 1) (y0 + 1 + m)).image (packF sx) := by
  ext s
  simp only [Finset.mem_union, Finset.mem_image, rectCells, Finset.mem_product,
    Finset.mem_Ico]
  constructor
  · rintro ⟨⟨cx, cy⟩, ⟨⟨hx1, hx2⟩, hy1, hy2⟩, rfl⟩
    rcases Classical.em (cy = y0) with rfl | hne
    · left; exact ⟨cx, ⟨hx1, hx2⟩, rfl⟩
    · right
      refine ⟨(cx, cy), ⟨⟨hx1, hx2⟩, by omega, by omega⟩, rfl⟩
  · rintro (⟨x, ⟨h1, h2⟩, rfl⟩ | ⟨⟨cx, cy⟩, ⟨⟨hx1, hx2⟩, hy1, hy2⟩, rfl⟩)
    · exact ⟨(x, y0), ⟨⟨h1, h2⟩, by omega, by omega⟩, rfl⟩
    · exact ⟨(cx, cy), ⟨⟨hx1, hx2⟩, by omega, by omega⟩, rfl⟩

theorem wrInv_insert_rect {bb : ℕ} {feeds : List (Val × ℕ)} {sx x0 x1 : ℕ}
    (hx1 : x1 ≤ sx) :
    ∀ (m y0 : ℕ) (C : Finset ℕ) (wr : WindowRank), WRInv bb feeds C wr →
    (∀ c : ℕ × ℕ, c ∈ rectCells x0 x1 y0 (y0 + m) → ∃ v, (v, packF sx c) ∈ feeds) →
    (∀ c : ℕ × ℕ, c ∈ rectCells x0 x1 y0 (y0 + m) → packF sx c ∉ C) →
    WRInv bb feeds (C ∪ (rectCells x0 x1 y0 (y0 + m)).image (packF sx))
      ((List.range' y0 m).foldl
        (fun wr y => (List.range' x0 (x1 - x0)).foldl
          (fun a x => a.update 1 (packF sx (x, y))) wr) wr) := by
  intro m
  induction m with
  | zero =>
    intro y0 C wr h _ _
    rw [rectCells_zero]
    simpa using h
  | succ m ih =>
    intro y0 C wr h hmem hdis
    have hrowmem : ∀ x, x0 ≤ x → x < x0 + (x1 - x0) →
        ∃ v, (v, packF sx (x, y0)) ∈ feeds := by
      intro x hx1' hx2'
      refine hmem (x, y0) ?_
      rw [rectCells, Finset.mem_product, Finset.mem_Ico, Finset.mem_Ico]
      exact ⟨⟨hx1', by omega⟩, by omega, by omega⟩
    have hrowdis : ∀ x, x0 ≤ x → x < x0 + (x1 - x0) → packF sx (x, y0) ∉ C := by
      intro x hx1' hx2'
      refine hdis (x, y0) ?_
      rw [rectCells, Finset.mem_product, Finset.mem_Ico, Finset.mem_Ico]
      exact ⟨⟨hx1', by omega⟩, by omega, by omega⟩
    have h1 := wrInv_insert_row (x1 - x0) x0 C wr h hrowmem hrowdis
    rw [Ico_sub_eq] at h1
    rw [List.range'_succ, List.foldl_cons]
    have h2 := ih (y0 + 1) (C ∪ (Finset.Ico x0 x1).image fun x => packF sx (x, y0)) _ h1
      (fun c hc => hmem c (by
        rw [rectCells, Finset.mem_product, Finset.mem_Ico, Finset.mem_Ico] at hc ⊢
        omega))
      (fun c hc => by
        rw [rectCells, Finset.mem_product, Finset.mem_Ico, Finset.mem_Ico] at hc
        rw [Finset.mem_union]
        push_neg
        constructor
        · exact hdis c (by
            rw [rectCells, Finset.mem_product, Finset.mem_Ico, Finset.mem_Ico]
            omega)
        · rw [Finset.mem_image]
          rintro ⟨x, hx, he⟩
          rw [Finset.mem_Ico] at hx
          have := packF_inj sx (by omega : (x, y0).1 < sx)
            (by omega : c.1 < sx) he
          rw [Prod.ext_iff] at this
          omega)
    rw [Finset.union_assoc, ← rectSlots_split] at h2
    exact h2

theorem wrInv_erase_rect {bb : ℕ} {feeds : List (Val × ℕ)} {sx x0 x1 : ℕ}
    (hx1 : x1 ≤ sx) :
    ∀ (m y0 : ℕ) (C : Finset ℕ) (wr : WindowRank), WRInv bb feeds C wr →
    (∀ c : ℕ × ℕ, c ∈ rectCells x0 x1 y0 (y0 + m) → packF sx c ∈ C) →
    WRInv bb feeds (C \ (rectCells x0 x1 y0 (y0 + m)).image (packF sx))
      ((List.range' y0 m).foldl
        (fun wr y => (List.range' x0 (x1 - x0)).foldl
          (fun a x => a.update (-1) (packF sx (x, y))) wr) wr) := by
  intro m
  induction m with
  | zero =>
    intro y0 C wr h _
    rw [rectCells_zero]
    simpa using h
  | succ m ih =>
    intro y0 C wr h hmem
    have hrowmem : ∀ x, x0 ≤ x → x < x0 + (x1 - x0) → packF sx (x, y0) ∈ C := by
      intro x hx1' hx2'
      refine hmem (x, y0) ?_
      rw [rectCells, Finset.mem_product, Finset.mem_Ico, Finset.mem_Ico]
      exact ⟨⟨hx1', by omega⟩, by omega, by omega⟩
    have h1 := wrInv_erase_row (x1 - x0) x0 C wr h hrowmem
    rw [Ico_sub_eq] at h1
    rw [List.range'_succ, List.foldl_cons]
    have h2 := ih (y0 + 1) (C \ (Finset.Ico x0 x1).image fun x => packF sx (x, y0)) _ h1
      (fun c hc => by
        rw [rectCells, Finset.mem_product, Finset.mem_Ico, Finset.mem_Ico] at hc
        rw [Finset.mem_sdiff]
        constructor
        · exact hmem c (by
            rw [rectCells, Finset.mem_product, Finset.mem_Ico, Finset.mem_Ico]
            omega)
        · rw [Finset.mem_image]
          rintro ⟨x, hx, he⟩
          rw [Finset.mem_Ico] at hx
          have := packF_inj sx (by omega : (x, y0).1 < sx)
            (by omega : c.1 < sx) he
          rw [Prod.ext_iff] at this
          omega)
    have hsd : ∀ (A B D : Finset ℕ), ((A \ B) \ D = A \ (B ∪ D)) := by
      intro A B D
      ext a
      simp only [Finset.mem_sdiff, Finset.mem_union]
      tauto
    rw [hsd, ← rectSlots_split] at h2
    exact h2

theorem update_block_insert {bb : ℕ} {feeds : List (Val × ℕ)} {C : Finset ℕ}
    (mc : MedCalc2D) (h : WRInv bb feeds C mc.wr) (x0 x1 y0 y1 : ℕ)
    (hx1 : x1 ≤ mc.bx.size)
    (hmem : ∀ c : ℕ × ℕ, c ∈ rectCells x0 x1 y0 y1 →
      ∃ v, (v, packF mc.bx.size c) ∈ feeds)
    (hdis : ∀ c : ℕ × ℕ, c ∈ rectCells x0 x1 y0 y1 → packF mc.bx.size c ∉ C) :
    WRInv bb feeds (C ∪ (rectCells x0 x1 y0 y1).image (packF mc.bx.size))
      (mc.update_block 1 x0 x1 y0 y1).wr := by
  have hrect : rectCells x0 x1 y0 (y0 + (y1 - y0)) = rectCells x0 x1 y0 y1 := by
    unfold rectCells
    rw [Ico_sub_eq]
  have h2 := wrInv_insert_rect hx1 (y1 - y0) y0 C mc.wr h
    (by rw [hrect]; exact hmem) (by rw [hrect]; exact hdis)
  rw [hrect] at h2
  exact h2

theorem update_block_erase {bb : ℕ} {feeds : List (Val × ℕ)} {C : Finset ℕ}
    (mc : MedCalc2D) (h : WRInv bb feeds C mc.wr) (x0 x1 y0 y1 : ℕ)
    (hx1 : x1 ≤ mc.bx.size)
    (hmem : ∀ c : ℕ × ℕ, c ∈ rectCells x0 x1 y0 y1 → packF mc.bx.size c ∈ C) :
    WRInv bb feeds (C \ (rectCells x0 x1 y0 y1).image (packF mc.bx.size))
      (mc.update_block (-1) x0 x1 y0 y1).wr := by
  have hrect : rectCells x0 x1 y0 (y0 + (y1 - y0)) = rectCells x0 x1 y0 y1 := by
    unfold rectCells
    rw [Ico_sub_eq]
  have h2 := wrInv_erase_rect hx1 (y1 - y0) y0 C mc.wr h (by rw [hrect]; exact hmem)
  rw [hrect] at h2
  exact h2

theorem mem_winCells {mc : MedCalc2D} {x y : ℕ} {c : ℕ × ℕ} :
    c ∈ winCells mc x y ↔ (mc.bx.w0 x ≤ c.1 ∧ c.1 < mc.bx.w1 x) ∧
      mc.bY.w0 y ≤ c.2 ∧ c.2 < mc.bY.w1 y := by
  unfold winCells rectCells
  rw [Finset.mem_product, Finset.mem_Ico, Finset.mem_Ico]

theorem winCells_in_tile {mc : MedCalc2D} {x y : ℕ} :
    ∀ c ∈ winCells mc x y, c.1 < mc.bx.size ∧ c.2 < mc.bY.size := by
  intro c hc
  rw [mem_winCells] at hc
  have h1 := hc.1.2
  have h2 := hc.2.2
  rw [bdim_w1] at h1 h2
  omega

set_option maxHeartbeats 1000000 in
theorem winCells_image_shift {b X Y hx hy i j : ℕ} {mc : MedCalc2D}
    (tfx : TileFacts b X hx i mc.bx) (tfy : TileFacts b Y hy j mc.bY)
    {x y : ℕ} (hx0 : mc.bx.b0 ≤ x) (hx1 : x < mc.bx.b1)
    (hy0 : mc.bY.b0 ≤ y) (hy1 : y < mc.bY.b1) :
    (winCells mc x y).image (fun c => (c.1 + mc.bx.start, c.2 + mc.bY.start)) =
      windowIdx X Y hx hy (x + mc.bx.start) (y + mc.bY.start) := by
  have hwx0 := tfx.hw0 x hx0 hx1
  have hwx1 := tfx.hw1 x hx0 hx1
  have hwy0 := tfy.hw0 y hy0 hy1
  have hwy1 := tfy.hw1 y hy0 hy1
  ext c
  rw [Finset.mem_image]
  unfold windowIdx
  rw [Finset.mem_product, Finset.mem_Ico, Finset.mem_Ico]
  constructor
  · rintro ⟨d, hd, rfl⟩
    rw [mem_winCells] at hd
    obtain ⟨⟨h1, h2⟩, h3, h4⟩ := hd
    simp only
    constructor
    · constructor <;> omega
    · constructor <;> omega
  · rintro ⟨⟨ha1, ha2⟩, hb1, hb2⟩
    obtain ⟨a, bc⟩ := c
    simp only at ha1 ha2 hb1 hb2
    refine ⟨(a - mc.bx.start, bc - mc.bY.start), ?_, ?_⟩
    · rw [mem_winCells]
      refine ⟨⟨?_, ?_⟩, ?_, ?_⟩
      · show mc.bx.w0 x ≤ a - mc.bx.start
        omega
      · show a - mc.bx.start < mc.bx.w1 x
        omega
      · show mc.bY.w0 y ≤ bc - mc.bY.start
        omega
      · show bc - mc.bY.start < mc.bY.w1 y
        omega
    · show (a - mc.bx.start + mc.bx.start, bc - mc.bY.start + mc.bY.start) = (a, bc)
      rw [Prod.mk.injEq]
      constructor <;> omega

theorem activeVals_winSlots {b X Y hx hy i j : ℕ} {mc : MedCalc2D}
    (hdx : mc.bx.dim = Dim.make b X hx)
    (tfx : TileFacts b X hx i mc.bx) (tfy : TileFacts b Y hy j mc.bY)
    {x y : ℕ} (hx0 : mc.bx.b0 ≤ x) (hx1 : x < mc.bx.b1)
    (hy0 : mc.bY.b0 ≤ y) (hy1 : y < mc.bY.b1) :
    activeVals (blockFeeds mc) (winSlots mc x y) =
      ((windowIdx X Y hx hy (x + mc.bx.start) (y + mc.bY.start)).val.map
        fun c => mc.input (c.2 * X + c.1)).filterMap id := by
  have hfilter : (blockFeeds mc).filter (fun pr => pr.2 ∈ winSlots mc x y) =
      ((rowMajor mc.bx.size mc.bY.size).filter
        (fun c => c ∈ winCells mc x y)).map
        (fun c => (mc.input (mc.coord c.1 c.2), mc.pack c.1 c.2)) := by
    rw [blockFeeds_eq, List.filter_map]
    congr 1
    apply List.filter_congr
    intro c hc
    rw [mem_rowMajor] at hc
    simp only [Function.comp_apply, decide_eq_decide]
    constructor
    · intro hmem
      rw [winSlots, Finset.mem_image] at hmem
      obtain ⟨d, hd, he⟩ := hmem
      have hdt := winCells_in_tile d hd
      have : d = c := packF_inj mc.bx.size hdt.1 hc.1 he
      rw [← this]
      exact hd
    · intro hmem
      rw [winSlots, Finset.mem_image]
      exact ⟨c, hmem, rfl⟩
  have hperm : ((rowMajor mc.bx.size mc.bY.size).filter
      (fun c => c ∈ winCells mc x y)).Perm (winCells mc x y).toList := by
    apply List.perm_of_nodup_nodup_toFinset_eq
    · exact (rowMajor_nodup _ _).filter _
    · exact Finset.nodup_toList _
    · ext a
      rw [List.mem_toFinset, List.mem_filter, List.mem_toFinset, Finset.mem_toList,
        mem_rowMajor]
      constructor
      · rintro ⟨_, h2⟩
        exact of_decide_eq_true h2
      · intro h
        exact ⟨winCells_in_tile a h, decide_eq_true h⟩
  have hshift : ((winCells mc x y).toList.map
      (fun c => (c.1 + mc.bx.start, c.2 + mc.bY.start))).Perm
      (windowIdx X Y hx hy (x + mc.bx.start) (y + mc.bY.start)).toList := by
    apply List.perm_of_nodup_nodup_toFinset_eq
    · refine (Finset.nodup_toList _).map ?_
      intro c d he
      rw [Prod.ext_iff] at he ⊢
      simp only at he
      omega
    · exact Finset.nodup_toList _
    · ext a
      rw [List.mem_toFinset, List.mem_toFinset, Finset.mem_toList, List.mem_map]
      rw [← winCells_image_shift tfx tfy hx0 hx1 hy0 hy1, Finset.mem_image]
      constructor
      · rintro ⟨d, hd, rfl⟩
        exact ⟨d, Finset.mem_toList.mp hd, rfl⟩
      · rintro ⟨d, hd, rfl⟩
        exact ⟨d, Finset.mem_toList.mpr hd, rfl⟩
  unfold activeVals
  rw [hfilter, List.filterMap_map]
  rw [← Finset.coe_toList (windowIdx X Y hx hy (x + mc.bx.start) (y + mc.bY.start)),
    Multiset.map_coe, Multiset.filterMap_coe, List.filterMap_map]
  rw [Multiset.coe_eq_coe]
  have hcongr : List.filterMap (id ∘ fun c : ℕ × ℕ => mc.input (c.2 * X + c.1))
      ((windowIdx X Y hx hy (x + mc.bx.start) (y + mc.bY.start)).toList) =
      List.filterMap (fun c : ℕ × ℕ => mc.input (c.2 * X + c.1))
      ((windowIdx X Y hx hy (x + mc.bx.start) (y + mc.bY.start)).toList) := rfl
  rw [hcongr]
  have hstep1 := hperm.filterMap
    ((fun pr : Val × ℕ => pr.1) ∘ fun c : ℕ × ℕ =>
      (mc.input (mc.coord c.1 c.2), mc.pack c.1 c.2))
  refine hstep1.trans ?_
  have hstep2 := hshift.filterMap (fun c : ℕ × ℕ => mc.input (c.2 * X + c.1))
  rw [List.filterMap_map] at hstep2
  refine List.Perm.trans ?_ hstep2
  have heq : ∀ c : ℕ × ℕ,
      (((fun pr : Val × ℕ => pr.1) ∘ fun c : ℕ × ℕ =>
        (mc.input (mc.coord c.1 c.2), mc.pack c.1 c.2)) c) =
      (((fun c : ℕ × ℕ => mc.input (c.2 * X + c.1)) ∘ fun c : ℕ × ℕ =>
        (c.1 + mc.bx.start, c.2 + mc.bY.start)) c) := by
    intro c
    simp only [Function.comp_apply]
    unfold MedCalc2D.coord
    rw [hdx, dim_size]
  rw [List.filterMap_congr (fun c _ => heq c)]

theorem valAt_eq_refMedian {b X Y hx hy i j : ℕ} {mc : MedCalc2D}
    (hdx : mc.bx.dim = Dim.make b X hx)
    (tfx : TileFacts b X hx i mc.bx) (tfy : TileFacts b Y hy j mc.bY)
    {x y : ℕ} (hx0 : mc.bx.b0 ≤ x) (hx1 : x < mc.bx.b1)
    (hy0 : mc.bY.b0 ≤ y) (hy1 : y < mc.bY.b1) :
    valAt mc x y = refMedian X Y hx hy mc.input (x + mc.bx.start) (y + mc.bY.start) := by
  unfold valAt refMedian
  rw [activeVals_winSlots hdx tfx tfy hx0 hx1 hy0 hy1]

theorem mem_rectCells {x0 x1 y0 y1 : ℕ} {c : ℕ × ℕ} :
    c ∈ rectCells x0 x1 y0 y1 ↔ (x0 ≤ c.1 ∧ c.1 < x1) ∧ y0 ≤ c.2 ∧ c.2 < y1 := by
  unfold rectCells
  rw [Finset.mem_product, Finset.mem_Ico, Finset.mem_Ico]

theorem rectCells_sdiff_x (a b c y0 y1 : ℕ) (hab : a ≤ b) (hbc : b ≤ c) :
    rectCells a c y0 y1 \ rectCells a b y0 y1 = rectCells b c y0 y1 := by
  ext p
  rw [Finset.mem_sdiff, mem_rectCells, mem_rectCells, mem_rectCells]
  constructor
  · rintro ⟨⟨⟨h1, h2⟩, h3, h4⟩, h5⟩
    refine ⟨⟨?_, h2⟩, h3, h4⟩
    by_contra hlt
    exact h5 ⟨⟨h1, by omega⟩, h3, h4⟩
  · rintro ⟨⟨h1, h2⟩, h3, h4⟩
    exact ⟨⟨⟨by omega, h2⟩, h3, h4⟩, fun hc => by omega⟩

theorem rectCells_union_x (a b c y0 y1 : ℕ) (hab : a ≤ b) (hbc : b ≤ c) :
    rectCells a b y0 y1 ∪ rectCells b c y0 y1 = rectCells a c y0 y1 := by
  ext p
  rw [Finset.mem_union, mem_rectCells, mem_rectCells, mem_rectCells]
  constructor
  · rintro (⟨⟨h1, h2⟩, h3, h4⟩ | ⟨⟨h1, h2⟩, h3, h4⟩)
    · exact ⟨⟨h1, by omega⟩, h3, h4⟩
    · exact ⟨⟨by omega, h2⟩, h3, h4⟩
  · rintro ⟨⟨h1, h2⟩, h3, h4⟩
    rcases Nat.lt_or_ge p.1 b with hlt | hge
    · exact Or.inl ⟨⟨h1, hlt⟩, h3, h4⟩
    · exact Or.inr ⟨⟨hge, h2⟩, h3, h4⟩

theorem rectCells_sdiff_y_low (x0 x1 a b c : ℕ) (hab : a ≤ b) (hbc : b ≤ c) :
    rectCells x0 x1 a c \ rectCells x0 x1 a b = rectCells x0 x1 b c := by
  ext p
  rw [Finset.mem_sdiff, mem_rectCells, mem_rectCells, mem_rectCells]
  constructor
  · rintro ⟨⟨⟨h1, h2⟩, h3, h4⟩, h5⟩
    refine ⟨⟨h1, h2⟩, ?_, h4⟩
    by_contra hlt
    exact h5 ⟨⟨h1, h2⟩, h3, by omega⟩
  · rintro ⟨⟨h1, h2⟩, h3, h4⟩
    exact ⟨⟨⟨h1, h2⟩, by omega, h4⟩, fun hc => by omega⟩

theorem rectCells_sdiff_y_high (x0 x1 a b c : ℕ) (hab : a ≤ b) (hbc : b ≤ c) :
    rectCells x0 x1 a c \ rectCells x0 x1 b c = rectCells x0 x1 a b := by
  ext p
  rw [Finset.mem_sdiff, mem_rectCells, mem_rectCells, mem_rectCells]
  constructor
  · rintro ⟨⟨⟨h1, h2⟩, h3, h4⟩, h5⟩
    refine ⟨⟨h1, h2⟩, h3, ?_⟩
    by_contra hge
    exact h5 ⟨⟨h1, h2⟩, by omega, h4⟩
  · rintro ⟨⟨h1, h2⟩, h3, h4⟩
    exact ⟨⟨⟨h1, h2⟩, h3, by omega⟩, fun hc => by omega⟩

theorem rectCells_union_y (x0 x1 a b c : ℕ) (hab : a ≤ b) (hbc : b ≤ c) :
    rectCells x0 x1 a b ∪ rectCells x0 x1 b c = rectCells x0 x1 a c := by
  ext p
  rw [Finset.mem_union, mem_rectCells, mem_rectCells, mem_rectCells]
  constructor
  · rintro (⟨⟨h1, h2⟩, h3, h4⟩ | ⟨⟨h1, h2⟩, h3, h4⟩)
    · exact ⟨⟨h1, h2⟩, h3, by omega⟩
    · exact ⟨⟨h1, h2⟩, by omega, h4⟩
  · rintro ⟨⟨h1, h2⟩, h3, h4⟩
    rcases Nat.lt_or_ge p.2 b with hlt | hge
    · exact Or.inl ⟨⟨h1, h2⟩, h3, hlt⟩
    · exact Or.inr ⟨⟨h1, h2⟩, hge, h4⟩

theorem packF_image_sdiff {sx : ℕ} {S T : Finset (ℕ × ℕ)}
    (hS : ∀ c ∈ S, c.1 < sx) (hT : ∀ c ∈ T, c.1 < sx) :
    S.image (packF sx) \ T.image (packF sx) = (S \ T).image (packF sx) := by
  ext s
  rw [Finset.mem_sdiff, Finset.mem_image, Finset.mem_image, Finset.mem_image]
  constructor
  · rintro ⟨⟨c, hc, rfl⟩, hnot⟩
    refine ⟨c, Finset.mem_sdiff.mpr ⟨hc, ?_⟩, rfl⟩
    intro hcT
    exact hnot ⟨c, hcT, rfl⟩
  · rintro ⟨c, hc, rfl⟩
    rw [Finset.mem_sdiff] at hc
    refine ⟨⟨c, hc.1, rfl⟩, ?_⟩
    rintro ⟨d, hd, he⟩
    have : d = c := packF_inj sx (hT d hd) (hS c hc.1) he
    rw [this] at hd
    exact hc.2 hd

theorem feeds_of_cell (mc : MedCalc2D) {c : ℕ × ℕ} (h1 : c.1 < mc.bx.size)
    (h2 : c.2 < mc.bY.size) : ∃ v, (v, packF mc.bx.size c) ∈ blockFeeds mc :=
  ⟨mc.input (mc.coord c.1 c.2), mem_blockFeeds.mpr ⟨c, h1, h2, rfl⟩⟩

set_option maxHeartbeats 1000000 in
theorem step_right {bb : ℕ} {mc : MedCalc2D} {x y : ℕ}
    (h : WRInv bb (blockFeeds mc) (winSlots mc x y) mc.wr)
    (hb1x : mc.bx.b1 ≤ mc.bx.size) (hb1y : mc.bY.b1 ≤ mc.bY.size)
    (hx1 : x + 1 < mc.bx.b1) (hy1 : y < mc.bY.b1) :
    WRInv bb (blockFeeds mc) (winSlots mc (x + 1) y)
      ((mc.update_block (-1) (mc.bx.w0 x) (mc.bx.w0 (x + 1)) (mc.bY.w0 y)
          (mc.bY.w1 y)).update_block 1
        (mc.bx.w1 x) (mc.bx.w1 (x + 1)) (mc.bY.w0 y) (mc.bY.w1 y)).wr := by
  have m1 : mc.bx.w0 x ≤ mc.bx.w0 (x + 1) := by rw [bdim_w0, bdim_w0]; omega
  have m2 : mc.bx.w0 (x + 1) ≤ mc.bx.w1 x := by rw [bdim_w0, bdim_w1]; omega
  have m3 : mc.bx.w1 x ≤ mc.bx.w1 (x + 1) := by rw [bdim_w1, bdim_w1]; omega
  have m4 : mc.bx.w1 (x + 1) ≤ mc.bx.size := by rw [bdim_w1]; omega
  have my1 : mc.bY.w1 y ≤ mc.bY.size := by rw [bdim_w1]; omega
  have herase := update_block_erase mc h (mc.bx.w0 x) (mc.bx.w0 (x + 1))
    (mc.bY.w0 y) (mc.bY.w1 y) (by omega)
    (by
      intro c hc
      rw [mem_rectCells] at hc
      rw [winSlots, Finset.mem_image]
      exact ⟨c, mem_winCells.mpr ⟨⟨hc.1.1, by omega⟩, hc.2⟩, rfl⟩)
  have hset1 : winSlots mc x y \
      (rectCells (mc.bx.w0 x) (mc.bx.w0 (x + 1)) (mc.bY.w0 y)
        (mc.bY.w1 y)).image (packF mc.bx.size) =
      (rectCells (mc.bx.w0 (x + 1)) (mc.bx.w1 x) (mc.bY.w0 y)
        (mc.bY.w1 y)).image (packF mc.bx.size) := by
    rw [winSlots, packF_image_sdiff (fun c hc => (winCells_in_tile c hc).1)
      (fun c hc => by rw [mem_rectCells] at hc; omega)]
    congr 1
    unfold winCells
    exact rectCells_sdiff_x _ _ _ _ _ m1 m2
  rw [hset1] at herase
  have hins := update_block_insert (mc.update_block (-1) (mc.bx.w0 x)
      (mc.bx.w0 (x + 1)) (mc.bY.w0 y) (mc.bY.w1 y)) herase
    (mc.bx.w1 x) (mc.bx.w1 (x + 1))
    (mc.bY.w0 y) (mc.bY.w1 y) m4
    (by
      intro c hc
      rw [mem_rectCells] at hc
      exact feeds_of_cell mc (by omega) (by omega))
    (by
      intro c hc
      rw [mem_rectCells] at hc
      rw [Finset.mem_image]
      rintro ⟨d, hd, he⟩
      rw [mem_rectCells] at hd
      have hdc : d = c := packF_inj mc.bx.size (by omega) (by omega) he
      rw [hdc] at hd
      omega)
  have hset2 : (rectCells (mc.bx.w0 (x + 1)) (mc.bx.w1 x) (mc.bY.w0 y)
        (mc.bY.w1 y)).image (packF mc.bx.size) ∪
      (rectCells (mc.bx.w1 x) (mc.bx.w1 (x + 1)) (mc.bY.w0 y)
        (mc.bY.w1 y)).image (packF mc.bx.size) =
      winSlots mc (x + 1) y := by
    rw [← Finset.image_union, rectCells_union_x _ _ _ _ _ m2 m3]
    rfl
  rw [update_block_bx] at hins
  rw [hset2] at hins
  exact hins

set_option maxHeartbeats 1000000 in
theorem step_down {bb : ℕ} {mc : MedCalc2D} {x y : ℕ}
    (h : WRInv bb (blockFeeds mc) (winSlots mc x y) mc.wr)
    (hb1x : mc.bx.b1 ≤ mc.bx.size) (hb1y : mc.bY.b1 ≤ mc.bY.size)
    (hx1 : x < mc.bx.b1) (hy1 : y + 1 < mc.bY.b1) :
    WRInv bb (blockFeeds mc) (winSlots mc x (y + 1))
      ((mc.update_block (-1) (mc.bx.w0 x) (mc.bx.w1 x) (mc.bY.w0 y)
          (mc.bY.w0 (y + 1))).update_block 1
        (mc.bx.w0 x) (mc.bx.w1 x) (mc.bY.w1 y) (mc.bY.w1 (y + 1))).wr := by
  have m1 : mc.bY.w0 y ≤ mc.bY.w0 (y + 1) := by rw [bdim_w0, bdim_w0]; omega
  have m2 : mc.bY.w0 (y + 1) ≤ mc.bY.w1 y := by rw [bdim_w0, bdim_w1]; omega
  have m3 : mc.bY.w1 y ≤ mc.bY.w1 (y + 1) := by rw [bdim_w1, bdim_w1]; omega
  have m4 : mc.bY.w1 (y + 1) ≤ mc.bY.size := by rw [bdim_w1]; omega
  have mx1 : mc.bx.w1 x ≤ mc.bx.size := by rw [bdim_w1]; omega
  have herase := update_block_erase mc h (mc.bx.w0 x) (mc.bx.w1 x)
    (mc.bY.w0 y) (mc.bY.w0 (y + 1)) mx1
    (by
      intro c hc
      rw [mem_rectCells] at hc
      rw [winSlots, Finset.mem_image]
      exact ⟨c, mem_winCells.mpr ⟨hc.1, hc.2.1, by omega⟩, rfl⟩)
  have hset1 : winSlots mc x y \
      (rectCells (mc.bx.w0 x) (mc.bx.w1 x) (mc.bY.w0 y)
        (mc.bY.w0 (y + 1))).image (packF mc.bx.size) =
      (rectCells (mc.bx.w0 x) (mc.bx.w1 x) (mc.bY.w0 (y + 1))
        (mc.bY.w1 y)).image (packF mc.bx.size) := by
    rw [winSlots, packF_image_sdiff (fun c hc => (winCells_in_tile c hc).1)
      (fun c hc => by rw [mem_rectCells] at hc; omega)]
    congr 1
    unfold winCells
    exact rectCells_sdiff_y_low _ _ _ _ _ m1 m2
  rw [hset1] at herase
  have hins := update_block_insert (mc.update_block (-1) (mc.bx.w0 x)
      (mc.bx.w1 x) (mc.bY.w0 y) (mc.bY.w0 (y + 1))) herase
    (mc.bx.w0 x) (mc.bx.w1 x)
    (mc.bY.w1 y) (mc.bY.w1 (y + 1)) mx1
    (by
      intro c hc
      rw [mem_rectCells] at hc
      exact feeds_of_cell mc (by omega) (by omega))
    (by
      intro c hc
      rw [mem_rectCells] at hc
      rw [Finset.mem_image]
      rintro ⟨d, hd, he⟩
      rw [mem_rectCells] at hd
      have hdc : d = c := packF_inj mc.bx.size (by omega) (by omega) he
      rw [hdc] at hd
      omega)
  have hset2 : (rectCells (mc.bx.w0 x) (mc.bx.w1 x) (mc.bY.w0 (y + 1))
        (mc.bY.w1 y)).image (packF mc.bx.size) ∪
      (rectCells (mc.bx.w0 x) (mc.bx.w1 x) (mc.bY.w1 y)
        (mc.bY.w1 (y + 1))).image (packF mc.bx.size) =
      winSlots mc x (y + 1) := by
    rw [← Finset.image_union, rectCells_union_y _ _ _ _ _ m2 m3]
    rfl
  rw [update_block_bx] at hins
  rw [hset2] at hins
  exact hins

set_option maxHeartbeats 1000000 in
theorem step_up {bb : ℕ} {mc : MedCalc2D} {x y : ℕ}
    (h : WRInv bb (blockFeeds mc) (winSlots mc x y) mc.wr)
    (hb1x : mc.bx.b1 ≤ mc.bx.size) (hb1y : mc.bY.b1 ≤ mc.bY.size)
    (hx1 : x < mc.bx.b1) (hy0 : 1 ≤ y) (hy1 : y < mc.bY.b1) :
    WRInv bb (blockFeeds mc) (winSlots mc x (y - 1))
      ((mc.update_block (-1) (mc.bx.w0 x) (mc.bx.w1 x) (mc.bY.w1 (y - 1))
          (mc.bY.w1 y)).update_block 1
        (mc.bx.w0 x) (mc.bx.w1 x) (mc.bY.w0 (y - 1)) (mc.bY.w0 (y - 1 + 1))).wr := by
  have m1 : mc.bY.w0 (y - 1) ≤ mc.bY.w0 y := by rw [bdim_w0, bdim_w0]; omega
  have m2 : mc.bY.w0 y ≤ mc.bY.w1 (y - 1) := by rw [bdim_w0, bdim_w1]; omega
  have m3 : mc.bY.w1 (y - 1) ≤ mc.bY.w1 y := by rw [bdim_w1, bdim_w1]; omega
  have m4 : mc.bY.w1 y ≤ mc.bY.size := by rw [bdim_w1]; omega
  have mx1 : mc.bx.w1 x ≤ mc.bx.size := by rw [bdim_w1]; omega
  have hy11 : y - 1 + 1 = y := by omega
  rw [hy11]
  have herase := update_block_erase mc h (mc.bx.w0 x) (mc.bx.w1 x)
    (mc.bY.w1 (y - 1)) (mc.bY.w1 y) mx1
    (by
      intro c hc
      rw [mem_rectCells] at hc
      rw [winSlots, Finset.mem_image]
      exact ⟨c, mem_winCells.mpr ⟨hc.1, by omega, hc.2.2⟩, rfl⟩)
  have hset1 : winSlots mc x y \
      (rectCells (mc.bx.w0 x) (mc.bx.w1 x) (mc.bY.w1 (y - 1))
        (mc.bY.w1 y)).image (packF mc.bx.size) =
      (rectCells (mc.bx.w0 x) (mc.bx.w1 x) (mc.bY.w0 y)
        (mc.bY.w1 (y - 1))).image (packF mc.bx.size) := by
    rw [winSlots, packF_image_sdiff (fun c hc => (winCells_in_tile c hc).1)
      (fun c hc => by rw [mem_rectCells] at hc; omega)]
    congr 1
    unfold winCells
    exact rectCells_sdiff_y_high _ _ _ _ _ m2 m3
  rw [hset1] at herase
  have hins := update_block_insert (mc.update_block (-1) (mc.bx.w0 x)
      (mc.bx.w1 x) (mc.bY.w1 (y - 1)) (mc.bY.w1 y)) herase
    (mc.bx.w0 x) (mc.bx.w1 x)
    (mc.bY.w0 (y - 1)) (mc.bY.w0 y) mx1
    (by
      intro c hc
      rw [mem_rectCells] at hc
      refine feeds_of_cell mc (by omega) ?_
      have : mc.bY.w0 y ≤ mc.bY.size := by rw [bdim_w0]; omega
      omega)
    (by
      intro c hc
      rw [mem_rectCells] at hc
      rw [Finset.mem_image]
      rintro ⟨d, hd, he⟩
      rw [mem_rectCells] at hd
      have hdc : d = c := packF_inj mc.bx.size (by omega) (by omega) he
      rw [hdc] at hd
      omega)
  have hset2 : (rectCells (mc.bx.w0 x) (mc.bx.w1 x) (mc.bY.w0 y)
        (mc.bY.w1 (y - 1))).image (packF mc.bx.size) ∪
      (rectCells (mc.bx.w0 x) (mc.bx.w1 x) (mc.bY.w0 (y - 1))
        (mc.bY.w0 y)).image (packF mc.bx.size) =
      winSlots mc x (y - 1) := by
    rw [← Finset.image_union, Finset.union_comm, rectCells_union_y _ _ _ _ _ m1 m2]
    rfl
  rw [update_block_bx] at hins
  rw [hset2] at hins
  exact hins


theorem blockFeeds_update_block (mc : MedCalc2D) (op : ℤ) (x0 x1 y0 y1 : ℕ) :
    blockFeeds (mc.update_block op x0 x1 y0 y1) = blockFeeds mc := rfl

theorem blockFeeds_set_med (mc : MedCalc2D) (x y : ℕ) :
    blockFeeds ((mc.set_med x y).1) = blockFeeds mc := rfl

theorem winSlots_update_block (mc : MedCalc2D) (op : ℤ) (x0 x1 y0 y1 x y : ℕ) :
    winSlots (mc.update_block op x0 x1 y0 y1) x y = winSlots mc x y := rfl

theorem winSlots_set_med (mc : MedCalc2D) (a b x y : ℕ) :
    winSlots ((mc.set_med a b).1) x y = winSlots mc x y := rfl

theorem valAt_update_block (mc : MedCalc2D) (op : ℤ) (x0 x1 y0 y1 x y : ℕ) :
    valAt (mc.update_block op x0 x1 y0 y1) x y = valAt mc x y := rfl

theorem valAt_set_med (mc : MedCalc2D) (a b x y : ℕ) :
    valAt ((mc.set_med a b).1) x y = valAt mc x y := rfl

theorem coord_update_block (mc : MedCalc2D) (op : ℤ) (x0 x1 y0 y1 x y : ℕ) :
    (mc.update_block op x0 x1 y0 y1).coord x y = mc.coord x y := rfl

theorem coord_set_med (mc : MedCalc2D) (a b x y : ℕ) :
    ((mc.set_med a b).1).coord x y = mc.coord x y := rfl

theorem remCells_update_block (mc : MedCalc2D) (op : ℤ) (x0 x1 y0 y1 x y : ℕ)
    (down : Bool) :
    remCells (mc.update_block op x0 x1 y0 y1) x y down = remCells mc x y down := rfl

theorem remCells_set_med (mc : MedCalc2D) (a b x y : ℕ) (down : Bool) :
    remCells ((mc.set_med a b).1) x y down = remCells mc x y down := rfl

theorem mem_remCells_down {mc : MedCalc2D} {x y a b : ℕ} :
    (a, b) ∈ remCells mc x y true ↔ (a = x ∧ y + 1 ≤ b ∧ b < mc.bY.b1) ∨
      ((x + 1 ≤ a ∧ a < mc.bx.b1) ∧ mc.bY.b0 ≤ b ∧ b < mc.bY.b1) := by
  show (a, b) ∈ ({x} ×ˢ Finset.Ico (y + 1) mc.bY.b1) ∪
      (Finset.Ico (x + 1) mc.bx.b1 ×ˢ Finset.Ico mc.bY.b0 mc.bY.b1) ↔ _
  rw [Finset.mem_union, Finset.mem_product, Finset.mem_product, Finset.mem_singleton,
    Finset.mem_Ico, Finset.mem_Ico, Finset.mem_Ico]

theorem mem_remCells_up {mc : MedCalc2D} {x y a b : ℕ} :
    (a, b) ∈ remCells mc x y false ↔ (a = x ∧ mc.bY.b0 ≤ b ∧ b < y) ∨
      ((x + 1 ≤ a ∧ a < mc.bx.b1) ∧ mc.bY.b0 ≤ b ∧ b < mc.bY.b1) := by
  show (a, b) ∈ ({x} ×ˢ Finset.Ico mc.bY.b0 y) ∪
      (Finset.Ico (x + 1) mc.bx.b1 ×ˢ Finset.Ico mc.bY.b0 mc.bY.b1) ↔ _
  rw [Finset.mem_union, Finset.mem_product, Finset.mem_product, Finset.mem_singleton,
    Finset.mem_Ico, Finset.mem_Ico, Finset.mem_Ico]

theorem self_not_mem_remCells (mc : MedCalc2D) (x y : ℕ) (down : Bool) :
    (x, y) ∉ remCells mc x y down := by
  cases down
  · rw [mem_remCells_up]
    omega
  · rw [mem_remCells_down]
    omega

theorem remCells_stop_down {mc : MedCalc2D} {x y : ℕ} (hy : y + 1 = mc.bY.b1)
    (hx : x + 1 = mc.bx.b1) : remCells mc x y true = ∅ := by
  ext ⟨a, b⟩
  rw [mem_remCells_down]
  simp only [Finset.not_mem_empty, iff_false]
  omega

theorem remCells_stop_up {mc : MedCalc2D} {x y : ℕ} (hy : y = mc.bY.b0)
    (hx : x + 1 = mc.bx.b1) : remCells mc x y false = ∅ := by
  ext ⟨a, b⟩
  rw [mem_remCells_up]
  simp only [Finset.not_mem_empty, iff_false]
  omega

theorem remCells_step_down {mc : MedCalc2D} {x y : ℕ} (hy : y + 1 < mc.bY.b1) :
    remCells mc x y true = insert (x, y + 1) (remCells mc x (y + 1) true) := by
  ext ⟨a, b⟩
  rw [Finset.mem_insert, mem_remCells_down, mem_remCells_down, Prod.mk.injEq]
  omega

theorem remCells_step_up {mc : MedCalc2D} {x y : ℕ} (hy : mc.bY.b0 < y) :
    remCells mc x y false = insert (x, y - 1) (remCells mc x (y - 1) false) := by
  ext ⟨a, b⟩
  rw [Finset.mem_insert, mem_remCells_up, mem_remCells_up, Prod.mk.injEq]
  omega

theorem remCells_step_right_down {mc : MedCalc2D} {x y : ℕ} (hy : y + 1 = mc.bY.b1)
    (hx : x + 1 < mc.bx.b1) (hy0 : mc.bY.b0 ≤ y) :
    remCells mc x y true = insert (x + 1, y) (remCells mc (x + 1) y false) := by
  ext ⟨a, b⟩
  rw [Finset.mem_insert, mem_remCells_down, mem_remCells_up, Prod.mk.injEq]
  omega

theorem remCells_step_right_up {mc : MedCalc2D} {x y : ℕ} (hy : y = mc.bY.b0)
    (hx : x + 1 < mc.bx.b1) (hy1 : y < mc.bY.b1) :
    remCells mc x y false = insert (x + 1, y) (remCells mc (x + 1) y true) := by
  ext ⟨a, b⟩
  rw [Finset.mem_insert, mem_remCells_up, mem_remCells_down, Prod.mk.injEq]
  omega

theorem snake_stop_down {mc : MedCalc2D} {fuel x y : ℕ} {acc : List (ℕ × Val)}
    (hy : y + 1 = mc.bY.b1) (hx : x + 1 = mc.bx.b1) :
    mc.snake (fuel + 1) x y true acc = (mc, acc) := by
  simp only [MedCalc2D.snake, hy, hx, if_true, and_true]

theorem snake_stop_up {mc : MedCalc2D} {fuel x y : ℕ} {acc : List (ℕ × Val)}
    (hy : y = mc.bY.b0) (hx : x + 1 = mc.bx.b1) :
    mc.snake (fuel + 1) x y false acc = (mc, acc) := by
  simp only [MedCalc2D.snake, hy, hx, if_true, and_true, if_false, Bool.false_eq_true,
    eq_self_iff_true]

theorem snake_step_down {mc : MedCalc2D} {fuel x y : ℕ} {acc : List (ℕ × Val)}
    (hy : ¬ y + 1 = mc.bY.b1) :
    mc.snake (fuel + 1) x y true acc =
      (((mc.update_block (-1) (mc.bx.w0 x) (mc.bx.w1 x) (mc.bY.w0 y)
          (mc.bY.w0 (y + 1))).update_block 1 (mc.bx.w0 x) (mc.bx.w1 x) (mc.bY.w1 y)
          (mc.bY.w1 (y + 1))).set_med x (y + 1)).1.snake fuel x (y + 1) true
        (acc ++ [(((mc.update_block (-1) (mc.bx.w0 x) (mc.bx.w1 x) (mc.bY.w0 y)
          (mc.bY.w0 (y + 1))).update_block 1 (mc.bx.w0 x) (mc.bx.w1 x) (mc.bY.w1 y)
          (mc.bY.w1 (y + 1))).set_med x (y + 1)).2]) := by
  simp only [MedCalc2D.snake, hy, if_true, if_false, and_true, Bool.false_eq_true,
    eq_self_iff_true, false_and, update_block_bx, update_block_bY, Nat.add_sub_cancel]

theorem snake_step_up {mc : MedCalc2D} {fuel x y : ℕ} {acc : List (ℕ × Val)}
    (hy : ¬ y = mc.bY.b0) :
    mc.snake (fuel + 1) x y false acc =
      (((mc.update_block (-1) (mc.bx.w0 x) (mc.bx.w1 x) (mc.bY.w1 (y - 1))
          (mc.bY.w1 y)).update_block 1 (mc.bx.w0 x) (mc.bx.w1 x) (mc.bY.w0 (y - 1))
          (mc.bY.w0 (y - 1 + 1))).set_med x (y - 1)).1.snake fuel x (y - 1) false
        (acc ++ [(((mc.update_block (-1) (mc.bx.w0 x) (mc.bx.w1 x) (mc.bY.w1 (y - 1))
          (mc.bY.w1 y)).update_block 1 (mc.bx.w0 x) (mc.bx.w1 x) (mc.bY.w0 (y - 1))
          (mc.bY.w0 (y - 1 + 1))).set_med x (y - 1)).2]) := by
  simp only [MedCalc2D.snake, hy, if_true, if_false, and_true, Bool.false_eq_true,
    eq_self_iff_true, false_and, update_block_bx, update_block_bY]

theorem snake_step_right_down {mc : MedCalc2D} {fuel x y : ℕ} {acc : List (ℕ × Val)}
    (hy : y + 1 = mc.bY.b1) (hx : ¬ x + 1 = mc.bx.b1) :
    mc.snake (fuel + 1) x y true acc =
      (((mc.update_block (-1) (mc.bx.w0 x) (mc.bx.w0 (x + 1)) (mc.bY.w0 y)
          (mc.bY.w1 y)).update_block 1 (mc.bx.w1 x) (mc.bx.w1 (x + 1))
          (mc.bY.w0 y) (mc.bY.w1 y)).set_med (x + 1) y).1.snake fuel (x + 1) y false
        (acc ++ [(((mc.update_block (-1) (mc.bx.w0 x) (mc.bx.w0 (x + 1)) (mc.bY.w0 y)
          (mc.bY.w1 y)).update_block 1 (mc.bx.w1 x) (mc.bx.w1 (x + 1))
          (mc.bY.w0 y) (mc.bY.w1 y)).set_med (x + 1) y).2]) := by
  simp only [MedCalc2D.snake, hy, hx, if_true, if_false, and_true, Bool.false_eq_true,
    eq_self_iff_true, false_and, and_false, update_block_bx, update_block_bY,
    Nat.add_sub_cancel]

theorem snake_step_right_up {mc : MedCalc2D} {fuel x y : ℕ} {acc : List (ℕ × Val)}
    (hy : y = mc.bY.b0) (hx : ¬ x + 1 = mc.bx.b1) :
    mc.snake (fuel + 1) x y false acc =
      (((mc.update_block (-1) (mc.bx.w0 x) (mc.bx.w0 (x + 1)) (mc.bY.w0 y)
          (mc.bY.w1 y)).update_block 1 (mc.bx.w1 x) (mc.bx.w1 (x + 1))
          (mc.bY.w0 y) (mc.bY.w1 y)).set_med (x + 1) y).1.snake fuel (x + 1) y true
        (acc ++ [(((mc.update_block (-1) (mc.bx.w0 x) (mc.bx.w0 (x + 1)) (mc.bY.w0 y)
          (mc.bY.w1 y)).update_block 1 (mc.bx.w1 x) (mc.bx.w1 (x + 1))
          (mc.bY.w0 y) (mc.bY.w1 y)).set_med (x + 1) y).2]) := by
  simp only [MedCalc2D.snake, hy, hx, if_true, if_false, and_true, Bool.false_eq_true,
    eq_self_iff_true, false_and, and_false, update_block_bx, update_block_bY,
    Nat.add_sub_cancel]

theorem step_first {bb : ℕ} {mc : MedCalc2D}
    (h : WRInv bb (blockFeeds mc) ∅ mc.wr)
    (hb1x : mc.bx.b1 ≤ mc.bx.size) (hb1y : mc.bY.b1 ≤ mc.bY.size)
    (hx1 : mc.bx.b0 < mc.bx.b1) (hy1 : mc.bY.b0 < mc.bY.b1) :
    WRInv bb (blockFeeds mc) (winSlots mc mc.bx.b0 mc.bY.b0)
      (mc.update_block 1 (mc.bx.w0 mc.bx.b0) (mc.bx.w1 mc.bx.b0)
        (mc.bY.w0 mc.bY.b0) (mc.bY.w1 mc.bY.b0)).wr := by
  have mx1 : mc.bx.w1 mc.bx.b0 ≤ mc.bx.size := by rw [bdim_w1]; omega
  have my1 : mc.bY.w1 mc.bY.b0 ≤ mc.bY.size := by rw [bdim_w1]; omega
  have hins := update_block_insert mc h (mc.bx.w0 mc.bx.b0) (mc.bx.w1 mc.bx.b0)
    (mc.bY.w0 mc.bY.b0) (mc.bY.w1 mc.bY.b0) mx1
    (fun c hc => by
      rw [mem_rectCells] at hc
      exact feeds_of_cell mc (by omega) (by omega))
    (fun c _ => Finset.not_mem_empty _)
  rw [Finset.empty_union] at hins
  exact hins

theorem set_med_spec {bb : ℕ} {mc : MedCalc2D} {x y : ℕ}
    (h : WRInv bb (blockFeeds mc) (winSlots mc x y) mc.wr) :
    (mc.set_med x y).2 = (mc.coord x y, valAt mc x y) ∧
      WRInv bb (blockFeeds mc) (winSlots mc x y) (mc.set_med x y).1.wr := by
  constructor
  · rw [set_med_write, get_med_spec h]
    rfl
  · rw [set_med_wr]
    exact wrInv_query h

theorem remCells_lt {mc : MedCalc2D} {x y : ℕ} {down : Bool} {c : ℕ × ℕ}
    (hx1 : x < mc.bx.b1) (hy1 : y < mc.bY.b1) (hc : c ∈ remCells mc x y down) :
    c.1 < mc.bx.b1 ∧ c.2 < mc.bY.b1 := by
  obtain ⟨a, b⟩ := c
  cases down
  · rw [mem_remCells_up] at hc
    constructor
    · show a < mc.bx.b1
      omega
    · show b < mc.bY.b1
      omega
  · rw [mem_remCells_down] at hc
    constructor
    · show a < mc.bx.b1
      omega
    · show b < mc.bY.b1
      omega

set_option maxHeartbeats 4000000 in
theorem snake_spec {bb : ℕ} (n : ℕ) : ∀ (mc : MedCalc2D) (x y : ℕ) (down : Bool)
    (acc : List (ℕ × Val)),
    WRInv bb (blockFeeds mc) (winSlots mc x y) mc.wr →
    mc.bx.b1 ≤ mc.bx.size → mc.bY.b1 ≤ mc.bY.size →
    mc.bx.b0 ≤ x → x < mc.bx.b1 → mc.bY.b0 ≤ y → y < mc.bY.b1 →
    (∀ a1 b1 a2 b2 : ℕ, a1 < mc.bx.b1 → b1 < mc.bY.b1 → a2 < mc.bx.b1 →
      b2 < mc.bY.b1 → mc.coord a1 b1 = mc.coord a2 b2 → a1 = a2 ∧ b1 = b2) →
    (remCells mc x y down).card + 1 ≤ n →
    ∃ mcF ws, mc.snake n x y down acc = (mcF, acc ++ ws) ∧
      mcF.bx = mc.bx ∧ mcF.bY = mc.bY ∧ mcF.input = mc.input ∧
      (∃ Cf, WRInv bb (blockFeeds mc) Cf mcF.wr) ∧
      ((ws.map Prod.fst).Nodup ∧
      ∀ iv : ℕ × Val, iv ∈ ws ↔ ∃ c : ℕ × ℕ, c ∈ remCells mc x y down ∧
        iv = (mc.coord c.1 c.2, valAt mc c.1 c.2)) := by
  induction n with
  | zero =>
    intro mc x y down acc h hb1x hb1y hx0 hx1 hy0 hy1 hinj hfuel
    exact absurd hfuel (by omega)
  | succ n ih =>
    intro mc x y down acc h hb1x hb1y hx0 hx1 hy0 hy1 hinj hfuel
    cases down
    · -- moving up
      rcases Classical.em (y = mc.bY.b0) with hy | hy
      · rcases Classical.em (x + 1 = mc.bx.b1) with hx | hx
        · -- stop
          refine ⟨mc, [], ?_, rfl, rfl, rfl, ⟨winSlots mc x y, h⟩, List.nodup_nil, ?_⟩
          · rw [snake_stop_up hy hx, List.append_nil]
          · intro iv
            rw [remCells_stop_up hy hx]
            simp
        · -- turn right, new direction down
          have hxlt : x + 1 < mc.bx.b1 := by omega
          rw [snake_step_right_up hy hx]
          set mcU := (mc.update_block (-1) (mc.bx.w0 x) (mc.bx.w0 (x + 1)) (mc.bY.w0 y)
              (mc.bY.w1 y)).update_block 1 (mc.bx.w1 x) (mc.bx.w1 (x + 1))
              (mc.bY.w0 y) (mc.bY.w1 y) with hmcU
          set mc3 := (mcU.set_med (x + 1) y).1 with hmc3
          have h2 := step_right h hb1x hb1y hxlt hy1
          rw [← hmcU] at h2
          have h2' : WRInv bb (blockFeeds mcU) (winSlots mcU (x + 1) y) mcU.wr := h2
          obtain ⟨hwrite, h3⟩ := set_med_spec h2'
          rw [← hmc3] at h3
          have h4 : WRInv bb (blockFeeds mc3) (winSlots mc3 (x + 1) y) mc3.wr := h3
          have hwrite' : (mcU.set_med (x + 1) y).2 =
              (mc.coord (x + 1) y, valAt mc (x + 1) y) := hwrite
          have hrem : remCells mc x y false =
              insert (x + 1, y) (remCells mc (x + 1) y true) :=
            remCells_step_right_up hy hxlt hy1
          have hb1x' : mc3.bx.b1 ≤ mc3.bx.size := hb1x
          have hb1y' : mc3.bY.b1 ≤ mc3.bY.size := hb1y
          have hx0' : mc3.bx.b0 ≤ x + 1 := by
            show mc.bx.b0 ≤ x + 1
            omega
          have hx1' : x + 1 < mc3.bx.b1 := hxlt
          have hy0' : mc3.bY.b0 ≤ y := hy0
          have hy1' : y < mc3.bY.b1 := hy1
          have hinj' : ∀ a1 b1 a2 b2 : ℕ, a1 < mc3.bx.b1 → b1 < mc3.bY.b1 →
              a2 < mc3.bx.b1 → b2 < mc3.bY.b1 → mc3.coord a1 b1 = mc3.coord a2 b2 →
              a1 = a2 ∧ b1 = b2 := hinj
          have hcard' : (remCells mc3 (x + 1) y true).card + 1 ≤ n := by
            show (remCells mc (x + 1) y true).card + 1 ≤ n
            have hc1 : (remCells mc x y false).card =
                (remCells mc (x + 1) y true).card + 1 := by
              rw [hrem, Finset.card_insert_of_not_mem (self_not_mem_remCells mc (x + 1) y true)]
            omega
          obtain ⟨mcF, ws', heq, hbxF, hbYF, hinpF, hCfF, hndF, hiffF⟩ :=
            ih mc3 (x + 1) y true (acc ++ [(mcU.set_med (x + 1) y).2]) h4 hb1x' hb1y'
              hx0' hx1' hy0' hy1' hinj' hcard'
          have hiff' : ∀ iv : ℕ × Val, iv ∈ ws' ↔ ∃ c : ℕ × ℕ,
              c ∈ remCells mc (x + 1) y true ∧
              iv = (mc.coord c.1 c.2, valAt mc c.1 c.2) := hiffF
          refine ⟨mcF, (mcU.set_med (x + 1) y).2 :: ws', ?_, ?_, ?_, ?_, ?_, ?_, ?_⟩
          · rw [heq, List.append_assoc, List.singleton_append]
          · exact hbxF.trans rfl
          · exact hbYF.trans rfl
          · exact hinpF.trans rfl
          · obtain ⟨Cf, hCf⟩ := hCfF
            exact ⟨Cf, hCf⟩
          · rw [List.map_cons, List.nodup_cons]
            refine ⟨?_, hndF⟩
            intro hmem
            rw [List.mem_map] at hmem
            obtain ⟨iv, hiv, hfst⟩ := hmem
            obtain ⟨c, hcrem, rfl⟩ := (hiff' iv).mp hiv
            have hco : mc.coord c.1 c.2 = mc.coord (x + 1) y := by
              rw [hwrite'] at hfst
              exact hfst
            obtain ⟨hc1, hc2⟩ := remCells_lt hxlt hy1 hcrem
            have hce := hinj c.1 c.2 (x + 1) y hc1 hc2 hxlt hy1 hco
            have hceq : c = (x + 1, y) := by
              rw [Prod.ext_iff]
              exact hce
            rw [hceq] at hcrem
            exact self_not_mem_remCells mc (x + 1) y true hcrem
          · intro iv
            rw [List.mem_cons, hrem]
            constructor
            · rintro (rfl | hmem)
              · exact ⟨(x + 1, y), Finset.mem_insert_self _ _, hwrite'⟩
              · obtain ⟨c, hc, rfl⟩ := (hiff' iv).mp hmem
                exact ⟨c, Finset.mem_insert_of_mem hc, rfl⟩
            · rintro ⟨c, hc, rfl⟩
              rcases Finset.mem_insert.mp hc with rfl | hcrem
              · left
                exact hwrite'.symm
              · right
                exact (hiff' _).mpr ⟨c, hcrem, rfl⟩
      · -- keep moving up
        have hygt : mc.bY.b0 < y := by omega
        rw [snake_step_up hy]
        set mcU := (mc.update_block (-1) (mc.bx.w0 x) (mc.bx.w1 x) (mc.bY.w1 (y - 1))
            (mc.bY.w1 y)).update_block 1 (mc.bx.w0 x) (mc.bx.w1 x) (mc.bY.w0 (y - 1))
            (mc.bY.w0 (y - 1 + 1)) with hmcU
        set mc3 := (mcU.set_med x (y - 1)).1 with hmc3
        have h2 := step_up h hb1x hb1y hx1 (by omega) hy1
        rw [← hmcU] at h2
        have h2' : WRInv bb (blockFeeds mcU) (winSlots mcU x (y - 1)) mcU.wr := h2
        obtain ⟨hwrite, h3⟩ := set_med_spec h2'
        rw [← hmc3] at h3
        have h4 : WRInv bb (blockFeeds mc3) (winSlots mc3 x (y - 1)) mc3.wr := h3
        have hwrite' : (mcU.set_med x (y - 1)).2 =
            (mc.coord x (y - 1), valAt mc x (y - 1)) := hwrite
        have hrem : remCells mc x y false =
            insert (x, y - 1) (remCells mc x (y - 1) false) :=
          remCells_step_up hygt
        have hylt1 : y - 1 < mc.bY.b1 := by omega
        have hb1x' : mc3.bx.b1 ≤ mc3.bx.size := hb1x
        have hb1y' : mc3.bY.b1 ≤ mc3.bY.size := hb1y
        have hx0' : mc3.bx.b0 ≤ x := hx0
        have hx1' : x < mc3.bx.b1 := hx1
        have hy0' : mc3.bY.b0 ≤ y - 1 := by
          show mc.bY.b0 ≤ y - 1
          omega
        have hy1' : y - 1 < mc3.bY.b1 := hylt1
        have hinj' : ∀ a1 b1 a2 b2 : ℕ, a1 < mc3.bx.b1 → b1 < mc3.bY.b1 →
            a2 < mc3.bx.b1 → b2 < mc3.bY.b1 → mc3.coord a1 b1 = mc3.coord a2 b2 →
            a1 = a2 ∧ b1 = b2 := hinj
        have hcard' : (remCells mc3 x (y - 1) false).card + 1 ≤ n := by
          show (remCells mc x (y - 1) false).card + 1 ≤ n
          have hc1 : (remCells mc x y false).card =
              (remCells mc x (y - 1) false).card + 1 := by
            rw [hrem, Finset.card_insert_of_not_mem (self_not_mem_remCells mc x (y - 1) false)]
          omega
        obtain ⟨mcF, ws', heq, hbxF, hbYF, hinpF, hCfF, hndF, hiffF⟩ :=
          ih mc3 x (y - 1) false (acc ++ [(mcU.set_med x (y - 1)).2]) h4 hb1x' hb1y'
            hx0' hx1' hy0' hy1' hinj' hcard'
        have hiff' : ∀ iv : ℕ × Val, iv ∈ ws' ↔ ∃ c : ℕ × ℕ,
            c ∈ remCells mc x (y - 1) false ∧
            iv = (mc.coord c.1 c.2, valAt mc c.1 c.2) := hiffF
        refine ⟨mcF, (mcU.set_med x (y - 1)).2 :: ws', ?_, ?_, ?_, ?_, ?_, ?_, ?_⟩
        · rw [heq, List.append_assoc, List.singleton_append]
        · exact hbxF.trans rfl
        · exact hbYF.trans rfl
        · exact hinpF.trans rfl
        · obtain ⟨Cf, hCf⟩ := hCfF
          exact ⟨Cf, hCf⟩
        · rw [List.map_cons, List.nodup_cons]
          refine ⟨?_, hndF⟩
          intro hmem
          rw [List.mem_map] at hmem
          obtain ⟨iv, hiv, hfst⟩ := hmem
          obtain ⟨c, hcrem, rfl⟩ := (hiff' iv).mp hiv
          have hco : mc.coord c.1 c.2 = mc.coord x (y - 1) := by
            rw [hwrite'] at hfst
            exact hfst
          obtain ⟨hc1, hc2⟩ := remCells_lt hx1 hylt1 hcrem
          have hce := hinj c.1 c.2 x (y - 1) hc1 hc2 hx1 hylt1 hco
          have hceq : c = (x, y - 1) := by
            rw [Prod.ext_iff]
            exact hce
          rw [hceq] at hcrem
          exact self_not_mem_remCells mc x (y - 1) false hcrem
        · intro iv
          rw [List.mem_cons, hrem]
          constructor
          · rintro (rfl | hmem)
            · exact ⟨(x, y - 1), Finset.mem_insert_self _ _, hwrite'⟩
            · obtain ⟨c, hc, rfl⟩ := (hiff' iv).mp hmem
              exact ⟨c, Finset.mem_insert_of_mem hc, rfl⟩
          · rintro ⟨c, hc, rfl⟩
            rcases Finset.mem_insert.mp hc with rfl | hcrem
            · left
              exact hwrite'.symm
            · right
              exact (hiff' _).mpr ⟨c, hcrem, rfl⟩
    · -- moving down
      rcases Classical.em (y + 1 = mc.bY.b1) with hy | hy
      · rcases Classical.em (x + 1 = mc.bx.b1) with hx | hx
        · -- stop
          refine ⟨mc, [], ?_, rfl, rfl, rfl, ⟨winSlots mc x y, h⟩, List.nodup_nil, ?_⟩
          · rw [snake_stop_down hy hx, List.append_nil]
          · intro iv
            rw [remCells_stop_down hy hx]
            simp
        · -- turn right, new direction up
          have hxlt : x + 1 < mc.bx.b1 := by omega
          rw [snake_step_right_down hy hx]
          set mcU := (mc.update_block (-1) (mc.bx.w0 x) (mc.bx.w0 (x + 1)) (mc.bY.w0 y)
              (mc.bY.w1 y)).update_block 1 (mc.bx.w1 x) (mc.bx.w1 (x + 1))
              (mc.bY.w0 y) (mc.bY.w1 y) with hmcU
          set mc3 := (mcU.set_med (x + 1) y).1 with hmc3
          have h2 := step_right h hb1x hb1y hxlt hy1
          rw [← hmcU] at h2
          have h2' : WRInv bb (blockFeeds mcU) (winSlots mcU (x + 1) y) mcU.wr := h2
          obtain ⟨hwrite, h3⟩ := set_med_spec h2'
          rw [← hmc3] at h3
          have h4 : WRInv bb (blockFeeds mc3) (winSlots mc3 (x + 1) y) mc3.wr := h3
          have hwrite' : (mcU.set_med (x + 1) y).2 =
              (mc.coord (x + 1) y, valAt mc (x + 1) y) := hwrite
          have hrem : remCells mc x y true =
              insert (x + 1, y) (remCells mc (x + 1) y false) :=
            remCells_step_right_down hy hxlt hy0
          have hb1x' : mc3.bx.b1 ≤ mc3.bx.size := hb1x
          have hb1y' : mc3.bY.b1 ≤ mc3.bY.size := hb1y
          have hx0' : mc3.bx.b0 ≤ x + 1 := by
            show mc.bx.b0 ≤ x + 1
            omega
          have hx1' : x + 1 < mc3.bx.b1 := hxlt
          have hy0' : mc3.bY.b0 ≤ y := hy0
          have hy1' : y < mc3.bY.b1 := hy1
          have hinj' : ∀ a1 b1 a2 b2 : ℕ, a1 < mc3.bx.b1 → b1 < mc3.bY.b1 →
              a2 < mc3.bx.b1 → b2 < mc3.bY.b1 → mc3.coord a1 b1 = mc3.coord a2 b2 →
              a1 = a2 ∧ b1 = b2 := hinj
          have hcard' : (remCells mc3 (x + 1) y false).card + 1 ≤ n := by
            show (remCells mc (x + 1) y false).card + 1 ≤ n
            have hc1 : (remCells mc x y true).card =
                (remCells mc (x + 1) y false).card + 1 := by
              rw [hrem, Finset.card_insert_of_not_mem (self_not_mem_remCells mc (x + 1) y false)]
            omega
          obtain ⟨mcF, ws', heq, hbxF, hbYF, hinpF, hCfF, hndF, hiffF⟩ :=
            ih mc3 (x + 1) y false (acc ++ [(mcU.set_med (x + 1) y).2]) h4 hb1x' hb1y'
              hx0' hx1' hy0' hy1' hinj' hcard'
          have hiff' : ∀ iv : ℕ × Val, iv ∈ ws' ↔ ∃ c : ℕ × ℕ,
              c ∈ remCells mc (x + 1) y false ∧
              iv = (mc.coord c.1 c.2, valAt mc c.1 c.2) := hiffF
          refine ⟨mcF, (mcU.set_med (x + 1) y).2 :: ws', ?_, ?_, ?_, ?_, ?_, ?_, ?_⟩
          · rw [heq, List.append_assoc, List.singleton_append]
          · exact hbxF.trans rfl
          · exact hbYF.trans rfl
          · exact hinpF.trans rfl
          · obtain ⟨Cf, hCf⟩ := hCfF
            exact ⟨Cf, hCf⟩
          · rw [List.map_cons, List.nodup_cons]
            refine ⟨?_, hndF⟩
            intro hmem
            rw [List.mem_map] at hmem
            obtain ⟨iv, hiv, hfst⟩ := hmem
            obtain ⟨c, hcrem, rfl⟩ := (hiff' iv).mp hiv
            have hco : mc.coord c.1 c.2 = mc.coord (x + 1) y := by
              rw [hwrite'] at hfst
              exact hfst
            obtain ⟨hc1, hc2⟩ := remCells_lt hxlt hy1 hcrem
            have hce := hinj c.1 c.2 (x + 1) y hc1 hc2 hxlt hy1 hco
            have hceq : c = (x + 1, y) := by
              rw [Prod.ext_iff]
              exact hce
            rw [hceq] at hcrem
            exact self_not_mem_remCells mc (x + 1) y false hcrem
          · intro iv
            rw [List.mem_cons, hrem]
            constructor
            · rintro (rfl | hmem)
              · exact ⟨(x + 1, y), Finset.mem_insert_self _ _, hwrite'⟩
              · obtain ⟨c, hc, rfl⟩ := (hiff' iv).mp hmem
                exact ⟨c, Finset.mem_insert_of_mem hc, rfl⟩
            · rintro ⟨c, hc, rfl⟩
              rcases Finset.mem_insert.mp hc with rfl | hcrem
              · left
                exact hwrite'.symm
              · right
                exact (hiff' _).mpr ⟨c, hcrem, rfl⟩
      · -- keep moving down
        have hylt : y + 1 < mc.bY.b1 := by omega
        rw [snake_step_down hy]
        set mcU := (mc.update_block (-1) (mc.bx.w0 x) (mc.bx.w1 x) (mc.bY.w0 y)
            (mc.bY.w0 (y + 1))).update_block 1 (mc.bx.w0 x) (mc.bx.w1 x) (mc.bY.w1 y)
            (mc.bY.w1 (y + 1)) with hmcU
        set mc3 := (mcU.set_med x (y + 1)).1 with hmc3
        have h2 := step_down h hb1x hb1y hx1 hylt
        rw [← hmcU] at h2
        have h2' : WRInv bb (blockFeeds mcU) (winSlots mcU x (y + 1)) mcU.wr := h2
        obtain ⟨hwrite, h3⟩ := set_med_spec h2'
        rw [← hmc3] at h3
        have h4 : WRInv bb (blockFeeds mc3) (winSlots mc3 x (y + 1)) mc3.wr := h3
        have hwrite' : (mcU.set_med x (y + 1)).2 =
            (mc.coord x (y + 1), valAt mc x (y + 1)) := hwrite
        have hrem : remCells mc x y true =
            insert (x, y + 1) (remCells mc x (y + 1) true) :=
          remCells_step_down hylt
        have hb1x' : mc3.bx.b1 ≤ mc3.bx.size := hb1x
        have hb1y' : mc3.bY.b1 ≤ mc3.bY.size := hb1y
        have hx0' : mc3.bx.b0 ≤ x := hx0
        have hx1' : x < mc3.bx.b1 := hx1
        have hy0' : mc3.bY.b0 ≤ y + 1 := by
          show mc.bY.b0 ≤ y + 1
          omega
        have hy1' : y + 1 < mc3.bY.b1 := hylt
        have hinj' : ∀ a1 b1 a2 b2 : ℕ, a1 < mc3.bx.b1 → b1 < mc3.bY.b1 →
            a2 < mc3.bx.b1 → b2 < mc3.bY.b1 → mc3.coord a1 b1 = mc3.coord a2 b2 →
            a1 = a2 ∧ b1 = b2 := hinj
        have hcard' : (remCells mc3 x (y + 1) true).card + 1 ≤ n := by
          show (remCells mc x (y + 1) true).card + 1 ≤ n
          have hc1 : (remCells mc x y true).card =
              (remCells mc x (y + 1) true).card + 1 := by
            rw [hrem, Finset.card_insert_of_not_mem (self_not_mem_remCells mc x (y + 1) true)]
          omega
        obtain ⟨mcF, ws', heq, hbxF, hbYF, hinpF, hCfF, hndF, hiffF⟩ :=
          ih mc3 x (y + 1) true (acc ++ [(mcU.set_med x (y + 1)).2]) h4 hb1x' hb1y'
            hx0' hx1' hy0' hy1' hinj' hcard'
        have hiff' : ∀ iv : ℕ × Val, iv ∈ ws' ↔ ∃ c : ℕ × ℕ,
            c ∈ remCells mc x (y + 1) true ∧
            iv = (mc.coord c.1 c.2, valAt mc c.1 c.2) := hiffF
        refine ⟨mcF, (mcU.set_med x (y + 1)).2 :: ws', ?_, ?_, ?_, ?_, ?_, ?_, ?_⟩
        · rw [heq, List.append_assoc, List.singleton_append]
        · exact hbxF.trans rfl
        · exact hbYF.trans rfl
        · exact hinpF.trans rfl
        · obtain ⟨Cf, hCf⟩ := hCfF
          exact ⟨Cf, hCf⟩
        · rw [List.map_cons, List.nodup_cons]
          refine ⟨?_, hndF⟩
          intro hmem
          rw [List.mem_map] at hmem
          obtain ⟨iv, hiv, hfst⟩ := hmem
          obtain ⟨c, hcrem, rfl⟩ := (hiff' iv).mp hiv
          have hco : mc.coord c.1 c.2 = mc.coord x (y + 1) := by
            rw [hwrite'] at hfst
            exact hfst
          obtain ⟨hc1, hc2⟩ := remCells_lt hx1 hylt hcrem
          have hce := hinj c.1 c.2 x (y + 1) hc1 hc2 hx1 hylt hco
          have hceq : c = (x, y + 1) := by
            rw [Prod.ext_iff]
            exact hce
          rw [hceq] at hcrem
          exact self_not_mem_remCells mc x (y + 1) true hcrem
        · intro iv
          rw [List.mem_cons, hrem]
          constructor
          · rintro (rfl | hmem)
            · exact ⟨(x, y + 1), Finset.mem_insert_self _ _, hwrite'⟩
            · obtain ⟨c, hc, rfl⟩ := (hiff' iv).mp hmem
              exact ⟨c, Finset.mem_insert_of_mem hc, rfl⟩
          · rintro ⟨c, hc, rfl⟩
            rcases Finset.mem_insert.mp hc with rfl | hcrem
            · left
              exact hwrite'.symm
            · right
              exact (hiff' _).mpr ⟨c, hcrem, rfl⟩


theorem step_build {bb : ℕ} (mc : MedCalc2D)
    (h : WRInv bb (blockFeeds mc) ∅ mc.wr) (x y : ℕ) :
    WRInv bb (blockFeeds mc) (winSlots mc x y)
      (mc.update_block 1 (mc.bx.w0 x) (mc.bx.w1 x) (mc.bY.w0 y) (mc.bY.w1 y)).wr := by
  have mx1 : mc.bx.w1 x ≤ mc.bx.size := by rw [bdim_w1]; omega
  have hins := update_block_insert mc h (mc.bx.w0 x) (mc.bx.w1 x)
    (mc.bY.w0 y) (mc.bY.w1 y) mx1
    (fun c hc => by
      rw [mem_rectCells] at hc
      have my1 : mc.bY.w1 y ≤ mc.bY.size := by rw [bdim_w1]; omega
      exact feeds_of_cell mc (by omega) (by omega))
    (fun c _ => Finset.not_mem_empty _)
  rw [Finset.empty_union] at hins
  exact hins

theorem interior_insert (mc : MedCalc2D) (h01x : mc.bx.b0 < mc.bx.b1)
    (h01y : mc.bY.b0 < mc.bY.b1) :
    rectCells mc.bx.b0 mc.bx.b1 mc.bY.b0 mc.bY.b1 =
      insert (mc.bx.b0, mc.bY.b0) (remCells mc mc.bx.b0 mc.bY.b0 true) := by
  ext ⟨a, b⟩
  rw [Finset.mem_insert, mem_rectCells, mem_remCells_down, Prod.mk.injEq]
  omega

theorem remCells_start_card (mc : MedCalc2D) (h01x : mc.bx.b0 < mc.bx.b1)
    (h01y : mc.bY.b0 < mc.bY.b1) :
    (remCells mc mc.bx.b0 mc.bY.b0 true).card + 1 ≤
      (mc.bx.b1 - mc.bx.b0) * (mc.bY.b1 - mc.bY.b0) + 1 := by
  have h1 : (rectCells mc.bx.b0 mc.bx.b1 mc.bY.b0 mc.bY.b1).card =
      (remCells mc mc.bx.b0 mc.bY.b0 true).card + 1 := by
    rw [interior_insert mc h01x h01y,
      Finset.card_insert_of_not_mem (self_not_mem_remCells mc _ _ true)]
  have h2 : (rectCells mc.bx.b0 mc.bx.b1 mc.bY.b0 mc.bY.b1).card =
      (mc.bx.b1 - mc.bx.b0) * (mc.bY.b1 - mc.bY.b0) := by
    unfold rectCells
    rw [Finset.card_product, Nat.card_Ico, Nat.card_Ico]
  omega

theorem coord_inj {b X Y hx hy i j : ℕ} {mc : MedCalc2D}
    (hdx : mc.bx.dim = Dim.make b X hx)
    (tfx : TileFacts b X hx i mc.bx) (tfy : TileFacts b Y hy j mc.bY) :
    ∀ a1 b1 a2 b2 : ℕ, a1 < mc.bx.b1 → b1 < mc.bY.b1 → a2 < mc.bx.b1 →
      b2 < mc.bY.b1 → mc.coord a1 b1 = mc.coord a2 b2 → a1 = a2 ∧ b1 = b2 := by
  intro a1 b1 a2 b2 ha1 hb1 ha2 hb2 hco
  have hle1 := tfx.hb1le
  have him := tfx.hinimg
  unfold MedCalc2D.coord at hco
  rw [hdx, dim_size] at hco
  have hX1 : a1 + mc.bx.start < X := by omega
  have hX2 : a2 + mc.bx.start < X := by omega
  have h2 : b1 + mc.bY.start = b2 + mc.bY.start := by
    by_contra hne
    rcases Nat.lt_or_ge (b1 + mc.bY.start) (b2 + mc.bY.start) with hlt | hge
    · have e1 : (b1 + mc.bY.start + 1) * X ≤ (b2 + mc.bY.start) * X :=
        Nat.mul_le_mul_right X (by omega)
      rw [Nat.succ_mul] at e1
      omega
    · have hlt : b2 + mc.bY.start < b1 + mc.bY.start := by omega
      have e1 : (b2 + mc.bY.start + 1) * X ≤ (b1 + mc.bY.start) * X :=
        Nat.mul_le_mul_right X (by omega)
      rw [Nat.succ_mul] at e1
      omega
  rw [h2] at hco
  omega

set_option maxHeartbeats 2000000 in
theorem medians_spec {bb : ℕ} (mc : MedCalc2D)
    (h0 : WRInv bb (blockFeeds mc) ∅ mc.wr.clear)
    (hb1x : mc.bx.b1 ≤ mc.bx.size) (hb1y : mc.bY.b1 ≤ mc.bY.size)
    (h01x : mc.bx.b0 < mc.bx.b1) (h01y : mc.bY.b0 < mc.bY.b1)
    (hinj : ∀ a1 b1 a2 b2 : ℕ, a1 < mc.bx.b1 → b1 < mc.bY.b1 → a2 < mc.bx.b1 →
      b2 < mc.bY.b1 → mc.coord a1 b1 = mc.coord a2 b2 → a1 = a2 ∧ b1 = b2) :
    ∃ mcF ws, mc.medians = (mcF, ws) ∧
      mcF.bx = mc.bx ∧ mcF.bY = mc.bY ∧ mcF.input = mc.input ∧
      (∃ Cf, WRInv bb (blockFeeds mc) Cf mcF.wr) ∧ BlockWrites mc ws := by
  simp only [MedCalc2D.medians, update_block_bx, update_block_bY]
  set mc0 : MedCalc2D := { mc with wr := mc.wr.clear } with hmc0
  set mcB := mc0.update_block 1 (mc.bx.w0 mc.bx.b0) (mc.bx.w1 mc.bx.b0)
    (mc.bY.w0 mc.bY.b0) (mc.bY.w1 mc.bY.b0) with hmcB
  set mc3 := (mcB.set_med mc.bx.b0 mc.bY.b0).1 with hmc3
  have h0' : WRInv bb (blockFeeds mc0) ∅ mc0.wr := h0
  have hbuild : WRInv bb (blockFeeds mcB) (winSlots mcB mc.bx.b0 mc.bY.b0) mcB.wr :=
    step_build mc0 h0' mc.bx.b0 mc.bY.b0
  obtain ⟨hwrite, h3⟩ := set_med_spec hbuild
  have h4 : WRInv bb (blockFeeds mc3) (winSlots mc3 mc.bx.b0 mc.bY.b0) mc3.wr := h3
  have hwrite' : (mcB.set_med mc.bx.b0 mc.bY.b0).2 =
      (mc.coord mc.bx.b0 mc.bY.b0, valAt mc mc.bx.b0 mc.bY.b0) := hwrite
  have hb1x' : mc3.bx.b1 ≤ mc3.bx.size := hb1x
  have hb1y' : mc3.bY.b1 ≤ mc3.bY.size := hb1y
  have hx0' : mc3.bx.b0 ≤ mc.bx.b0 := le_refl _
  have hx1' : mc.bx.b0 < mc3.bx.b1 := h01x
  have hy0' : mc3.bY.b0 ≤ mc.bY.b0 := le_refl _
  have hy1' : mc.bY.b0 < mc3.bY.b1 := h01y
  have hinj' : ∀ a1 b1 a2 b2 : ℕ, a1 < mc3.bx.b1 → b1 < mc3.bY.b1 →
      a2 < mc3.bx.b1 → b2 < mc3.bY.b1 → mc3.coord a1 b1 = mc3.coord a2 b2 →
      a1 = a2 ∧ b1 = b2 := hinj
  have hfuel : (remCells mc3 mc.bx.b0 mc.bY.b0 true).card + 1 ≤
      (mc.bx.b1 - mc.bx.b0) * (mc.bY.b1 - mc.bY.b0) + 1 :=
    remCells_start_card mc h01x h01y
  obtain ⟨mcF, ws', heq, hbxF, hbYF, hinpF, hCfF, hndF, hiffF⟩ :=
    snake_spec ((mc.bx.b1 - mc.bx.b0) * (mc.bY.b1 - mc.bY.b0) + 1) mc3
      mc.bx.b0 mc.bY.b0 true [(mcB.set_med mc.bx.b0 mc.bY.b0).2] h4 hb1x' hb1y'
      hx0' hx1' hy0' hy1' hinj' hfuel
  have hiff' : ∀ iv : ℕ × Val, iv ∈ ws' ↔ ∃ c : ℕ × ℕ,
      c ∈ remCells mc mc.bx.b0 mc.bY.b0 true ∧
      iv = (mc.coord c.1 c.2, valAt mc c.1 c.2) := hiffF
  refine ⟨mcF, (mcB.set_med mc.bx.b0 mc.bY.b0).2 :: ws', ?_, ?_, ?_, ?_, ?_, ?_, ?_⟩
  · rw [heq, List.singleton_append]
  · exact hbxF.trans rfl
  · exact hbYF.trans rfl
  · exact hinpF.trans rfl
  · obtain ⟨Cf, hCf⟩ := hCfF
    exact ⟨Cf, hCf⟩
  · rw [List.map_cons, List.nodup_cons]
    refine ⟨?_, hndF⟩
    intro hmem
    rw [List.mem_map] at hmem
    obtain ⟨iv, hiv, hfst⟩ := hmem
    obtain ⟨c, hcrem, rfl⟩ := (hiff' iv).mp hiv
    have hco : mc.coord c.1 c.2 = mc.coord mc.bx.b0 mc.bY.b0 := by
      rw [hwrite'] at hfst
      exact hfst
    obtain ⟨hc1, hc2⟩ := remCells_lt h01x h01y hcrem
    have hce := hinj c.1 c.2 mc.bx.b0 mc.bY.b0 hc1 hc2 h01x h01y hco
    have hceq : c = (mc.bx.b0, mc.bY.b0) := by
      rw [Prod.ext_iff]
      exact hce
    rw [hceq] at hcrem
    exact self_not_mem_remCells mc mc.bx.b0 mc.bY.b0 true hcrem
  · intro iv
    rw [List.mem_cons]
    constructor
    · rintro (rfl | hmem)
      · refine ⟨(mc.bx.b0, mc.bY.b0), le_refl _, h01x, le_refl _, h01y, hwrite'⟩
      · obtain ⟨c, hc, rfl⟩ := (hiff' iv).mp hmem
        have hcm : c ∈ rectCells mc.bx.b0 mc.bx.b1 mc.bY.b0 mc.bY.b1 := by
          rw [interior_insert mc h01x h01y]
          exact Finset.mem_insert_of_mem hc
        rw [mem_rectCells] at hcm
        exact ⟨c, hcm.1.1, hcm.1.2, hcm.2.1, hcm.2.2, rfl⟩
    · rintro ⟨c, hp1, hp2, hp3, hp4, rfl⟩
      have hcm : c ∈ rectCells mc.bx.b0 mc.bx.b1 mc.bY.b0 mc.bY.b1 := by
        rw [mem_rectCells]
        exact ⟨⟨hp1, hp2⟩, hp3, hp4⟩
      rw [interior_insert mc h01x h01y, Finset.mem_insert] at hcm
      rcases hcm with rfl | hcrem
      · left
        exact hwrite'.symm
      · right
        exact (hiff' _).mpr ⟨c, hcrem, rfl⟩


theorem coord_congr {mc mc' : MedCalc2D} (hbx : mc.bx = mc'.bx)
    (hbY : mc.bY = mc'.bY) (x y : ℕ) : mc.coord x y = mc'.coord x y := by
  unfold MedCalc2D.coord
  rw [hbx, hbY]

theorem blockFeeds_congr {mc mc' : MedCalc2D} (hbx : mc.bx = mc'.bx)
    (hbY : mc.bY = mc'.bY) (hinp : mc.input = mc'.input) :
    blockFeeds mc = blockFeeds mc' := by
  unfold blockFeeds MedCalc2D.coord MedCalc2D.pack
  rw [hbx, hbY, hinp]

theorem winSlots_congr {mc mc' : MedCalc2D} (hbx : mc.bx = mc'.bx)
    (hbY : mc.bY = mc'.bY) (x y : ℕ) : winSlots mc x y = winSlots mc' x y := by
  unfold winSlots winCells
  rw [hbx, hbY]

theorem valAt_congr {mc mc' : MedCalc2D} (hbx : mc.bx = mc'.bx)
    (hbY : mc.bY = mc'.bY) (hinp : mc.input = mc'.input) (x y : ℕ) :
    valAt mc x y = valAt mc' x y := by
  unfold valAt
  rw [blockFeeds_congr hbx hbY hinp, winSlots_congr hbx hbY]

set_option maxHeartbeats 2000000 in
theorem naive_row {bb : ℕ} (y : ℕ) :
    ∀ (l : List ℕ) (mc : MedCalc2D) (acc : List (ℕ × Val)),
    mc.wr.Cap bb →
    WRInv bb (blockFeeds mc) ∅ mc.wr.clear →
    ∃ mcF,
      l.foldl (fun a x =>
        let mc0 : MedCalc2D := { a.1 with wr := a.1.wr.clear }
        let mc1 := mc0.update_block 1 (mc0.bx.w0 x) (mc0.bx.w1 x) (mc0.bY.w0 y)
          (mc0.bY.w1 y)
        let r := mc1.set_med x y
        (r.1, a.2 ++ [r.2])) (mc, acc) =
      (mcF, acc ++ l.map fun x => (mc.coord x y, valAt mc x y)) ∧
      mcF.bx = mc.bx ∧ mcF.bY = mc.bY ∧ mcF.input = mc.input ∧
      mcF.wr.Cap bb ∧ WRInv bb (blockFeeds mc) ∅ mcF.wr.clear := by
  intro l
  induction l with
  | nil =>
    intro mc acc hcap h
    refine ⟨mc, ?_, rfl, rfl, rfl, hcap, h⟩
    rw [List.foldl_nil, List.map_nil, List.append_nil]
  | cons x xs ih =>
    intro mc acc hcap h
    rw [List.foldl_cons]
    set mcC : MedCalc2D := { mc with wr := mc.wr.clear } with hmcC
    set mcM := mcC.update_block 1 (mcC.bx.w0 x) (mcC.bx.w1 x) (mcC.bY.w0 y)
      (mcC.bY.w1 y) with hmcM
    set mcN := (mcM.set_med x y).1 with hmcN
    have hclear : WRInv bb (blockFeeds mcC) ∅ mcC.wr := h
    have hbuild : WRInv bb (blockFeeds mcM) (winSlots mcM x y) mcM.wr :=
      step_build mcC hclear x y
    obtain ⟨hwrite, h3⟩ := set_med_spec hbuild
    have hcapN : mcN.wr.Cap bb := ⟨h3.hwords, h3.hwInv.hlen⟩
    have h4 : WRInv bb (blockFeeds mcN) ∅ mcN.wr.clear := wrInv_clear h3
    have hwv : (mcM.set_med x y).2 = (mc.coord x y, valAt mc x y) := hwrite
    obtain ⟨mcF, heq, hbxF, hbYF, hinpF, hcapF, hwF⟩ :=
      ih mcN (acc ++ [(mcM.set_med x y).2]) hcapN h4
    have hfN : (fun x' => (mcN.coord x' y, valAt mcN x' y)) =
        (fun x' => (mc.coord x' y, valAt mc x' y)) := rfl
    have hwF' : WRInv bb (blockFeeds mc) ∅ mcF.wr.clear := hwF
    refine ⟨mcF, ?_, hbxF.trans rfl, hbYF.trans rfl, hinpF.trans rfl, hcapF, hwF'⟩
    refine heq.trans ?_
    rw [hfN, List.map_cons, hwv, List.append_assoc, List.singleton_append]

set_option maxHeartbeats 2000000 in
theorem naive_rows {bb : ℕ} (lx : List ℕ) :
    ∀ (ly : List ℕ) (mc : MedCalc2D) (acc : List (ℕ × Val)),
    mc.wr.Cap bb →
    WRInv bb (blockFeeds mc) ∅ mc.wr.clear →
    ∃ mcF,
      ly.foldl (fun a y => lx.foldl (fun a x =>
        let mc0 : MedCalc2D := { a.1 with wr := a.1.wr.clear }
        let mc1 := mc0.update_block 1 (mc0.bx.w0 x) (mc0.bx.w1 x) (mc0.bY.w0 y)
          (mc0.bY.w1 y)
        let r := mc1.set_med x y
        (r.1, a.2 ++ [r.2])) a) (mc, acc) =
      (mcF, acc ++ ly.flatMap fun y => lx.map fun x => (mc.coord x y, valAt mc x y)) ∧
      mcF.bx = mc.bx ∧ mcF.bY = mc.bY ∧ mcF.input = mc.input ∧
      mcF.wr.Cap bb ∧ WRInv bb (blockFeeds mc) ∅ mcF.wr.clear := by
  intro ly
  induction ly with
  | nil =>
    intro mc acc hcap h
    refine ⟨mc, ?_, rfl, rfl, rfl, hcap, h⟩
    rw [List.foldl_nil, List.flatMap_nil, List.append_nil]
  | cons y ys ih =>
    intro mc acc hcap h
    simp only [List.foldl_cons]
    obtain ⟨mc1, heq1, hbx1, hbY1, hinp1, hcap1, hw1⟩ := naive_row y lx mc acc hcap h
    rw [heq1]
    have hbf1 : blockFeeds mc1 = blockFeeds mc := blockFeeds_congr hbx1 hbY1 hinp1
    have hw1' : WRInv bb (blockFeeds mc1) ∅ mc1.wr.clear := by
      rw [hbf1]
      exact hw1
    obtain ⟨mcF, heq2, hbx2, hbY2, hinp2, hcap2, hw2⟩ :=
      ih mc1 (acc ++ lx.map fun x => (mc.coord x y, valAt mc x y)) hcap1 hw1'
    have hfun : (fun y2 => lx.map fun x => (mc1.coord x y2, valAt mc1 x y2)) =
        (fun y2 => lx.map fun x => (mc.coord x y2, valAt mc x y2)) := by
      funext y2
      have hfx : (fun x => (mc1.coord x y2, valAt mc1 x y2)) =
          (fun x => (mc.coord x y2, valAt mc x y2)) := by
        funext x2
        rw [coord_congr hbx1 hbY1, valAt_congr hbx1 hbY1 hinp1]
      rw [hfx]
    refine ⟨mcF, ?_, hbx2.trans hbx1, hbY2.trans hbY1, hinp2.trans hinp1, hcap2, ?_⟩
    · rw [heq2, hfun, List.flatMap_cons, List.append_assoc]
    · rw [← hbf1]
      exact hw2

set_option maxHeartbeats 2000000 in
theorem medians_naive_spec {bb : ℕ} (mc : MedCalc2D)
    (hcap : mc.wr.Cap bb)
    (h0 : WRInv bb (blockFeeds mc) ∅ mc.wr.clear)
    (h01x : mc.bx.b0 < mc.bx.b1) (h01y : mc.bY.b0 < mc.bY.b1)
    (hinj : ∀ a1 b1 a2 b2 : ℕ, a1 < mc.bx.b1 → b1 < mc.bY.b1 → a2 < mc.bx.b1 →
      b2 < mc.bY.b1 → mc.coord a1 b1 = mc.coord a2 b2 → a1 = a2 ∧ b1 = b2) :
    ∃ mcF ws, mc.medians_naive = (mcF, ws) ∧
      mcF.bx = mc.bx ∧ mcF.bY = mc.bY ∧ mcF.input = mc.input ∧
      mcF.wr.Cap bb ∧ WRInv bb (blockFeeds mc) ∅ mcF.wr.clear ∧
      BlockWrites mc ws := by
  obtain ⟨mcF, heq, hbx, hbY, hinp, hcapF, hwF⟩ :=
    naive_rows (List.range' mc.bx.b0 (mc.bx.b1 - mc.bx.b0))
      (List.range' mc.bY.b0 (mc.bY.b1 - mc.bY.b0)) mc [] hcap h0
  refine ⟨mcF, (List.range' mc.bY.b0 (mc.bY.b1 - mc.bY.b0)).flatMap fun y =>
      (List.range' mc.bx.b0 (mc.bx.b1 - mc.bx.b0)).map fun x =>
        (mc.coord x y, valAt mc x y), ?_, hbx, hbY, hinp, hcapF, hwF, ?_, ?_⟩
  · exact heq.trans (by rw [List.nil_append])
  · rw [List.map_flatMap]
    apply List.nodup_flatMap.mpr
    constructor
    · intro y hy
      rw [List.mem_range'_1] at hy
      rw [List.map_map]
      refine List.Nodup.map_on ?_ (List.nodup_range' _ _)
      intro x1 hx1 x2 hx2 hco
      rw [List.mem_range'_1] at hx1 hx2
      have := hinj x1 y x2 y (by omega) (by omega) (by omega) (by omega) hco
      exact this.1
    · rw [List.pairwise_iff_forall_sublist]
      intro y1 y2 hsub
      have hne : y1 ≠ y2 := by
        have hnd2 := (List.nodup_range' mc.bY.b0 (mc.bY.b1 - mc.bY.b0)).sublist hsub
        rcases hnd2 with _ | hp
        simpa using hp
      have hy1 : y1 ∈ List.range' mc.bY.b0 (mc.bY.b1 - mc.bY.b0) :=
        hsub.subset (by simp)
      have hy2 : y2 ∈ List.range' mc.bY.b0 (mc.bY.b1 - mc.bY.b0) :=
        hsub.subset (by simp)
      rw [List.mem_range'_1] at hy1 hy2
      intro s hs1 hs2
      simp only [List.map_map, List.mem_map] at hs1 hs2
      obtain ⟨x1, hx1, rfl⟩ := hs1
      obtain ⟨x2, hx2, he2⟩ := hs2
      rw [List.mem_range'_1] at hx1 hx2
      have := hinj x2 y2 x1 y1 (by omega) (by omega) (by omega) (by omega) he2
      omega
  · intro iv
    rw [List.mem_flatMap]
    constructor
    · rintro ⟨y, hy, hmemrow⟩
      rw [List.mem_map] at hmemrow
      obtain ⟨x, hxl, rfl⟩ := hmemrow
      rw [List.mem_range'_1] at hy hxl
      exact ⟨(x, y), hxl.1, by omega, hy.1, by omega, rfl⟩
    · rintro ⟨p, hp1, hp2, hp3, hp4, rfl⟩
      refine ⟨p.2, ?_, ?_⟩
      · rw [List.mem_range'_1]
        omega
      · rw [List.mem_map]
        refine ⟨p.1, ?_, rfl⟩
        rw [List.mem_range'_1]
        omega


theorem bdim_set_congr {bd bd' : BDim} (h : bd.dim = bd'.dim) (i : ℕ) :
    bd.set i = bd'.set i := by
  simp only [BDim.set]
  rw [h]

theorem tileInterior_lt {b size h i : ℕ} (hb : 2 * h + 1 < b) (hsz : 1 ≤ size)
    (hi : i < (Dim.make b size h).count) {g : ℕ}
    (hg : g ∈ tileInterior (Dim.make b size h) i) : g < size := by
  have h1 := tileB_le b size h hb hsz hi
  rw [tileInterior_formula b size h hb hsz hi, Finset.mem_Ico] at hg
  omega

set_option maxHeartbeats 1000000 in
theorem blockWrites_to_driver {b X Y hx hy bxi byi : ℕ} {mc : MedCalc2D}
    (hdx : mc.bx.dim = Dim.make b X hx)
    (hbxe : mc.bx = (BDim.make (Dim.make b X hx)).set bxi)
    (hbye : mc.bY = (BDim.make (Dim.make b Y hy)).set byi)
    (tfx : TileFacts b X hx bxi mc.bx) (tfy : TileFacts b Y hy byi mc.bY)
    {ws : List (ℕ × Val)} (hbw : BlockWrites mc ws) :
    (ws.map Prod.fst).Nodup ∧
      ∀ iv, iv ∈ ws ↔ DriverWrite b X Y hx hy mc.input bxi byi iv := by
  refine ⟨hbw.1, ?_⟩
  intro iv
  rw [hbw.2 iv]
  unfold DriverWrite
  have htix : tileInterior (Dim.make b X hx) bxi =
      Finset.Ico (mc.bx.start + mc.bx.b0) (mc.bx.start + mc.bx.b1) := by
    rw [tileInterior, ← hbxe]
  have htiy : tileInterior (Dim.make b Y hy) byi =
      Finset.Ico (mc.bY.start + mc.bY.b0) (mc.bY.start + mc.bY.b1) := by
    rw [tileInterior, ← hbye]
  constructor
  · rintro ⟨⟨pa, pb⟩, hp1, hp2, hp3, hp4, rfl⟩
    simp only at hp1 hp2 hp3 hp4
    refine ⟨(pa + mc.bx.start, pb + mc.bY.start), ?_, ?_, ?_⟩
    · rw [htix, Finset.mem_Ico]
      constructor
      · show mc.bx.start + mc.bx.b0 ≤ pa + mc.bx.start
        omega
      · show pa + mc.bx.start < mc.bx.start + mc.bx.b1
        omega
    · rw [htiy, Finset.mem_Ico]
      constructor
      · show mc.bY.start + mc.bY.b0 ≤ pb + mc.bY.start
        omega
      · show pb + mc.bY.start < mc.bY.start + mc.bY.b1
        omega
    · have hcoord : mc.coord pa pb = (pb + mc.bY.start) * X + (pa + mc.bx.start) := by
        unfold MedCalc2D.coord
        rw [hdx, dim_size]
      have hval := valAt_eq_refMedian hdx tfx tfy hp1 hp2 hp3 hp4
      show (mc.coord pa pb, valAt mc pa pb) =
        ((pb + mc.bY.start) * X + (pa + mc.bx.start),
          refMedian X Y hx hy mc.input (pa + mc.bx.start) (pb + mc.bY.start))
      rw [hcoord, hval]
  · rintro ⟨⟨ga, gb⟩, hg1, hg2, rfl⟩
    rw [htix, Finset.mem_Ico] at hg1
    rw [htiy, Finset.mem_Ico] at hg2
    simp only at hg1 hg2
    refine ⟨(ga - mc.bx.start, gb - mc.bY.start), ?_, ?_, ?_, ?_, ?_⟩
    · show mc.bx.b0 ≤ ga - mc.bx.start
      omega
    · show ga - mc.bx.start < mc.bx.b1
      omega
    · show mc.bY.b0 ≤ gb - mc.bY.start
      omega
    · show gb - mc.bY.start < mc.bY.b1
      omega
    · have hb0 : mc.bx.b0 ≤ ga - mc.bx.start := by omega
      have hb1 : ga - mc.bx.start < mc.bx.b1 := by omega
      have hb2 : mc.bY.b0 ≤ gb - mc.bY.start := by omega
      have hb3 : gb - mc.bY.start < mc.bY.b1 := by omega
      have hcoord : mc.coord (ga - mc.bx.start) (gb - mc.bY.start) =
          (gb - mc.bY.start + mc.bY.start) * X + (ga - mc.bx.start + mc.bx.start) := by
        unfold MedCalc2D.coord
        rw [hdx, dim_size]
      have hval := valAt_eq_refMedian hdx tfx tfy hb0 hb1 hb2 hb3
      have e1 : ga - mc.bx.start + mc.bx.start = ga := by omega
      have e2 : gb - mc.bY.start + mc.bY.start = gb := by omega
      rw [e1] at hcoord hval
      rw [e2] at hcoord hval
      show (gb * X + ga, refMedian X Y hx hy mc.input ga gb) =
        (mc.coord (ga - mc.bx.start) (gb - mc.bY.start),
          valAt mc (ga - mc.bx.start) (gb - mc.bY.start))
      rw [hcoord, hval]

set_option maxHeartbeats 2000000 in
theorem run_spec {b X Y hx hy : ℕ} (mc : MedCalc2D) (hbx : 2 * hx + 1 < b)
    (hby : 2 * hy + 1 < b) (hX : 1 ≤ X) (hY : 1 ≤ Y)
    (hdx : mc.bx.dim = Dim.make b X hx) (hdy : mc.bY.dim = Dim.make b Y hy)
    (hcap : mc.wr.Cap (b * b)) {bxi byi : ℕ}
    (hbxi : bxi < (Dim.make b X hx).count) (hbyi : byi < (Dim.make b Y hy).count) :
    ∃ mcF ws, mc.run bxi byi = (mcF, ws) ∧
      mcF.bx.dim = Dim.make b X hx ∧ mcF.bY.dim = Dim.make b Y hy ∧
      mcF.input = mc.input ∧ mcF.wr.Cap (b * b) ∧
      (ws.map Prod.fst).Nodup ∧
      ∀ iv, iv ∈ ws ↔ DriverWrite b X Y hx hy mc.input bxi byi iv := by
  simp only [MedCalc2D.run]
  set mc0 : MedCalc2D := { mc with bx := mc.bx.set bxi, bY := mc.bY.set byi } with hm0
  have tfx : TileFacts b X hx bxi mc0.calc_rank.bx :=
    tileFacts_set mc.bx hdx hbx hX hbxi
  have tfy : TileFacts b Y hy byi mc0.calc_rank.bY :=
    tileFacts_set mc.bY hdy hby hY hbyi
  have hdx1 : mc0.calc_rank.bx.dim = Dim.make b X hx := hdx
  have hdy1 : mc0.calc_rank.bY.dim = Dim.make b Y hy := hdy
  have hcap0 : mc0.wr.Cap (b * b) := hcap
  have hvf : ValidFeeds (b * b) (blockFeeds mc0) :=
    blockFeeds_valid (by omega) tfx.hlen_le tfy.hlen_le
  have h0 : WRInv (b * b) (blockFeeds mc0.calc_rank) ∅ mc0.calc_rank.wr.clear := by
    rw [show mc0.calc_rank.wr =
      ((mc0.wr.init_start).feedAll (blockFeeds mc0)).init_finish from calc_rank_wr mc0]
    exact wrInv_base mc0.wr hcap0 hvf
  have hb1x : mc0.calc_rank.bx.b1 ≤ mc0.calc_rank.bx.size := tfx.hb1le
  have hb1y : mc0.calc_rank.bY.b1 ≤ mc0.calc_rank.bY.size := tfy.hb1le
  have h01x : mc0.calc_rank.bx.b0 < mc0.calc_rank.bx.b1 := tfx.hb01
  have h01y : mc0.calc_rank.bY.b0 < mc0.calc_rank.bY.b1 := tfy.hb01
  have hinj := coord_inj hdx1 tfx tfy
  obtain ⟨mcF, ws, heq, hbxF, hbYF, hinpF, hCfF, hbw⟩ :=
    medians_spec mc0.calc_rank h0 hb1x hb1y h01x h01y hinj
  have hbxe : mc0.calc_rank.bx = (BDim.make (Dim.make b X hx)).set bxi :=
    bdim_set_congr (by rw [bdim_make_dim]; exact hdx) bxi
  have hbye : mc0.calc_rank.bY = (BDim.make (Dim.make b Y hy)).set byi :=
    bdim_set_congr (by rw [bdim_make_dim]; exact hdy) byi
  obtain ⟨hnd, hiff⟩ := blockWrites_to_driver hdx1 hbxe hbye tfx tfy hbw
  obtain ⟨Cf, hCf⟩ := hCfF
  refine ⟨mcF, ws, heq, ?_, ?_, hinpF.trans rfl, ⟨hCf.hwords, hCf.hwInv.hlen⟩, hnd, ?_⟩
  · exact (congrArg BDim.dim hbxF).trans hdx1
  · exact (congrArg BDim.dim hbYF).trans hdy1
  · exact hiff

set_option maxHeartbeats 2000000 in
theorem run_naive_spec {b X Y hx hy : ℕ} (mc : MedCalc2D) (hbx : 2 * hx + 1 < b)
    (hby : 2 * hy + 1 < b) (hX : 1 ≤ X) (hY : 1 ≤ Y)
    (hdx : mc.bx.dim = Dim.make b X hx) (hdy : mc.bY.dim = Dim.make b Y hy)
    (hcap : mc.wr.Cap (b * b)) {bxi byi : ℕ}
    (hbxi : bxi < (Dim.make b X hx).count) (hbyi : byi < (Dim.make b Y hy).count) :
    ∃ mcF ws, mc.run_naive bxi byi = (mcF, ws) ∧
      mcF.bx.dim = Dim.make b X hx ∧ mcF.bY.dim = Dim.make b Y hy ∧
      mcF.input = mc.input ∧ mcF.wr.Cap (b * b) ∧
      (ws.map Prod.fst).Nodup ∧
      ∀ iv, iv ∈ ws ↔ DriverWrite b X Y hx hy mc.input bxi byi iv := by
  simp only [MedCalc2D.run_naive]
  set mc0 : MedCalc2D := { mc with bx := mc.bx.set bxi, bY := mc.bY.set byi } with hm0
  have tfx : TileFacts b X hx bxi mc0.calc_rank.bx :=
    tileFacts_set mc.bx hdx hbx hX hbxi
  have tfy : TileFacts b Y hy byi mc0.calc_rank.bY :=
    tileFacts_set mc.bY hdy hby hY hbyi
  have hdx1 : mc0.calc_rank.bx.dim = Dim.make b X hx := hdx
  have hdy1 : mc0.calc_rank.bY.dim = Dim.make b Y hy := hdy
  have hcap0 : mc0.wr.Cap (b * b) := hcap
  have hvf : ValidFeeds (b * b) (blockFeeds mc0) :=
    blockFeeds_valid (by omega) tfx.hlen_le tfy.hlen_le
  have h0 : WRInv (b * b) (blockFeeds mc0.calc_rank) ∅ mc0.calc_rank.wr.clear := by
    rw [show mc0.calc_rank.wr =
      ((mc0.wr.init_start).feedAll (blockFeeds mc0)).init_finish from calc_rank_wr mc0]
    exact wrInv_base mc0.wr hcap0 hvf
  have hwin1 : mc0.calc_rank.wr.window = mc.wr.window := by
    rw [show mc0.calc_rank.wr =
      ((mc0.wr.init_start).feedAll (blockFeeds mc0)).init_finish from calc_rank_wr mc0]
    rw [init_finish_window, feedAll_window]
    rfl
  have hcap1 : mc0.calc_rank.wr.Cap (b * b) := by
    unfold WindowRank.Cap
    rw [hwin1]
    exact hcap
  have h01x : mc0.calc_rank.bx.b0 < mc0.calc_rank.bx.b1 := tfx.hb01
  have h01y : mc0.calc_rank.bY.b0 < mc0.calc_rank.bY.b1 := tfy.hb01
  have hinj := coord_inj hdx1 tfx tfy
  obtain ⟨mcF, ws, heq, hbxF, hbYF, hinpF, hcapF, hwF, hbw⟩ :=
    medians_naive_spec mc0.calc_rank hcap1 h0 h01x h01y hinj
  have hbxe : mc0.calc_rank.bx = (BDim.make (Dim.make b X hx)).set bxi :=
    bdim_set_congr (by rw [bdim_make_dim]; exact hdx) bxi
  have hbye : mc0.calc_rank.bY = (BDim.make (Dim.make b Y hy)).set byi :=
    bdim_set_congr (by rw [bdim_make_dim]; exact hdy) byi
  obtain ⟨hnd, hiff⟩ := blockWrites_to_driver hdx1 hbxe hbye tfx tfy hbw
  refine ⟨mcF, ws, heq, ?_, ?_, hinpF.trans rfl, hcapF, hnd, ?_⟩
  · exact (congrArg BDim.dim hbxF).trans hdx1
  · exact (congrArg BDim.dim hbYF).trans hdy1
  · exact hiff


theorem imgIdx_inj {X ga gb ga2 gb2 : ℕ} (h1 : ga < X) (h2 : ga2 < X)
    (he : gb * X + ga = gb2 * X + ga2) : ga = ga2 ∧ gb = gb2 := by
  have hb : gb = gb2 := by
    by_contra hne
    rcases Nat.lt_or_ge gb gb2 with hlt | hge
    · have e1 : (gb + 1) * X ≤ gb2 * X := Nat.mul_le_mul_right X (by omega)
      rw [Nat.succ_mul] at e1
      omega
    · have e1 : (gb2 + 1) * X ≤ gb * X := Nat.mul_le_mul_right X (by omega)
      rw [Nat.succ_mul] at e1
      omega
  rw [hb] at he
  exact ⟨by omega, hb⟩

theorem driverWrite_idx {b X Y hx hy bxi byi : ℕ} {input : ℕ → Val}
    {iv : ℕ × Val} (hbx : 2 * hx + 1 < b) (hby : 2 * hy + 1 < b)
    (hX : 1 ≤ X) (hY : 1 ≤ Y)
    (hbxi : bxi < (Dim.make b X hx).count) (hbyi : byi < (Dim.make b Y hy).count)
    (h : DriverWrite b X Y hx hy input bxi byi iv) :
    ∃ g : ℕ × ℕ, g.1 ∈ tileInterior (Dim.make b X hx) bxi ∧
      g.2 ∈ tileInterior (Dim.make b Y hy) byi ∧ g.1 < X ∧ g.2 < Y ∧
      iv.1 = g.2 * X + g.1 ∧ iv.2 = refMedian X Y hx hy input g.1 g.2 := by
  obtain ⟨g, hg1, hg2, he⟩ := h
  refine ⟨g, hg1, hg2, tileInterior_lt hbx hX hbxi hg1,
    tileInterior_lt hby hY hbyi hg2, ?_, ?_⟩
  · rw [he]
  · rw [he]

set_option maxHeartbeats 2000000 in
theorem impl_fold_x {b X Y hx hy : ℕ}
    (runner : MedCalc2D → ℕ → ℕ → MedCalc2D × List (ℕ × Val))
    (hrun : ∀ mc : MedCalc2D, mc.bx.dim = Dim.make b X hx →
      mc.bY.dim = Dim.make b Y hy → mc.wr.Cap (b * b) →
      ∀ bxi byi : ℕ, bxi < (Dim.make b X hx).count → byi < (Dim.make b Y hy).count →
      ∃ mcF ws, runner mc bxi byi = (mcF, ws) ∧
        mcF.bx.dim = Dim.make b X hx ∧ mcF.bY.dim = Dim.make b Y hy ∧
        mcF.input = mc.input ∧ mcF.wr.Cap (b * b) ∧
        (ws.map Prod.fst).Nodup ∧
        ∀ iv, iv ∈ ws ↔ DriverWrite b X Y hx hy mc.input bxi byi iv)
    (byi : ℕ)
    (hbyi : byi < (Dim.make b Y hy).count)
    (hbx : 2 * hx + 1 < b) (hby : 2 * hy + 1 < b) (hX : 1 ≤ X) (hY : 1 ≤ Y) :
    ∀ (l : List ℕ) (mc : MedCalc2D) (acc : List (ℕ × Val)),
    (∀ i ∈ l, i < (Dim.make b X hx).count) →
    mc.bx.dim = Dim.make b X hx → mc.bY.dim = Dim.make b Y hy →
    mc.wr.Cap (b * b) →
    ∃ mcF ws,
      l.foldl (fun a bxi => ((runner a.1 bxi byi).1, a.2 ++ (runner a.1 bxi byi).2))
        (mc, acc) = (mcF, acc ++ ws) ∧
      mcF.bx.dim = Dim.make b X hx ∧ mcF.bY.dim = Dim.make b Y hy ∧
      mcF.input = mc.input ∧ mcF.wr.Cap (b * b) ∧
      (l.Nodup → (ws.map Prod.fst).Nodup) ∧
      ∀ iv, iv ∈ ws ↔ ∃ bxi ∈ l, DriverWrite b X Y hx hy mc.input bxi byi iv := by
  intro l
  induction l with
  | nil =>
    intro mc acc hl hdx hdy hcap
    refine ⟨mc, [], by rw [List.foldl_nil, List.append_nil], hdx, hdy, rfl, hcap,
      fun _ => List.nodup_nil, ?_⟩
    intro iv
    simp
  | cons i il ih =>
    intro mc acc hl hdx hdy hcap
    simp only [List.foldl_cons]
    have hi : i < (Dim.make b X hx).count := hl i (List.mem_cons_self i il)
    obtain ⟨mc1, ws1, heq1, hdx1, hdy1, hinp1, hcap1, hnd1, hiff1⟩ :=
      hrun mc hdx hdy hcap i byi hi hbyi
    have hfst : (runner mc i byi).1 = mc1 := by rw [heq1]
    have hsnd : (runner mc i byi).2 = ws1 := by rw [heq1]
    rw [hfst, hsnd]
    obtain ⟨mcF, ws2, heq2, hdx2, hdy2, hinp2, hcap2, hnd2, hiff2⟩ :=
      ih mc1 (acc ++ ws1) (fun j hj => hl j (List.mem_cons_of_mem i hj)) hdx1 hdy1 hcap1
    have hiff2' : ∀ iv, iv ∈ ws2 ↔
        ∃ bxi ∈ il, DriverWrite b X Y hx hy mc.input bxi byi iv := by
      intro iv
      rw [hiff2 iv, hinp1]
    refine ⟨mcF, ws1 ++ ws2, ?_, hdx2, hdy2, hinp2.trans hinp1, hcap2, ?_, ?_⟩
    · rw [heq2, List.append_assoc]
    · intro hnd
      rw [List.nodup_cons] at hnd
      rw [List.map_append]
      rw [List.nodup_append]
      refine ⟨hnd1, hnd2 hnd.2, ?_⟩
      intro s hs1 hs2
      rw [List.mem_map] at hs1 hs2
      obtain ⟨iv1, hiv1, hf1⟩ := hs1
      obtain ⟨iv2, hiv2, hf2⟩ := hs2
      obtain ⟨bxi2, hbxi2, hdw2⟩ := (hiff2' iv2).mp hiv2
      obtain ⟨g1, hg1a, hg1b, hg1X, hg1Y, hg1i, _⟩ :=
        driverWrite_idx hbx hby hX hY hi hbyi ((hiff1 iv1).mp hiv1)
      obtain ⟨g2, hg2a, hg2b, hg2X, hg2Y, hg2i, _⟩ :=
        driverWrite_idx hbx hby hX hY (hl bxi2 (List.mem_cons_of_mem i hbxi2)) hbyi hdw2
      have hieq : iv1.1 = iv2.1 := by rw [hf1, hf2]
      rw [hg1i, hg2i] at hieq
      obtain ⟨hga, hgb⟩ := imgIdx_inj hg1X hg2X hieq
      have hdisj := tile_disjoint b X hx hbx hX hi
        (hl bxi2 (List.mem_cons_of_mem i hbxi2)) (fun hc => hnd.1 (hc ▸ hbxi2))
      rw [Finset.disjoint_left] at hdisj
      exact hdisj hg1a (hga ▸ hg2a)
    · intro iv
      rw [List.mem_append]
      constructor
      · rintro (hm | hm)
        · exact ⟨i, List.mem_cons_self i il, (hiff1 iv).mp hm⟩
        · obtain ⟨bxi2, hb2, hd2⟩ := (hiff2' iv).mp hm
          exact ⟨bxi2, List.mem_cons_of_mem i hb2, hd2⟩
      · rintro ⟨bxi2, hb2, hd2⟩
        rcases List.mem_cons.mp hb2 with rfl | hb2'
        · exact Or.inl ((hiff1 iv).mpr hd2)
        · exact Or.inr ((hiff2' iv).mpr ⟨bxi2, hb2', hd2⟩)

set_option maxHeartbeats 2000000 in
theorem impl_fold_y {b X Y hx hy : ℕ}
    (runner : MedCalc2D → ℕ → ℕ → MedCalc2D × List (ℕ × Val))
    (hrun : ∀ mc : MedCalc2D, mc.bx.dim = Dim.make b X hx →
      mc.bY.dim = Dim.make b Y hy → mc.wr.Cap (b * b) →
      ∀ bxi byi : ℕ, bxi < (Dim.make b X hx).count → byi < (Dim.make b Y hy).count →
      ∃ mcF ws, runner mc bxi byi = (mcF, ws) ∧
        mcF.bx.dim = Dim.make b X hx ∧ mcF.bY.dim = Dim.make b Y hy ∧
        mcF.input = mc.input ∧ mcF.wr.Cap (b * b) ∧
        (ws.map Prod.fst).Nodup ∧
        ∀ iv, iv ∈ ws ↔ DriverWrite b X Y hx hy mc.input bxi byi iv)
    (hbx : 2 * hx + 1 < b) (hby : 2 * hy + 1 < b) (hX : 1 ≤ X) (hY : 1 ≤ Y) :
    ∀ (ly : List ℕ) (mc : MedCalc2D) (acc : List (ℕ × Val)),
    (∀ j ∈ ly, j < (Dim.make b Y hy).count) →
    mc.bx.dim = Dim.make b X hx → mc.bY.dim = Dim.make b Y hy →
    mc.wr.Cap (b * b) →
    ∃ mcF ws,
      ly.foldl (fun a byi => (List.range (Dim.make b X hx).count).foldl
        (fun a bxi => ((runner a.1 bxi byi).1, a.2 ++ (runner a.1 bxi byi).2)) a)
        (mc, acc) = (mcF, acc ++ ws) ∧
      mcF.bx.dim = Dim.make b X hx ∧ mcF.bY.dim = Dim.make b Y hy ∧
      mcF.input = mc.input ∧ mcF.wr.Cap (b * b) ∧
      (ly.Nodup → (ws.map Prod.fst).Nodup) ∧
      ∀ iv, iv ∈ ws ↔ ∃ byi ∈ ly, ∃ bxi ∈ List.range (Dim.make b X hx).count,
        DriverWrite b X Y hx hy mc.input bxi byi iv := by
  intro ly
  induction ly with
  | nil =>
    intro mc acc hl hdx hdy hcap
    refine ⟨mc, [], by rw [List.foldl_nil, List.append_nil], hdx, hdy, rfl, hcap,
      fun _ => List.nodup_nil, ?_⟩
    intro iv
    simp
  | cons j jl ih =>
    intro mc acc hl hdx hdy hcap
    simp only [List.foldl_cons]
    have hj : j < (Dim.make b Y hy).count := hl j (List.mem_cons_self j jl)
    obtain ⟨mc1, ws1, heq1, hdx1, hdy1, hinp1, hcap1, hnd1, hiff1⟩ :=
      impl_fold_x runner hrun j hj hbx hby hX hY
        (List.range (Dim.make b X hx).count) mc acc
        (fun i hi => List.mem_range.mp hi) hdx hdy hcap
    rw [heq1]
    obtain ⟨mcF, ws2, heq2, hdx2, hdy2, hinp2, hcap2, hnd2, hiff2⟩ :=
      ih mc1 (acc ++ ws1) (fun j2 hj2 => hl j2 (List.mem_cons_of_mem j hj2))
        hdx1 hdy1 hcap1
    have hiff2' : ∀ iv, iv ∈ ws2 ↔
        ∃ byi ∈ jl, ∃ bxi ∈ List.range (Dim.make b X hx).count,
          DriverWrite b X Y hx hy mc.input bxi byi iv := by
      intro iv
      rw [hiff2 iv, hinp1]
    refine ⟨mcF, ws1 ++ ws2, ?_, hdx2, hdy2, hinp2.trans hinp1, hcap2, ?_, ?_⟩
    · rw [heq2, List.append_assoc]
    · intro hnd
      rw [List.nodup_cons] at hnd
      rw [List.map_append]
      rw [List.nodup_append]
      refine ⟨hnd1 (List.nodup_range _), hnd2 hnd.2, ?_⟩
      intro s hs1 hs2
      rw [List.mem_map] at hs1 hs2
      obtain ⟨iv1, hiv1, hf1⟩ := hs1
      obtain ⟨iv2, hiv2, hf2⟩ := hs2
      obtain ⟨bxi1, hbxi1, hdw1⟩ := (hiff1 iv1).mp hiv1
      obtain ⟨byi2, hbyi2, bxi2, hbxi2, hdw2⟩ := (hiff2' iv2).mp hiv2
      obtain ⟨g1, hg1a, hg1b, hg1X, hg1Y, hg1i, _⟩ :=
        driverWrite_idx hbx hby hX hY
          (List.mem_range.mp hbxi1) hj hdw1
      obtain ⟨g2, hg2a, hg2b, hg2X, hg2Y, hg2i, _⟩ :=
        driverWrite_idx hbx hby hX hY
          (List.mem_range.mp hbxi2) (hl byi2 (List.mem_cons_of_mem j hbyi2)) hdw2
      have hieq : iv1.1 = iv2.1 := by rw [hf1, hf2]
      rw [hg1i, hg2i] at hieq
      obtain ⟨hga, hgb⟩ := imgIdx_inj hg1X hg2X hieq
      have hdisj := tile_disjoint b Y hy hby hY hj
        (hl byi2 (List.mem_cons_of_mem j hbyi2)) (fun hc => hnd.1 (hc ▸ hbyi2))
      rw [Finset.disjoint_left] at hdisj
      exact hdisj hg1b (hgb ▸ hg2b)
    · intro iv
      rw [List.mem_append]
      constructor
      · rintro (hm | hm)
        · obtain ⟨bxi1, hbxi1, hdw1⟩ := (hiff1 iv).mp hm
          exact ⟨j, List.mem_cons_self j jl, bxi1, hbxi1, hdw1⟩
        · obtain ⟨byi2, hb2, bxi2, hbx2, hd2⟩ := (hiff2' iv).mp hm
          exact ⟨byi2, List.mem_cons_of_mem j hb2, bxi2, hbx2, hd2⟩
      · rintro ⟨byi2, hb2, bxi2, hbx2, hd2⟩
        rcases List.mem_cons.mp hb2 with rfl | hb2'
        · exact Or.inl ((hiff1 iv).mpr ⟨bxi2, hbx2, hd2⟩)
        · exact Or.inr ((hiff2' iv).mpr ⟨byi2, hb2', bxi2, hbx2, hd2⟩)

theorem make_cap (b : ℕ) (dx dy : Dim) (input : ℕ → Val) :
    (MedCalc2D.make b dx dy input).wr.Cap (b * b) := by
  refine ⟨rfl, ?_⟩
  show (List.replicate (Window.getWords (b * b)) 0).length = _
  rw [List.length_replicate]
  rfl

set_option maxHeartbeats 2000000 in
theorem impl_2d_spec {X Y hx hy b : ℕ} (input : ℕ → Val)
    (hbx : 2 * hx + 1 < b) (hby : 2 * hy + 1 < b) (hX : 1 ≤ X) (hY : 1 ≤ Y) :
    ∃ ws, median_filter_impl_2d X Y hx hy b input = .ok ws ∧
      (ws.map Prod.fst).Nodup ∧
      ∀ iv, iv ∈ ws ↔ ∃ byi < (Dim.make b Y hy).count,
        ∃ bxi < (Dim.make b X hx).count, DriverWrite b X Y hx hy input bxi byi iv := by
  obtain ⟨mcF, ws, heq, hdx, hdy, hinp, hcap, hnd, hiff⟩ :=
    impl_fold_y MedCalc2D.run
      (fun mc hdx hdy hcap bxi byi hbxi hbyi =>
        run_spec mc hbx hby hX hY hdx hdy hcap hbxi hbyi)
      hbx hby hX hY (List.range (Dim.make b Y hy).count)
      (MedCalc2D.make b (Dim.make b X hx) (Dim.make b Y hy) input) []
      (fun j hj => List.mem_range.mp hj) rfl rfl (make_cap b _ _ input)
  refine ⟨ws, ?_, hnd (List.nodup_range _), ?_⟩
  · simp only [median_filter_impl_2d]
    rw [if_neg (by omega), heq]
    rfl
  · intro iv
    rw [hiff iv]
    constructor
    · rintro ⟨byi, hbyi, bxi, hbxi, hdw⟩
      exact ⟨byi, List.mem_range.mp hbyi, bxi, List.mem_range.mp hbxi, hdw⟩
    · rintro ⟨byi, hbyi, bxi, hbxi, hdw⟩
      exact ⟨byi, List.mem_range.mpr hbyi, bxi, List.mem_range.mpr hbxi, hdw⟩

set_option maxHeartbeats 2000000 in
theorem impl_2d_naive_spec {X Y hx hy b : ℕ} (input : ℕ → Val)
    (hbx : 2 * hx + 1 < b) (hby : 2 * hy + 1 < b) (hX : 1 ≤ X) (hY : 1 ≤ Y) :
    ∃ ws, median_filter_impl_2d_naive X Y hx hy b input = .ok ws ∧
      (ws.map Prod.fst).Nodup ∧
      ∀ iv, iv ∈ ws ↔ ∃ byi < (Dim.make b Y hy).count,
        ∃ bxi < (Dim.make b X hx).count, DriverWrite b X Y hx hy input bxi byi iv := by
  obtain ⟨mcF, ws, heq, hdx, hdy, hinp, hcap, hnd, hiff⟩ :=
    impl_fold_y MedCalc2D.run_naive
      (fun mc hdx hdy hcap bxi byi hbxi hbyi =>
        run_naive_spec mc hbx hby hX hY hdx hdy hcap hbxi hbyi)
      hbx hby hX hY (List.range (Dim.make b Y hy).count)
      (MedCalc2D.make b (Dim.make b X hx) (Dim.make b Y hy) input) []
      (fun j hj => List.mem_range.mp hj) rfl rfl (make_cap b _ _ input)
  refine ⟨ws, ?_, hnd (List.nodup_range _), ?_⟩
  · simp only [median_filter_impl_2d_naive]
    rw [if_neg (by omega), heq]
    rfl
  · intro iv
    rw [hiff iv]
    constructor
    · rintro ⟨byi, hbyi, bxi, hbxi, hdw⟩
      exact ⟨byi, List.mem_range.mp hbyi, bxi, List.mem_range.mp hbxi, hdw⟩
    · rintro ⟨byi, hbyi, bxi, hbxi, hdw⟩
      exact ⟨byi, List.mem_range.mpr hbyi, bxi, List.mem_range.mpr hbxi, hdw⟩

theorem applyWrites_frame (ws : List (ℕ × Val)) :
    ∀ (out0 : ℕ → Val) (i : ℕ), i ∉ ws.map Prod.fst →
    applyWrites ws out0 i = out0 i := by
  induction ws with
  | nil => intro out0 i h; rfl
  | cons wv t ih =>
    intro out0 i h
    rw [List.map_cons, List.mem_cons] at h
    push_neg at h
    show applyWrites t (Function.update out0 wv.1 wv.2) i = out0 i
    rw [ih _ i h.2, Function.update_noteq h.1]

theorem applyWrites_eq (ws : List (ℕ × Val)) :
    ∀ (out0 : ℕ → Val) (i : ℕ) (v : Val), (ws.map Prod.fst).Nodup →
    (i, v) ∈ ws → applyWrites ws out0 i = v := by
  induction ws with
  | nil => intro out0 i v _ h; exact absurd h (List.not_mem_nil _)
  | cons wv t ih =>
    intro out0 i v hnd hmem
    rw [List.map_cons, List.nodup_cons] at hnd
    rcases List.mem_cons.mp hmem with rfl | hmem'
    · show applyWrites t (Function.update out0 i v) i = v
      rw [applyWrites_frame t _ i hnd.1, Function.update_same]
    · exact ih _ i v hnd.2 hmem'

theorem applyWrites_ext {ws1 ws2 : List (ℕ × Val)} (out0 : ℕ → Val)
    (hnd1 : (ws1.map Prod.fst).Nodup) (hnd2 : (ws2.map Prod.fst).Nodup)
    (hmem : ∀ iv, iv ∈ ws1 ↔ iv ∈ ws2) :
    ∀ i, applyWrites ws1 out0 i = applyWrites ws2 out0 i := by
  intro i
  by_cases hin : i ∈ ws1.map Prod.fst
  · rw [List.mem_map] at hin
    obtain ⟨iv, hiv, hf⟩ := hin
    have hiv' : (i, iv.2) ∈ ws1 := by
      have : iv = (i, iv.2) := by rw [Prod.ext_iff]; exact ⟨hf, rfl⟩
      rw [← this]
      exact hiv
    rw [applyWrites_eq ws1 out0 i iv.2 hnd1 hiv',
      applyWrites_eq ws2 out0 i iv.2 hnd2 ((hmem _).mp hiv')]
  · have hin2 : i ∉ ws2.map Prod.fst := by
      intro hc
      rw [List.mem_map] at hc
      obtain ⟨iv, hiv, hf⟩ := hc
      refine hin ?_
      rw [List.mem_map]
      exact ⟨iv, (hmem iv).mpr hiv, hf⟩
    rw [applyWrites_frame ws1 out0 i hin, applyWrites_frame ws2 out0 i hin2]


/-- Claim C1: for every image of positive dimensions, every radius pair, and
every block-size hint whose resolved block size `b` fits the window
(`2*hx+1 < b` and `2*hy+1 < b`), `median_filter_2d` succeeds, and replaying
its write trace gives every output cell the sort-based reference median of
the non-NaN samples in the clipped window around that cell. -/
theorem C1_every_cell_reference_median {X Y hx hy b_hint : ℕ}
    (input out0 : ℕ → Val) (hX : 1 ≤ X) (hY : 1 ≤ Y)
    (hbx : 2 * hx + 1 < if b_hint ≠ 0 then b_hint else choose_blocksize_2d (max hx hy))
    (hby : 2 * hy + 1 < if b_hint ≠ 0 then b_hint else choose_blocksize_2d (max hx hy)) :
    ∃ ws, median_filter_2d X Y hx hy b_hint input = .ok ws ∧
      ∀ gx, gx < X → ∀ gy, gy < Y →
        applyWrites ws out0 (gy * X + gx) = refMedian X Y hx hy input gx gy := by
  set b := if b_hint ≠ 0 then b_hint else choose_blocksize_2d (max hx hy) with hb
  obtain ⟨ws, heq, hnd, hiff⟩ := impl_2d_spec input hbx hby hX hY
  refine ⟨ws, ?_, ?_⟩
  · simp only [median_filter_2d]
    rw [← hb]
    exact heq
  · intro gx hgx gy hgy
    obtain ⟨bxi, hbxi, hgx2⟩ := tile_cover b X hx hbx hX hgx
    obtain ⟨byi, hbyi, hgy2⟩ := tile_cover b Y hy hby hY hgy
    have hdw : DriverWrite b X Y hx hy input bxi byi
        (gy * X + gx, refMedian X Y hx hy input gx gy) :=
      ⟨(gx, gy), hgx2, hgy2, rfl⟩
    exact applyWrites_eq ws out0 _ _ hnd
      ((hiff _).mpr ⟨byi, hbyi, bxi, hbxi, hdw⟩)

theorem C1_witness :
    (1 ≤ 1 ∧ 2 * 0 + 1 < if (2 : ℕ) ≠ 0 then 2 else choose_blocksize_2d (max 0 0)) ∧
    ∃ ws, median_filter_2d 1 1 0 0 2 (fun _ => some 5) = .ok ws ∧
      ∀ gx, gx < 1 → ∀ gy, gy < 1 →
        applyWrites ws (fun _ => none) (gy * 1 + gx) =
          refMedian 1 1 0 0 (fun _ => some 5) gx gy :=
  ⟨⟨by decide, by decide⟩,
    C1_every_cell_reference_median (fun _ => some 5) (fun _ => none)
      (by decide) (by decide) (by decide) (by decide)⟩

/-- Claim C2: the snake (serpentine) driver and the naive driver both
succeed on every valid configuration and their write traces replay to the
same output function over any initial buffer: the two traversals produce
identical outputs. -/
theorem C2_snake_eq_naive {X Y hx hy b : ℕ} (input out0 : ℕ → Val)
    (hX : 1 ≤ X) (hY : 1 ≤ Y) (hbx : 2 * hx + 1 < b) (hby : 2 * hy + 1 < b) :
    ∃ ws ws2, median_filter_impl_2d X Y hx hy b input = .ok ws ∧
      median_filter_impl_2d_naive X Y hx hy b input = .ok ws2 ∧
      ∀ i, applyWrites ws out0 i = applyWrites ws2 out0 i := by
  obtain ⟨ws, heq, hnd, hiff⟩ := impl_2d_spec input hbx hby hX hY
  obtain ⟨ws2, heq2, hnd2, hiff2⟩ := impl_2d_naive_spec input hbx hby hX hY
  refine ⟨ws, ws2, heq, heq2, applyWrites_ext out0 hnd hnd2 ?_⟩
  intro iv
  rw [hiff iv, hiff2 iv]

theorem C2_witness :
    (1 ≤ 1 ∧ 2 * 0 + 1 < 2) ∧
    ∃ ws ws2, median_filter_impl_2d 1 1 0 0 2 (fun _ => some 3) = .ok ws ∧
      median_filter_impl_2d_naive 1 1 0 0 2 (fun _ => some 3) = .ok ws2 ∧
      ∀ i, applyWrites ws (fun _ => none) i = applyWrites ws2 (fun _ => none) i :=
  ⟨⟨by decide, by decide⟩,
    C2_snake_eq_naive (fun _ => some 3) (fun _ => none)
      (by decide) (by decide) (by decide) (by decide)⟩

/-- Claim C3: refuted — the guard in `median_filter_impl_2d` is strict
(`2*h+1 > b`), not the claimed `≥`: with hint 3 and radii 1 the resolved
block size is 3, so `2*hx+1 = 3 ≥ 3` demands the error per the spec, yet
the driver succeeds; the `Dim` constructor assertion `2*h+1 < b` fails on
this very configuration. -/
theorem C3_guard_is_strict : 2 * 1 + 1 ≥ 3 ∧
    (∃ ws, median_filter_2d 4 4 1 1 3 (fun _ => none) = Except.ok ws) ∧
    ¬ Dim.asserts 3 4 1 :=
  ⟨by omega, ⟨_, rfl⟩, by decide⟩

/-- Claim C4: refuted — neither `median_filter_2d` nor
`median_filter_impl_2d` checks for an empty image: with X = 0 the driver
raises no error, and it still emits a write (the first median write of a
block is unconditional), so on this input both the claimed `InvalidDim`
and the claimed "no output on failure" are violated. -/
theorem C4_no_empty_image_check :
    ∃ w ws, median_filter_2d 0 5 1 1 4 (fun _ => none) = Except.ok (w :: ws) :=
  ⟨_, _, rfl⟩

/-- Claim C5: on every `WindowRank` state reached by a valid init and any
sequence of valid updates and queries, `get_med` returns the §4.2 median
of the multiset of non-NaN samples currently in the window: `none` (the
quiet NaN) when that multiset is empty, else the lower-middle value or
the arithmetic mean of the two middle values. -/
theorem C5_get_med_correct {bb : ℕ} {feeds : List (Val × ℕ)} {C : Finset ℕ}
    {wr : WindowRank} (hr : WindowRank.Reach bb feeds C wr) :
    (wr.get_med).1 = medSpec (activeVals feeds C) :=
  get_med_spec (reach_wrInv hr)

theorem C5_witness :
    (((((WindowRank.init 1).init_start.feedAll
        [(some 5, 0)]).init_finish).clear).get_med).1 =
      medSpec (activeVals [(some 5, 0)] ∅) :=
  C5_get_med_correct
    (@WindowRank.Reach.base 1 [(some 5, 0)] (WindowRank.init 1)
      ⟨by decide, by decide⟩ ⟨by decide, by decide, by decide⟩)

/-- Claim C6: on every reachable window and every goal in `[0, size)`,
`find` returns the position of the `(goal+1)`-th set bit — the returned
index has its bit set and exactly `goal` set bits lie strictly below it —
and the nth-set-bit primitive is exact on both the portable
(clear-lowest) and the PDEP code paths. -/
theorem C6_find_nth_set_bit {w : Window} (hr : w.Reach) {goal : ℤ}
    (h0 : 0 ≤ goal) (hlt : goal < w.size) :
    (w.bitAt (w.find goal).1 = true ∧
      (w.countBelow (w.find goal).1 : ℤ) = goal) ∧
    ∀ x n : ℕ, n < popcnt64 x →
      findnth64 x n = (bitIdxs x).getD n 0 ∧
      findnth64_pdep x n = (bitIdxs x).getD n 0 := by
  have hInv := reach_inv hr
  have hsz := hInv.size_eq
  have hlen : goal.toNat < w.allBits.length := by omega
  obtain ⟨hf1, _, _, _, _⟩ := find_spec w goal hInv h0 hlt
  obtain ⟨hcb1, hcb2⟩ := countBelow_getD hInv hlen
  refine ⟨⟨?_, ?_⟩, fun x n hn => ⟨findnth64_spec hn, findnth64_pdep_spec hn⟩⟩
  · rw [hf1]
    exact hcb2
  · rw [hf1, hcb1]
    omega

theorem C6_witness :
    ((0 : ℤ) ≤ 0 ∧ (0 : ℤ) < (((Window.init 1).clear).update 1 0).size) ∧
    ((((Window.init 1).clear).update 1 0).bitAt
        ((((Window.init 1).clear).update 1 0).find 0).1 = true ∧
      ((((Window.init 1).clear).update 1 0).countBelow
        ((((Window.init 1).clear).update 1 0).find 0).1 : ℤ) = 0) ∧
    ∀ x n : ℕ, n < popcnt64 x →
      findnth64 x n = (bitIdxs x).getD n 0 ∧
      findnth64_pdep x n = (bitIdxs x).getD n 0 :=
  ⟨⟨by decide, by decide⟩,
    C6_find_nth_set_bit
      (Window.Reach.update _ 1 0
        (Window.Reach.clear (Window.init 1) (by decide) (by decide))
        ⟨by decide, Or.inl ⟨rfl, by decide⟩⟩)
      (by decide) (by decide)⟩

/-- Claim C7: for every `b`, `size`, `h` with `2h+1 < b` and `size ≥ 1`,
the `Dim` constructor computes the claimed count and every one of its
assertions holds: `count ≥ 1`, `2h + count*step ≥ size`, and
`2h + (count-1)*step < size` unless `count = 1`. -/
theorem C7_dim_invariants {b size h : ℕ} (hb : 2 * h + 1 < b)
    (hsize : 1 ≤ size) :
    (Dim.make b size h).count =
      (if size ≤ b then 1 else (size - 2 * h + (b - 2 * h) - 1) / (b - 2 * h)) ∧
    Dim.asserts b size h := by
  refine ⟨?_, dim_asserts_hold b size h hb hsize⟩
  rw [dim_count]
  simp only [Dim.calcCount, Dim.calcStep]

theorem C7_witness : (2 * 1 + 1 < 4 ∧ 1 ≤ 9) ∧
    ((Dim.make 4 9 1).count =
      (if 9 ≤ 4 then 1 else (9 - 2 * 1 + (4 - 2 * 1) - 1) / (4 - 2 * 1)) ∧
    Dim.asserts 4 9 1) :=
  ⟨⟨by decide, by decide⟩, C7_dim_invariants (by decide) (by decide)⟩

/-- Claim C8: per axis, the tile interiors `[start + b0, start + b1)` of a
valid `Dim` are pairwise disjoint and their union is exactly `[0, size)`;
consequently the 2-D block interiors partition the image with no overlap
and full coverage. -/
theorem C8_tiles_partition {b X Y hx hy : ℕ} (hbx : 2 * hx + 1 < b)
    (hby : 2 * hy + 1 < b) (hX : 1 ≤ X) (hY : 1 ≤ Y) :
    ((Finset.range (Dim.make b X hx).count).biUnion
        (tileInterior (Dim.make b X hx)) = Finset.range X ∧
      ∀ i j : ℕ, i < (Dim.make b X hx).count → j < (Dim.make b X hx).count →
        i ≠ j → Disjoint (tileInterior (Dim.make b X hx) i)
          (tileInterior (Dim.make b X hx) j)) ∧
    ((Finset.range (Dim.make b X hx).count ×ˢ
        Finset.range (Dim.make b Y hy).count).biUnion
        (fun ij => tileInterior (Dim.make b X hx) ij.1 ×ˢ
          tileInterior (Dim.make b Y hy) ij.2) =
      Finset.range X ×ˢ Finset.range Y ∧
      ∀ p q : ℕ × ℕ, p.1 < (Dim.make b X hx).count →
        p.2 < (Dim.make b Y hy).count → q.1 < (Dim.make b X hx).count →
        q.2 < (Dim.make b Y hy).count → p ≠ q →
        Disjoint
          (tileInterior (Dim.make b X hx) p.1 ×ˢ
            tileInterior (Dim.make b Y hy) p.2)
          (tileInterior (Dim.make b X hx) q.1 ×ˢ
            tileInterior (Dim.make b Y hy) q.2)) := by
  refine ⟨⟨tile_biUnion b X hx hbx hX,
    fun i j hi hj hne => tile_disjoint b X hx hbx hX hi hj hne⟩, ?_, ?_⟩
  · ext g
    rw [Finset.mem_biUnion, Finset.mem_product, Finset.mem_range, Finset.mem_range]
    constructor
    · rintro ⟨ij, hij, hg⟩
      rw [Finset.mem_product, Finset.mem_range, Finset.mem_range] at hij
      rw [Finset.mem_product] at hg
      exact ⟨tileInterior_lt hbx hX hij.1 hg.1, tileInterior_lt hby hY hij.2 hg.2⟩
    · rintro ⟨hg1, hg2⟩
      obtain ⟨i, hi, hgi⟩ := tile_cover b X hx hbx hX hg1
      obtain ⟨j, hj, hgj⟩ := tile_cover b Y hy hby hY hg2
      refine ⟨(i, j), ?_, ?_⟩
      · rw [Finset.mem_product, Finset.mem_range, Finset.mem_range]
        exact ⟨hi, hj⟩
      · rw [Finset.mem_product]
        exact ⟨hgi, hgj⟩
  · intro p q hp1 hp2 hq1 hq2 hne
    rw [Finset.disjoint_left]
    rintro ⟨a, c⟩ hmem1 hmem2
    rw [Finset.mem_product] at hmem1 hmem2
    rcases Classical.em (p.1 = q.1) with he1 | he1
    · have hne2 : p.2 ≠ q.2 := fun he2 => hne (Prod.ext he1 he2)
      have hd := tile_disjoint b Y hy hby hY hp2 hq2 hne2
      rw [Finset.disjoint_left] at hd
      exact hd hmem1.2 hmem2.2
    · have hd := tile_disjoint b X hx hbx hX hp1 hq1 he1
      rw [Finset.disjoint_left] at hd
      exact hd hmem1.1 hmem2.1

theorem C8_witness : (2 * 1 + 1 < 4 ∧ 1 ≤ 5) ∧
    (((Finset.range (Dim.make 4 5 1).count).biUnion
        (tileInterior (Dim.make 4 5 1)) = Finset.range 5 ∧
      ∀ i j : ℕ, i < (Dim.make 4 5 1).count → j < (Dim.make 4 5 1).count →
        i ≠ j → Disjoint (tileInterior (Dim.make 4 5 1) i)
          (tileInterior (Dim.make 4 5 1) j)) ∧
    ((Finset.range (Dim.make 4 5 1).count ×ˢ
        Finset.range (Dim.make 4 5 1).count).biUnion
        (fun ij => tileInterior (Dim.make 4 5 1) ij.1 ×ˢ
          tileInterior (Dim.make 4 5 1) ij.2) =
      Finset.range 5 ×ˢ Finset.range 5 ∧
      ∀ p q : ℕ × ℕ, p.1 < (Dim.make 4 5 1).count →
        p.2 < (Dim.make 4 5 1).count → q.1 < (Dim.make 4 5 1).count →
        q.2 < (Dim.make 4 5 1).count → p ≠ q →
        Disjoint
          (tileInterior (Dim.make 4 5 1) p.1 ×ˢ
            tileInterior (Dim.make 4 5 1) p.2)
          (tileInterior (Dim.make 4 5 1) q.1 ×ˢ
            tileInterior (Dim.make 4 5 1) q.2))) :=
  ⟨⟨by decide, by decide⟩,
    C8_tiles_partition (by decide) (by decide) (by decide) (by decide)⟩

/-- Claim C9: `find` is observationally pure on the reachable states: for
every in-range goal it leaves the bit buffer unchanged, leaves
`size = half0 + half1` unchanged, and the returned state again satisfies
the half/popcount invariant (`half0` is the popcount of `buf[0..p)` and
`half1` that of `buf[p..words)`). -/
theorem C9_find_pure {w : Window} (hr : w.Reach) {goal : ℤ}
    (h0 : 0 ≤ goal) (hlt : goal < w.size) :
    (w.find goal).2.buf = w.buf ∧ (w.find goal).2.size = w.size ∧
      (w.find goal).2.Inv := by
  obtain ⟨_, hInv2, hbuf, hwords, hsize⟩ := find_spec w goal (reach_inv hr) h0 hlt
  exact ⟨hbuf, hsize, hInv2⟩

theorem C9_witness :
    ((0 : ℤ) ≤ 0 ∧ (0 : ℤ) < (((Window.init 2).clear).update 1 1).size) ∧
    (((((Window.init 2).clear).update 1 1).find 0).2.buf =
        (((Window.init 2).clear).update 1 1).buf ∧
      ((((Window.init 2).clear).update 1 1).find 0).2.size =
        (((Window.init 2).clear).update 1 1).size ∧
      ((((Window.init 2).clear).update 1 1).find 0).2.Inv) :=
  ⟨⟨by decide, by decide⟩,
    C9_find_pure
      (Window.Reach.update _ 1 1
        (Window.Reach.clear (Window.init 2) (by decide) (by decide))
        ⟨by decide, Or.inl ⟨rfl, by decide⟩⟩)
      (by decide) (by decide)⟩

/-- Claim C10: in `get_med`, whenever the two goals `(n-1)/2` and `n/2`
differ (the even-size case in which the second `find` runs), the index the
second `find` returns is strictly greater than the index the first one
returned: the `med2 > med1` assertion holds, `find` being strictly
monotone in its goal on a fixed bit multiset. -/
theorem C10_med2_gt_med1 {bb : ℕ} {feeds : List (Val × ℕ)} {C : Finset ℕ}
    {wr : WindowRank} (hr : WindowRank.Reach bb feeds C wr)
    (hgoals : (wr.window.size - 0).tdiv 2 ≠ (wr.window.size - 1).tdiv 2) :
    ((wr.window.find ((wr.window.size - 1).tdiv 2)).2.find
        ((wr.window.size - 0).tdiv 2)).1 >
      (wr.window.find ((wr.window.size - 1).tdiv 2)).1 := by
  have hInv : wr.window.Inv := (reach_wrInv hr).hwInv
  have hsize := hInv.size_eq
  set L := wr.window.allBits.length with hL
  have hn1 : 1 ≤ L := by
    by_contra hc
    push_neg at hc
    have hL0 : L = 0 := by omega
    apply hgoals
    rw [hsize, hL0]
    decide
  have hg1 : (wr.window.size - 1).tdiv 2 = (((L - 1) / 2 : ℕ) : ℤ) := by
    rw [hsize]
    have e1 : ((L : ℤ) - 1) = (((L - 1 : ℕ)) : ℤ) := by omega
    rw [e1, show (2 : ℤ) = ((2 : ℕ) : ℤ) from rfl, ← Int.ofNat_tdiv]
  have hg2 : (wr.window.size - 0).tdiv 2 = ((L / 2 : ℕ) : ℤ) := by
    rw [hsize]
    have e1 : ((L : ℤ) - 0) = ((L : ℕ) : ℤ) := by omega
    rw [e1, show (2 : ℤ) = ((2 : ℕ) : ℤ) from rfl, ← Int.ofNat_tdiv]
  have hne : (L : ℕ) / 2 ≠ (L - 1) / 2 := by
    intro hc
    apply hgoals
    rw [hg1, hg2, hc]
  have hlt12 : (L - 1) / 2 < L / 2 := by omega
  obtain ⟨hf1, hI1, hb1, hw1, hs1⟩ :=
    find_spec wr.window ((wr.window.size - 1).tdiv 2) hInv
      (by rw [hg1]; positivity)
      (by rw [hg1, hsize]; exact_mod_cast (by omega : (L - 1) / 2 < L))
  have hAB2 : (wr.window.find ((wr.window.size - 1).tdiv 2)).2.allBits =
      wr.window.allBits := allBits_congr hb1 hw1
  obtain ⟨hf2, hI2, hb2, hw2, hs2⟩ :=
    find_spec (wr.window.find ((wr.window.size - 1).tdiv 2)).2
      ((wr.window.size - 0).tdiv 2) hI1
      (by rw [hg2]; positivity)
      (by rw [hs1, hg2, hsize]; exact_mod_cast (by omega : L / 2 < L))
  rw [hf1, hf2, hAB2, hg1, hg2, Int.toNat_natCast, Int.toNat_natCast]
  have hsor := allBits_sorted hInv
  have hlen1 : (L - 1) / 2 < wr.window.allBits.length := by omega
  have hlen2 : L / 2 < wr.window.allBits.length := by omega
  rw [List.getD_eq_getElem _ 0 hlen1, List.getD_eq_getElem _ 0 hlen2]
  have hmono := List.Sorted.rel_get_of_lt hsor
    (Fin.mk_lt_mk.mpr hlt12 :
      (⟨(L - 1) / 2, hlen1⟩ : Fin wr.window.allBits.length) < ⟨L / 2, hlen2⟩)
  rw [List.get_eq_getElem, List.get_eq_getElem] at hmono
  exact hmono

theorem C10_witness :
    ((((((((WindowRank.init 2).init_start.feedAll
            [(some 1, 0), (some 2, 1)]).init_finish).clear).update 1 0).update
          1 1).window.size - 0).tdiv 2 ≠
        ((((((((WindowRank.init 2).init_start.feedAll
            [(some 1, 0), (some 2, 1)]).init_finish).clear).update 1 0).update
          1 1).window.size - 1).tdiv 2)) ∧
    ((((((((WindowRank.init 2).init_start.feedAll
          [(some 1, 0), (some 2, 1)]).init_finish).clear).update 1 0).update
        1 1).window.find
          ((((((((WindowRank.init 2).init_start.feedAll
            [(some 1, 0), (some 2, 1)]).init_finish).clear).update 1 0).update
          1 1).window.size - 1).tdiv 2)).2.find
        ((((((((WindowRank.init 2).init_start.feedAll
          [(some 1, 0), (some 2, 1)]).init_finish).clear).update 1 0).update
        1 1).window.size - 0).tdiv 2)).1 >
      (((((((WindowRank.init 2).init_start.feedAll
          [(some 1, 0), (some 2, 1)]).init_finish).clear).update 1 0).update
        1 1).window.find
          ((((((((WindowRank.init 2).init_start.feedAll
            [(some 1, 0), (some 2, 1)]).init_finish).clear).update 1 0).update
          1 1).window.size - 1).tdiv 2)).1 :=
  ⟨by decide,
    C10_med2_gt_med1
      (WindowRank.Reach.insert _ _ (some 2) 1
        (WindowRank.Reach.insert _ _ (some 1) 0
          (@WindowRank.Reach.base 2 [(some 1, 0), (some 2, 1)]
            (WindowRank.init 2) ⟨by decide, by decide⟩
            ⟨by decide, by decide, by decide⟩)
          (by decide) (by decide))
        (by decide) (by decide))
      (by decide)⟩

end Skykit
